import Mathlib

/-!
# Verification of `pyomo.core.base.component_uid.ComponentUID`

A shallow embedding, in Lean 4, of the `ComponentUID` class of
`src/pyomo/core/base/component_uid.py`, together with theorems settling the
frozen claims about it.

Conventions of the embedding:

* Python strings are embedded as `List Char` (named `PStr`), so that the
  string-splitting and joining done by the codec can be reasoned about by
  ordinary list induction.
* Python primitive values that can appear as index values or dictionary keys
  are embedded as the inductive type `PyVal` (`None`, `Ellipsis`, `int`,
  `str`, `slice`, tuples).  Python `==` on these values is structural
  equality, which agrees with Python semantics on this fragment (no numeric
  cross-type equalities arise: there are no floats or bools here).
* Python exceptions are embedded as the error type `PyErr` of an
  `Except PyErr` monad; the distinct exception classes raised or caught by
  the source (`ValueError`, `KeyError`, `AttributeError`, `TypeError`,
  `IndexError`, `NotImplementedError`, `NameError`) are distinguished.
* The model tree (pyomo blocks / indexed components), which the source
  consumes only through the narrow interface of §6 of the spec
  (parent/child navigation, `iteritems`, keyed lookup, identity), is not
  part of `src/`; it is modelled from the spec as a finite, prefix-closed
  map from access paths to node kinds, with object identity embedded as
  path equality.
-/

set_option maxHeartbeats 1000000

namespace CUID

/-- Embedded Python string: a list of characters. -/
abbrev PStr := List Char

/-- Embedded Python primitive values, as they appear in CUID index tuples and
as keys of indexed components.  `vSlice a b c` is `slice(a, b, c)`; Python's
one-argument call `slice(x)` is `slice(None, x, None)`. -/
inductive PyVal where
  | vNone : PyVal
  | vEllipsis : PyVal
  | vInt (n : Int) : PyVal
  | vStr (s : PStr) : PyVal
  | vSlice (start stop step : PyVal) : PyVal
  | vTuple (vs : List PyVal) : PyVal

mutual

/-- Decidable equality for `PyVal` (hand-written because of the nested
`List PyVal`). -/
def PyVal.decEq : (a b : PyVal) → Decidable (a = b)
  | .vNone, .vNone => isTrue rfl
  | .vEllipsis, .vEllipsis => isTrue rfl
  | .vInt a, .vInt b =>
    if h : a = b then isTrue (by rw [h])
    else isFalse (by intro hh; injection hh; contradiction)
  | .vStr a, .vStr b =>
    if h : a = b then isTrue (by rw [h])
    else isFalse (by intro hh; injection hh; contradiction)
  | .vSlice a b c, .vSlice a' b' c' =>
    match PyVal.decEq a a', PyVal.decEq b b', PyVal.decEq c c' with
    | isTrue h1, isTrue h2, isTrue h3 => isTrue (by rw [h1, h2, h3])
    | isFalse h1, _, _ => isFalse (by intro hh; injection hh; contradiction)
    | _, isFalse h2, _ => isFalse (by intro hh; injection hh; contradiction)
    | _, _, isFalse h3 => isFalse (by intro hh; injection hh; contradiction)
  | .vTuple vs, .vTuple ws =>
    match PyVal.decEqList vs ws with
    | isTrue h => isTrue (by rw [h])
    | isFalse h => isFalse (by intro hh; injection hh; contradiction)
  | .vNone, .vEllipsis => isFalse (fun h => nomatch h)
  | .vNone, .vInt _ => isFalse (fun h => nomatch h)
  | .vNone, .vStr _ => isFalse (fun h => nomatch h)
  | .vNone, .vSlice _ _ _ => isFalse (fun h => nomatch h)
  | .vNone, .vTuple _ => isFalse (fun h => nomatch h)
  | .vEllipsis, .vNone => isFalse (fun h => nomatch h)
  | .vEllipsis, .vInt _ => isFalse (fun h => nomatch h)
  | .vEllipsis, .vStr _ => isFalse (fun h => nomatch h)
  | .vEllipsis, .vSlice _ _ _ => isFalse (fun h => nomatch h)
  | .vEllipsis, .vTuple _ => isFalse (fun h => nomatch h)
  | .vInt _, .vNone => isFalse (fun h => nomatch h)
  | .vInt _, .vEllipsis => isFalse (fun h => nomatch h)
  | .vInt _, .vStr _ => isFalse (fun h => nomatch h)
  | .vInt _, .vSlice _ _ _ => isFalse (fun h => nomatch h)
  | .vInt _, .vTuple _ => isFalse (fun h => nomatch h)
  | .vStr _, .vNone => isFalse (fun h => nomatch h)
  | .vStr _, .vEllipsis => isFalse (fun h => nomatch h)
  | .vStr _, .vInt _ => isFalse (fun h => nomatch h)
  | .vStr _, .vSlice _ _ _ => isFalse (fun h => nomatch h)
  | .vStr _, .vTuple _ => isFalse (fun h => nomatch h)
  | .vSlice _ _ _, .vNone => isFalse (fun h => nomatch h)
  | .vSlice _ _ _, .vEllipsis => isFalse (fun h => nomatch h)
  | .vSlice _ _ _, .vInt _ => isFalse (fun h => nomatch h)
  | .vSlice _ _ _, .vStr _ => isFalse (fun h => nomatch h)
  | .vSlice _ _ _, .vTuple _ => isFalse (fun h => nomatch h)
  | .vTuple _, .vNone => isFalse (fun h => nomatch h)
  | .vTuple _, .vEllipsis => isFalse (fun h => nomatch h)
  | .vTuple _, .vInt _ => isFalse (fun h => nomatch h)
  | .vTuple _, .vStr _ => isFalse (fun h => nomatch h)
  | .vTuple _, .vSlice _ _ _ => isFalse (fun h => nomatch h)

/-- Decidable equality for lists of `PyVal`. -/
def PyVal.decEqList : (a b : List PyVal) → Decidable (a = b)
  | [], [] => isTrue rfl
  | [], _ :: _ => isFalse (fun h => nomatch h)
  | _ :: _, [] => isFalse (fun h => nomatch h)
  | a :: as, b :: bs =>
    match PyVal.decEq a b, PyVal.decEqList as bs with
    | isTrue h1, isTrue h2 => isTrue (by rw [h1, h2])
    | isFalse h1, _ => isFalse (by intro hh; injection hh; contradiction)
    | _, isFalse h2 => isFalse (by intro hh; injection hh; contradiction)

end

instance : DecidableEq PyVal := PyVal.decEq

/-- Python `slice(None)`, the single-position wildcard sentinel. -/
def sliceNone : PyVal := .vSlice .vNone .vNone .vNone

/-- The second component of a `_cids` entry: either the Python *string*
`'**'` (the full-wildcard convention of `parse_cuid` and `_generate_cuid`)
or a tuple of index values.  The two are distinct Python values and compare
unequal, which the embedding preserves. -/
inductive CArgs where
  | star2 : CArgs
  | tup (vs : List PyVal) : CArgs
  deriving DecidableEq

/-- Python `len` of a `_cids` args entry: `len('**') = 2` for the string
form, tuple length otherwise. -/
def CArgs.len : CArgs → Nat
  | .star2 => 2
  | .tup vs => vs.length

/-- Python indexing `idx[j]` of a `_cids` args entry: indexing the string
`'**'` yields the one-character string `'*'`. -/
def CArgs.get : CArgs → Nat → PyVal
  | .star2, _ => .vStr ['*']
  | .tup vs, j => vs.getD j .vNone

/-- One `_cids` entry `(name, args, types)`. `types = none` embeds Python
`None`; otherwise it is the type-character string. -/
structure Cid where
  name : PStr
  args : CArgs
  types : Option (List Char)
  deriving DecidableEq

/-- Embedded Python exceptions. -/
inductive PyErr where
  | valueError
  | keyError
  | attributeError
  | typeError
  | indexError
  | notImplementedError
  | nameError
  deriving DecidableEq

/-- Decidable equality for `Except` results. -/
def exceptDecEq {e a : Type} [DecidableEq e] [DecidableEq a] :
    (x y : Except e a) → Decidable (x = y)
  | .ok u, .ok v =>
    if h : u = v then isTrue (by rw [h])
    else isFalse (by intro hh; injection hh; contradiction)
  | .error u, .error v =>
    if h : u = v then isTrue (by rw [h])
    else isFalse (by intro hh; injection hh; contradiction)
  | .ok _, .error _ => isFalse (fun h => nomatch h)
  | .error _, .ok _ => isFalse (fun h => nomatch h)

instance {e a : Type} [DecidableEq e] [DecidableEq a] : DecidableEq (Except e a) :=
  exceptDecEq

/-! ## Python string primitives -/

/-- Python `s.split(sep)` for a one-character separator: full split, keeping
empty pieces; `''.split(sep) = ['']`. -/
def pySplit (s : PStr) (sep : Char) : List PStr :=
  match s with
  | [] => [[]]
  | c :: rest =>
    let r := pySplit rest sep
    if c = sep then [] :: r
    else
      match r with
      | x :: xs => (c :: x) :: xs
      | [] => [[c]]

/-- Python `s.split(sep, 1)`: split at the first occurrence only; the second
component is `none` when the separator does not occur. -/
def pySplitOnce (s : PStr) (sep : Char) : PStr × Option PStr :=
  match s with
  | [] => ([], none)
  | c :: rest =>
    if c = sep then ([], some rest)
    else
      let r := pySplitOnce rest sep
      (c :: r.1, r.2)

/-- Python `sep.join(xs)` for a one-character separator. -/
def pyJoin (sep : Char) (xs : List PStr) : PStr :=
  List.intercalate [sep] xs

/-- Decimal digits of a natural number, most significant first, written with
structural recursion on a fuel bound (any fuel above the digit count gives
the same answer; `natDigits` supplies `n + 1`, which always suffices). -/
def natDigitsAux : Nat → Nat → PStr → PStr
  | 0, _, acc => acc
  | f + 1, n, acc =>
    if n < 10 then Char.ofNat (48 + n) :: acc
    else natDigitsAux f (n / 10) (Char.ofNat (48 + n % 10) :: acc)

/-- Decimal digits of a natural number, most significant first. -/
def natDigits (n : Nat) : PStr := natDigitsAux (n + 1) n []

/-- Python `str(z)` for an `int`. -/
def intRepr (z : Int) : PStr :=
  if z < 0 then '-' :: natDigits z.natAbs else natDigits z.toNat

/-- Decimal digit value of a character, if it is one. -/
def digitVal (c : Char) : Option Nat :=
  if '0' ≤ c ∧ c ≤ '9' then some (c.toNat - 48) else none

/-- Accumulating decimal reading of a digit string. -/
def natFromDigits (acc : Nat) : PStr → Option Nat
  | [] => some acc
  | c :: cs =>
    match digitVal c with
    | some d => natFromDigits (acc * 10 + d) cs
    | none => none

/-- The characters Python's `int()` strips from both ends of its string
argument, restricted to ASCII (the remaining stripped code points are
non-ASCII Unicode spaces). -/
def pyIntWs (c : Char) : Bool :=
  c == ' ' || c == '\t' || c == '\n' || c == '\x0b' || c == '\x0c' || c == '\r'

/-- Accumulating decimal reading of a digit string in which a single `_`
may stand between two digits (accepted by `int()` since Python 3.6); the
flag records whether the previous character was a digit, so an underscore
is consumed only after a digit and the run must end on a digit. -/
def natFromUDigits (acc : Nat) (prevDigit : Bool) : PStr → Option Nat
  | [] => if prevDigit then some acc else none
  | c :: cs =>
    match digitVal c with
    | some d => natFromUDigits (acc * 10 + d) true cs
    | none =>
      if c = '_' then
        if prevDigit then natFromUDigits acc false cs else none
      else none

/-- The digit run of `int()` after the optional sign: one or more decimal
digits with single embedded underscores. -/
def pyIntBody : PStr → Option Nat
  | [] => none
  | c :: cs =>
    match digitVal c with
    | some d => natFromUDigits d true cs
    | none => none

/-- `int()` on the whitespace-stripped text: an optional single sign
followed by the digit run. -/
def pyIntSigned : PStr → Except PyErr Int
  | '-' :: rest =>
    match pyIntBody rest with
    | some n => .ok (-(n : Int))
    | none => .error .valueError
  | '+' :: rest =>
    match pyIntBody rest with
    | some n => .ok ((n : Int))
    | none => .error .valueError
  | s =>
    match pyIntBody s with
    | some n => .ok ((n : Int))
    | none => .error .valueError

/-- Python `int(s)` on a string, over the ASCII fragment: whitespace is
stripped from both ends, then an optional single sign is followed by one
or more decimal digits with single embedded underscores; anything else
raises `ValueError`.  (Non-ASCII forms — Unicode spaces and Unicode
decimal digits — are outside the model; the string hypotheses of the
development are restricted to ASCII where this matters.) -/
def pyParseInt (s : PStr) : Except PyErr Int :=
  pyIntSigned (((s.dropWhile pyIntWs).reverse.dropWhile pyIntWs).reverse)

mutual

/-- Python `repr` of an embedded value (string components quoted with `'`;
escaping is not modelled, and is never exercised). -/
def pyRepr : PyVal → PStr
  | .vNone => "None".toList
  | .vEllipsis => "Ellipsis".toList
  | .vInt n => intRepr n
  | .vStr s => '\'' :: (s ++ ['\''])
  | .vSlice a b c =>
    "slice(".toList ++ pyRepr a ++ ", ".toList ++ pyRepr b ++ ", ".toList ++
      pyRepr c ++ [')']
  | .vTuple [v] => '(' :: (pyRepr v ++ ",)".toList)
  | .vTuple vs => '(' :: (pyReprList vs ++ [')'])

/-- Comma-separated `repr`s of a list of values. -/
def pyReprList : List PyVal → PStr
  | [] => []
  | [v] => pyRepr v
  | v :: vs => pyRepr v ++ ", ".toList ++ pyReprList vs

end

/-- Python `str` of an embedded value: identity on strings, `repr`-like on
everything else. -/
def pyStr : PyVal → PStr
  | .vStr s => s
  | v => pyRepr v

/-! ## `_partial_cuid_*` helpers of the source -/

/-- `ComponentUID.tDict.get(type(x), '?')`: the fixed type-symbol table
mapping `int ↦ '#'`, `str ↦ '$'`, `slice ↦ '*'`, anything else to `'?'`. -/
def typeChar : PyVal → Char
  | .vInt _ => '#'
  | .vStr _ => '$'
  | .vSlice _ _ _ => '*'
  | _ => '?'

/-- `ComponentUID._generate_validated_index`, with the two boolean flags
`encountered_fixed` / `encountered_ellipsis` made explicit.  The generator is
always fully consumed by `tuple(...)` in the source, so the first offending
element determines the raised error. -/
def validatedIndexAux : List PyVal → Bool → Bool → Except PyErr (List PyVal)
  | [], _, _ => .ok []
  | v :: vs, encFixed, encEll =>
    if v = sliceNone then do
      let rest ← validatedIndexAux vs encFixed encEll
      .ok (.vStr [] :: rest)
    else if v = .vEllipsis then
      if encEll then .error .notImplementedError
      else if encFixed then .error .notImplementedError
      else do
        let rest ← validatedIndexAux vs encFixed true
        .ok (.vStr ['*', '*'] :: rest)
    else if encEll then .error .notImplementedError
    else do
      let rest ← validatedIndexAux vs true encEll
      .ok (v :: rest)

/-- `tuple(self._generate_validated_index(idx))`. -/
def validatedIndex (idx : List PyVal) : Except PyErr (List PyVal) :=
  validatedIndexAux idx false false

/-- `ComponentUID._partial_cuid_from_index`. -/
def partialFromIndex (idx : PyVal) : Except PyErr (CArgs × Option (List Char)) :=
  match idx with
  | .vTuple vs => do
    let vals ← validatedIndex vs
    .ok (.tup vals, some (vs.map typeChar))
  | v =>
    if v = sliceNone then .ok (.tup [.vStr []], some ['*'])
    else if v = .vEllipsis then .ok (.tup [.vStr ['*', '*']], none)
    else .ok (.tup [v], some [typeChar v])

/-- `ComponentUID._partial_cuid_from_slice_info`.  `slice_info` is the triple
`(fixed, sliced, ellipsis)`; the two maps are embedded as association lists
from position to value (`sliced` taking precedence, as with `dict.update`),
and `len(value_map)` is the number of distinct keys.  A position of
`range(len(value_map))` missing from both maps raises `KeyError` as in
Python. -/
def partialFromSliceInfo (fixed sliced : List (Nat × PyVal)) (ell : Option Nat) :
    Except PyErr (CArgs × Option (List Char)) :=
  match ell with
  | some _ =>
    if fixed ≠ [] then .error .notImplementedError
    else .ok (.tup [.vStr ['*', '*']], none)
  | none => do
    let n := (((fixed ++ sliced).map Prod.fst).dedup).length
    let values ← (List.range n).mapM (fun i =>
      match sliced.find? (fun e => e.1 = i) with
      | some e => Except.ok e.2
      | none =>
        match fixed.find? (fun e => e.1 = i) with
        | some e => Except.ok e.2
        | none => Except.error PyErr.keyError)
    .ok (.tup (values.map (fun v => if v = sliceNone then .vStr [] else v)),
      some (values.map (fun v =>
        match v with
        | .vSlice _ _ _ => '*'
        | _ => typeChar v)))

/-! ## The model tree

Modelled from the spec: the model tree (pyomo blocks, scalar and indexed
components and their data objects) is an external collaborator of this core
(spec §1, §6), not part of `src/`; it is consumed only through parent/child
navigation, `(index, object)` iteration in stable order, keyed lookup, local
names and object identity.  It is embedded as a finite prefix-closed map
from access paths to node kinds; object identity (`is`, `id(...)`) is path
equality. -/

/-- One step of an access path: attribute access from a block to a named
child component, or item access from an indexed component to a member. -/
inductive Step where
  | sAttr (n : PStr)
  | sItem (k : PyVal)
  deriving DecidableEq

/-- A node's address relative to the model root, stored innermost (leaf)
step first, so that ascending to parents is structural. -/
abbrev Path := List Step

/-- Kind of tree node: a block (the model root, a scalar block, or a block
data object), a scalar non-block component, an indexed component
(container), or a non-block data object of an indexed component. -/
inductive NKind where
  | nBlock | nScalarC | nIndexedC | nDataObj
  deriving DecidableEq

/-- The model tree: the listed order of `nodes` is the collections'
iteration order. -/
structure Tree where
  nodes : List (Path × NKind)

/-- Kind of the node at `p`, if `p` addresses a node. -/
def kindAt (t : Tree) (p : Path) : Option NKind :=
  (t.nodes.find? (fun e => e.1 = p)).map (·.2)

/-- Whether `p` addresses a node of `t`. -/
def validAt (t : Tree) (p : Path) : Bool := (kindAt t p).isSome

/-- The `(key, member)` pairs of the indexed component at `p`, in tree
order. -/
def itemsOfComp (t : Tree) (p : Path) : List (PyVal × Path) :=
  t.nodes.filterMap (fun e =>
    match e.1 with
    | .sItem k :: q => if q = p then some (k, e.1) else none
    | _ => none)

/-- `iteritems(obj)` for the component object at an attribute path: an
indexed component yields its members in tree order; a scalar component or
scalar block yields the single pair `(None, itself)` (its `_data` is
`{None: self}`). -/
def pyItems (t : Tree) (p : Path) : List (PyVal × Path) :=
  match kindAt t p with
  | some .nIndexedC => itemsOfComp t p
  | some _ => [(.vNone, p)]
  | none => []

/-- `getattr(obj, name)` restricted to child components: blocks expose their
children as attributes; on any other object the attribute is missing
(`AttributeError`, embedded as `none`). -/
def pyGetattr (t : Tree) (p : Path) (n : PStr) : Option Path :=
  match kindAt t p with
  | some .nBlock =>
    if validAt t (.sAttr n :: p) then some (.sAttr n :: p) else none
  | _ => none

/-- pyomo's index normalization applied by `__getitem__`: a one-element
tuple denotes its single value, anything longer the tuple itself. -/
def normIndex (vs : List PyVal) : PyVal :=
  match vs with
  | [v] => v
  | _ => .vTuple vs

/-- Keyed lookup `obj[key]` (after normalization) on a component object at
an attribute path: an indexed component looks the key up among its members;
a scalar component or scalar block answers only to the key `None` (with
itself).  `none` embeds `KeyError`. -/
def pyGetitemKey (t : Tree) (p : Path) (key : PyVal) : Option Path :=
  match kindAt t p with
  | some .nIndexedC =>
    if validAt t (.sItem key :: p) then some (.sItem key :: p) else none
  | some .nScalarC | some .nBlock => if key = .vNone then some p else none
  | _ => none

/-- `component.parent_block()`: strip the trailing item access (if any) and
the trailing attribute access. -/
def parentBlockPath (p : Path) : Option Path :=
  match p with
  | [] => none
  | .sAttr _ :: q => some q
  | .sItem _ :: q => some q.tail

/-- `component.local_name` for a component at an attribute path. -/
def localName (p : Path) : PStr :=
  match p with
  | .sAttr n :: _ => n
  | _ => []

/-- Collection keys appearing in a well-formed tree: ints, strings, or flat
tuples of those of length at least two (pyomo's normalized index forms). -/
def keyScalarWF (v : PyVal) : Bool :=
  match v with
  | .vInt _ => true
  | .vStr _ => true
  | _ => false

/-- Well-formedness of one collection key. -/
def keyWF (v : PyVal) : Bool :=
  match v with
  | .vTuple vs => decide (2 ≤ vs.length) && vs.all keyScalarWF
  | v => keyScalarWF v

/-- Local well-formedness of one tree node: the root is a block; an
attribute child hangs off a block and is not a data object; an item child
hangs off an indexed component, is a block or data object, and has a
well-formed key. -/
def nodeWF (t : Tree) (e : Path × NKind) : Bool :=
  match e.1 with
  | [] => e.2 = NKind.nBlock
  | .sAttr _ :: q =>
    (kindAt t q = some .nBlock) && !(e.2 = NKind.nDataObj)
  | .sItem k :: q =>
    (kindAt t q = some .nIndexedC) &&
      (e.2 = NKind.nBlock || e.2 = NKind.nDataObj) && keyWF k

/-- Well-formed model tree: a block at the root, distinct node paths, and
locally well-formed nodes. -/
def TreeWF (t : Tree) : Prop :=
  kindAt t [] = some .nBlock ∧ (t.nodes.map Prod.fst).Nodup ∧
    ∀ e ∈ t.nodes, nodeWF t e = true

instance (t : Tree) : Decidable (TreeWF t) := by
  unfold TreeWF; infer_instance

/-! ## `_generate_cuid` -/

/-- The optional identity-keyed cache `cuid_buffer`: an association list
keyed by Python object identity.  Key `some q` is the identity of the tree
object at path `q`; key `none` stands for the identity of any non-tree
object — in particular `id(self)`, the `ComponentUID` instance being
built, which the source looks up but never inserts. -/
abbrev Buffer := List (Option Path × (CArgs × Option (List Char)))

/-- Association-list lookup in a buffer. -/
def bufFind (b : Buffer) (k : Option Path) : Option (CArgs × Option (List Char)) :=
  (b.find? (fun e => e.1 = k)).map (·.2)

/-- The member-level body of the `while component is not context` loop: at
a data object `p` owned by the container at `cpath`, either scan the
container's `(index, object)` pairs for `p` by identity (no buffer; a miss
yields nothing, as in the source), or populate the caller's buffer with
`_partial_cuid_from_index` of every member (the populate guard
`id(self) not in cuid_buffer` always holds, since `id(self)` — the `none`
key — is never inserted) and look `id(component)` up in it (`KeyError` if
absent). -/
def genItemSeg (t : Tree) (cpath : Path) (p : Path) (buf : Option Buffer) :
    Except PyErr (Option Cid × Option Buffer) :=
  let cname := localName cpath
  match buf with
  | some b => do
    let b' ←
      if bufFind b none = Option.none then
        (pyItems t cpath).foldlM
          (fun acc (kv : PyVal × Path) => do
            let pr ← partialFromIndex kv.1
            pure (acc ++ [(some kv.2, pr)])) b
      else pure b
    match bufFind b' (some p) with
    | some pr => .ok (some ⟨cname, pr.1, pr.2⟩, some b')
    | none => .error .keyError
  | none =>
    match (pyItems t cpath).find? (fun kv => kv.2 = p) with
    | some kv => do
      let pr ← partialFromIndex kv.1
      .ok (some ⟨cname, pr.1, pr.2⟩, none)
    | none => .ok (none, none)

/-- The `while component is not context` loop of `_generate_cuid`, ascending
from `p`.  Yields the `_cids` entries leaf-first, threading the optional
buffer.  At an attribute path the object is its own `parent_component()`
(`c is component`), so `(local_name, (), '')` is yielded; at an item path
`genItemSeg` produces the entry (or nothing, on a scan miss) and the ascent
continues at `parent_block()`.  Reaching the model root while it differs
from the context raises the `ValueError` ("Context does not apply"). -/
def genLoop (t : Tree) (ctx : Path) : Path → Option Buffer →
    Except PyErr (List Cid × Option Buffer)
  | p, buf =>
    if p = ctx then .ok ([], buf)
    else
      match p with
      | [] => .error .valueError
      | .sAttr n :: q =>
        match kindAt t (.sAttr n :: q) with
        | none => .error .typeError
        | some _ => do
          let (rest, buf') ← genLoop t ctx q buf
          .ok (⟨n, .tup [], some []⟩ :: rest, buf')
      | .sItem k :: q =>
        match kindAt t (.sItem k :: q) with
        | none => .error .typeError
        | some _ => do
          let (sg, buf') ← genItemSeg t q (.sItem k :: q) buf
          match q with
          | [] =>
            if ([] : Path) = ctx then
              .ok ((match sg with | some c => [c] | none => []), buf')
            else .error .valueError
          | _ :: r => do
            let (rest, buf'') ← genLoop t ctx r buf'
            .ok ((match sg with | some c => c :: rest | none => rest), buf'')

/-- `ComponentUID._generate_cuid(component, cuid_buffer, context)`: the
default context is the model root; an object without the `_component` slot
(an indexed container) first yields `(local_name, '**', None)` and ascends
to its parent block; then the ascent loop runs. -/
def genCuid (t : Tree) (p : Path) (buf : Option Buffer) (ctx : Option Path) :
    Except PyErr (List Cid × Option Buffer) :=
  let c := ctx.getD []
  if kindAt t p = some .nIndexedC then
    match parentBlockPath p with
    | some q => do
      let (rest, buf') ← genLoop t c q buf
      .ok (⟨localName p, .star2, none⟩ :: rest, buf')
    | none => .error .typeError
  else genLoop t c p buf

/-- `_generate_cuid` without a buffer, returning just the `_cids` list. -/
def generateCuid (t : Tree) (p : Path) (ctx : Option Path) :
    Except PyErr (List Cid) :=
  (genCuid t p none ctx).map (·.1)

/-! ## `parse_cuid` -/

/-- Processing of one textual index value by `parse_cuid`: `'*'` becomes the
empty-string wildcard with type `'*'`; a recognized type prefix (`#`, `$`,
`*` = `tKeys`) casts the remainder by `tDict[prefix]` (`int`/`str`/`slice`);
a balanced-quoted value is a string with type `'$'`; anything else keeps its
text with the untyped code `'.'`.  `val[0]` on an empty value raises
`IndexError`; a non-numeric text behind `#` raises `ValueError` from
`int()`. -/
def parseVal (val : PStr) : Except PyErr (PyVal × Char) :=
  if val = ['*'] then .ok (.vStr [], '*')
  else
    match val with
    | [] => .error .indexError
    | c :: rest =>
      if c = '#' then
        match pyParseInt rest with
        | .ok z => .ok (.vInt z, '#')
        | .error e => .error e
      else if c = '$' then .ok (.vStr rest, '$')
      else if c = '*' then .ok (.vSlice .vNone (.vStr rest) .vNone, '*')
      else if (c = '"' ∨ c = '\'') ∧ val.getLast? = some c then
        .ok (.vStr rest.dropLast, '$')
      else .ok (.vStr val, '.')

/-- Processing of one `.`-separated segment by `parse_cuid`: bracket form if
the segment ends in `]`, else colon form; no suffix yields `(name, (), '')`;
a suffix is split on `,` and each value processed by `parseVal`; the
post-processing check `len(idx) == 1 and idx[0] == '**'` yields the full
wildcard `(name, '**', None)` (reachable only through the quote or `$`
branches, since a literal `**` enters the `*`-prefix branch). -/
def parseSeg (c : PStr) : Except PyErr Cid :=
  match c.getLast? with
  | none => .error .indexError
  | some last =>
    let cinfo :=
      if last = ']' then pySplitOnce c.dropLast '['
      else pySplitOnce c ':'
    match cinfo.2 with
    | none => .ok ⟨cinfo.1, .tup [], some []⟩
    | some suffix => do
      let parsed ← (pySplit suffix ',').mapM parseVal
      let vals := parsed.map Prod.fst
      if vals = [.vStr ['*', '*']] then .ok ⟨cinfo.1, .star2, none⟩
      else .ok ⟨cinfo.1, .tup vals, some (parsed.map Prod.snd)⟩

/-- `ComponentUID.parse_cuid(label)`: split on `.`, process segments in
reverse, so the result is leaf-first. -/
def parseCuid (label : PStr) : Except PyErr (List Cid) :=
  ((pySplit label '.').reverse).mapM parseSeg

/-! ## `__repr__` and `__str__` -/

/-- The values a `_cids` args entry iterates as: iterating the string `'**'`
yields its two `'*'` characters (as one-character strings). -/
def CArgs.vals : CArgs → List PyVal
  | .star2 => [.vStr ['*'], .vStr ['*']]
  | .tup vs => vs

/-- One joined piece of `__repr__`:
`(types[i] if types[i] not in '.' else '') + str(x)`. -/
def reprVal (tys : List Char) (i : Nat) (x : PyVal) : Except PyErr PStr :=
  match tys.get? i with
  | none => .error .indexError
  | some tc => .ok ((if tc = '.' then [] else [tc]) ++ pyStr x)

/-- One iteration of the `__repr__` accumulation over the reversed
`_cids`. -/
def cuidReprFold (a : PStr) (cid : Cid) : Except PyErr PStr :=
  let a1 := if a = [] then cid.name else a ++ '.' :: cid.name
  match cid.types with
  | none => .ok (a1 ++ (':' :: ['*', '*']))
  | some tys =>
    if cid.args.len = 0 then .ok a1
    else do
      let parts ← (List.range cid.args.len).mapM
        (fun i => reprVal tys i (cid.args.get i))
      .ok (a1 ++ ':' :: pyJoin ',' parts)

/-- `ComponentUID.__repr__` (the verbose, type-preserving form). -/
def cuidRepr (cids : List Cid) : Except PyErr PStr :=
  cids.reverse.foldlM cuidReprFold []

/-- One joined piece of `__str__`: `str(x) or '*'`. -/
def strValPiece (x : PyVal) : PStr :=
  let s := pyStr x
  if s = [] then ['*'] else s

/-- One iteration of the `__str__` accumulation over the reversed
`_cids`. -/
def cuidStrFold (a : PStr) (cid : Cid) : PStr :=
  let a1 := if a = [] then cid.name else a ++ '.' :: cid.name
  match cid.types with
  | none => a1 ++ "[**]".toList
  | some _ =>
    if cid.args.len = 0 then a1
    else a1 ++ '[' :: (pyJoin ',' (cid.args.vals.map strValPiece) ++ [']'])

/-- `ComponentUID.__str__` (the compact form; no type information). -/
def cuidStr (cids : List Cid) : PStr :=
  cids.reverse.foldl cuidStrFold []

/-! ## `__init__` -/

/-- Argument of the `ComponentUID` constructor: a string or a component
reference. -/
inductive CuidArg where
  | fromStr (s : PStr)
  | fromComp (p : Path)

/-- `ComponentUID.__init__(component, cuid_buffer, context)`: a string
argument with a non-`None` context raises `ValueError` before any parsing;
otherwise the string is parsed, or the identifier generated from the
reference. -/
def cuidInit (t : Tree) (arg : CuidArg) (buf : Option Buffer)
    (ctx : Option Path) : Except PyErr (List Cid) :=
  match arg with
  | .fromStr s =>
    if ctx.isSome then .error .valueError
    else parseCuid s
  | .fromComp p => (genCuid t p buf ctx).map (·.1)

/-! ## `find_component` -/

/-- Python `types.strip('*')`: strip `'*'` from both ends. -/
def stripStars (tys : List Char) : List Char :=
  ((tys.dropWhile (· = '*')).reverse.dropWhile (· = '*')).reverse

/-- The untyped positions of a type string, in increasing order.  The source
walks them with `types.find('.')` and `_t.find('.', _i+1)`, which visits
exactly this list front to back. -/
def dotPositions (tys : List Char) : List Nat :=
  (List.range tys.length).filter (fun j => tys.getD j ' ' = '.')

/-- Python `int(v)`: `ok (some _)` on success, `ok none` for the caught
`ValueError` (non-numeric string), `error` for `TypeError` (a value `int()`
does not accept), which the source does not catch. -/
def castInt : PyVal → Except PyErr (Option PyVal)
  | .vInt n => .ok (some (.vInt n))
  | .vStr s =>
    match pyParseInt s with
    | .ok z => .ok (some (.vInt z))
    | .error _ => .ok none
  | _ => .error .typeError

/-- Python `str(v)` as a cast. -/
def castStr (v : PyVal) : PyVal := .vStr (pyStr v)

/-- Python `slice(v)` as a cast: `slice(None, v, None)`. -/
def castSlice (v : PyVal) : PyVal := .vSlice .vNone v .vNone

/-- `ComponentUID._checkIntArgs`, the backtracking coercion search: at each
untyped position try, in `tList` order, the casts `int`, `str`, `slice` of
the original value, recursing to the remaining untyped positions after each
successful cast, and look the fully substituted tuple up at the end; the
first successful lookup wins; `ValueError` from a cast skips to the next
cast. -/
def checkIntArgs (t : Tree) (cpath : Path) :
    List PyVal → List Nat → Except PyErr (Option Path)
  | vals, [] => pure (pyGetitemKey t cpath (normIndex vals))
  | vals, i :: rest => do
    let orig := vals.getD i .vNone
    let c1 ← castInt orig
    let r1 ←
      match c1 with
      | some v => checkIntArgs t cpath (vals.set i v) rest
      | none => pure none
    match r1 with
    | some m => pure (some m)
    | none => do
      let r2 ← checkIntArgs t cpath (vals.set i (castStr orig)) rest
      match r2 with
      | some m => pure (some m)
      | none => checkIntArgs t cpath (vals.set i (castSlice orig)) rest

/-- The per-segment loop of `ComponentUID.find_component`, over the
`_cids` entries outermost-first.  The guard
`len(idx) and idx != '**' and types.strip('*')` selects direct keyed lookup;
evaluating `types.strip` on `None` raises `AttributeError`, which the
enclosing handler turns into `None`; a `KeyError` with no untyped position
also gives `None`, otherwise the backtracking search runs (a `None` answer
from it propagates as overall `None`: the loop continues with `obj = None`
and any further attribute access fails). -/
def findLoop (t : Tree) : List Cid → Path → Except PyErr (Option Path)
  | [], q => pure (some q)
  | cid :: rest, q =>
    match cid.args, cid.types with
    | .tup [], _ =>
      match pyGetattr t q cid.name with
      | none => pure none
      | some c => findLoop t rest c
    | .star2, _ =>
      match pyGetattr t q cid.name with
      | none => pure none
      | some c => findLoop t rest c
    | .tup _, none => pure none
    | .tup vs, some tys =>
      if stripStars tys = [] then
        match pyGetattr t q cid.name with
        | none => pure none
        | some c => findLoop t rest c
      else
        match pyGetattr t q cid.name with
        | none => pure none
        | some c =>
          match pyGetitemKey t c (normIndex vs) with
          | some m => findLoop t rest m
          | none =>
            if '.' ∈ tys then do
              let r ← checkIntArgs t c vs (dotPositions tys)
              match r with
              | some m => findLoop t rest m
              | none => pure none
            else pure none

/-- `ComponentUID.find_component(block)`. -/
def findComponent (t : Tree) (cids : List Cid) (root : Path) :
    Except PyErr (Option Path) :=
  findLoop t cids.reverse root

/-! ## `matches` -/

/-- `for _cast in tList: try: if _cast(b) == a: ok = True; break
except ValueError: pass` — whether some cast of `b` equals `a`. -/
def castMatches (b a : PyVal) : Except PyErr Bool := do
  let i ← castInt b
  if i = some a then pure true
  else if castStr b = a then pure true
  else pure (decide (castSlice b = a))

/-- One index-position check of `matches`: generated value `idx[j]` against
pattern value `_idx[j]` under the pattern's type character. -/
def matchPos (gidx pidx : CArgs) (ptypes : Option (List Char)) (j : Nat) :
    Except PyErr Bool :=
  let a := gidx.get j
  let b := pidx.get j
  if a = b then pure true
  else
    match ptypes with
    | none => .error .typeError
    | some tys =>
      match tys.get? j with
      | none => .error .indexError
      | some tc =>
        if tc = '*' then pure true
        else if tc = '.' then castMatches b a
        else pure false

/-- One segment comparison of `matches`: name equality, the
`_idx == '**' or idx == _idx` shortcut, length agreement, then every
position. -/
def matchSeg (pat gen : Cid) : Except PyErr Bool :=
  if pat.name ≠ gen.name then pure false
  else if pat.args = .star2 ∨ gen.args = pat.args then pure true
  else if gen.args.len ≠ pat.args.len then pure false
  else (List.range gen.args.len).allM (fun j => matchPos gen.args pat.args pat.types j)

/-- The lock-step walk of `matches` over the pattern (`self._cids`) and the
candidate's generated identifier, both leaf-first: reaching
`i == len(self._cids)` with generated segments left returns `False`; after
the loop, `i+1 == len(self._cids)` asks that the pattern was consumed
exactly. -/
def matchLoop : List Cid → List Cid → Except PyErr Bool
  | pats, [] => pure (decide (pats = []))
  | [], _ :: _ => pure false
  | pat :: pats, g :: gs => do
    let ok ← matchSeg pat g
    if ok then matchLoop pats gs else pure false

/-- `ComponentUID.matches(component)`: generate the candidate's identifier
with the default context and walk it against the pattern.  An empty
generated sequence leaves the loop variable `i` unbound and the final
`return i+1 == len(self._cids)` raises `NameError`. -/
def cuidMatches (t : Tree) (cids : List Cid) (p : Path) : Except PyErr Bool := do
  let gen ← generateCuid t p none
  match gen with
  | [] => .error .nameError
  | _ => matchLoop cids gen

/-! ## `_list_components` -/

/-- The per-target filter of the wildcard branch of `_list_components`:
pattern values `idx` against `_partial_cuid_from_index(target_idx)`. -/
def enumKeep (pidx : List PyVal) (tys : List Char) (tk : PyVal) :
    Except PyErr Bool := do
  let pr ← partialFromIndex tk
  if pidx.length ≠ pr.1.len then pure false
  else (List.range pidx.length).allM (fun j => do
    let a := pidx.getD j .vNone
    let b := pr.1.get j
    if a = b then pure true
    else
      match tys.get? j with
      | none => Except.error PyErr.indexError
      | some tc =>
        if tc = '*' then pure true
        else if tc = '.' then castMatches a b
        else pure false)

/-- The keep decision for one `(target_idx, target_obj)` pair: everything
under a full wildcard; otherwise kept when `idx == target_idx` or when the
per-position filter accepts. -/
def keepFor (args : CArgs) (tys : Option (List Char)) (tk : PyVal) :
    Except PyErr Bool :=
  match args, tys with
  | .star2, _ => pure true
  | .tup vs, some tyl =>
    if PyVal.vTuple vs = tk then pure true else enumKeep vs tyl tk
  | .tup _, none => .error .typeError

/-- Iteration over the collection's `(index, object)` pairs in the wildcard
branch of `_list_components`; `go` is the recursion of `_list_components`
into the remaining segments from a kept member. -/
def listItems (go : Path → Except PyErr (List Path)) (args : CArgs)
    (tys : Option (List Char)) :
    List (PyVal × Path) → Except PyErr (List Path)
  | [] => pure []
  | kv :: kvs => do
    let keep ← keepFor args tys kv.1
    let r ← if keep then go kv.2 else pure []
    let rs ← listItems go args tys kvs
    pure (r ++ rs)

/-- `ComponentUID._list_components(_obj, cids)`, over the remaining segments
outermost-first: exhausted segments yield the current object; a missing
attribute yields nothing; an empty index descends; a fully typed concrete
index does direct keyed lookup; otherwise every `(index, object)` pair of
the collection is filtered and recursed into. -/
def listAux (t : Tree) : List Cid → Path → Except PyErr (List Path)
  | [] => fun q => pure [q]
  | cid :: rest =>
    let go := listAux t rest
    fun q =>
      match pyGetattr t q cid.name with
      | none => pure []
      | some c =>
        if cid.args.len = 0 then go c
        else
          match cid.args, cid.types with
          | .star2, _ => listItems go .star2 none (pyItems t c)
          | .tup _, none => .error .typeError
          | .tup vs, some tys =>
            if ¬ ('*' ∈ tys) ∧ ¬ ('.' ∈ tys) then
              match pyGetitemKey t c (normIndex vs) with
              | none => pure []
              | some m => go m
            else listItems go (.tup vs) (some tys) (pyItems t c)

/-- `ComponentUID.list_components(block)`. -/
def listComponents (t : Tree) (cids : List Cid) (root : Path) :
    Except PyErr (List Path) :=
  listAux t cids.reverse root

/-! ## `_generate_cids_from_slice`

Modelled from the spec: the `IndexedComponent_slice` class (the
deferred-operation log collaborator, spec §4.2.2/§6) is not part of `src/`.
Its call stack is embedded as a list of tagged operations in pop order
(most recent first); the opcodes whose low bits are `0b10`/`0b11` (the
`set`/`del` calls, per the source's comment) are a single constructor; a
`call` entry carries the argument later substituted for the attribute name;
the terminal `slice_info` entry carries the origin component and its
fixed/sliced/ellipsis index partition. -/

/-- One recorded operation of a deferred-operation log, in pop order. -/
inductive SOp where
  | sliceInfo (comp : Path) (fixed sliced : List (Nat × PyVal)) (ell : Option Nat)
  | getItem (idx : PyVal)
  | getAttr (nm : PStr)
  | callOp (arg : PStr)
  | setOrDel
  deriving DecidableEq

/-- The `while call_stack: pop` loop of `_generate_cids_from_slice`, with
the `index`, `name` and `count` state explicit.  `arg is not 'component'`
is embedded as string inequality (attribute names are interned).  -/
def genSliceLoop (t : Tree) (ctx : Option Path) :
    List SOp → PyVal → Option PStr → Nat → Except PyErr (List Cid)
  | [], _, _, _ => pure []
  | op :: ops, index, nm, count =>
    let cnt := count + 1
    match op with
    | .setOrDel => .error .valueError
    | .sliceInfo comp fixed sliced ell => do
      let pr ← partialFromSliceInfo fixed sliced ell
      let gp ←
        match parentBlockPath comp with
        | some pb => generateCuid t pb ctx
        | none => .error .typeError
      let rest ← genSliceLoop t ctx ops index nm cnt
      pure ((⟨localName comp, pr.1, pr.2⟩ :: gp) ++ rest)
    | .getItem idx => genSliceLoop t ctx ops idx nm cnt
    | .callOp a => genSliceLoop t ctx ops index (some a) cnt
    | .getAttr nm0 => do
      let arg ←
        match nm with
        | some pending =>
          if nm0 ≠ "component".toList then .error .notImplementedError
          else pure pending
        | none => pure nm0
      if cnt = 1 then do
        let rest ← genSliceLoop t ctx ops (.vTuple []) none cnt
        pure (⟨arg, .star2, none⟩ :: rest)
      else do
        let pr ← partialFromIndex index
        let rest ← genSliceLoop t ctx ops (.vTuple []) none cnt
        pure (⟨arg, pr.1, pr.2⟩ :: rest)

/-- `ComponentUID._generate_cids_from_slice(_slice, context)`: run the loop
from the full call stack with `index = ()`, no pending name, `count = 0`. -/
def genFromSlice (t : Tree) (log : List SOp) (ctx : Option Path) :
    Except PyErr (List Cid) :=
  genSliceLoop t ctx log (.vTuple []) none 0


/-! ## Shared concrete example trees -/

/-- Shorthand for embedded string literals. -/
def lc (str : String) : PStr := str.toList

/-- Example tree: root block with an indexed component `x` (members keyed
`1` and `2`) and a scalar sub-block `b` holding a scalar component `y`. -/
def treeA : Tree := ⟨[
  ([], .nBlock),
  ([.sAttr (lc "x")], .nIndexedC),
  ([.sItem (.vInt 1), .sAttr (lc "x")], .nDataObj),
  ([.sItem (.vInt 2), .sAttr (lc "x")], .nDataObj),
  ([.sAttr (lc "b")], .nBlock),
  ([.sAttr (lc "y"), .sAttr (lc "b")], .nScalarC)
]⟩

/-- Example tree: root block with an indexed component `x` holding both an
integer-keyed member `3` and a string-keyed member `"3"`. -/
def treeB : Tree := ⟨[
  ([], .nBlock),
  ([.sAttr (lc "x")], .nIndexedC),
  ([.sItem (.vInt 3), .sAttr (lc "x")], .nDataObj),
  ([.sItem (.vStr (lc "3")), .sAttr (lc "x")], .nDataObj)
]⟩

/-- Example tree: root block with an indexed component `x` holding only the
member keyed by the integer `7`. -/
def treeC : Tree := ⟨[
  ([], .nBlock),
  ([.sAttr (lc "x")], .nIndexedC),
  ([.sItem (.vInt 7), .sAttr (lc "x")], .nDataObj)
]⟩

/-! ## General lemmas about the embedded primitives -/

/-- `pySplit` never returns the empty list of pieces. -/
theorem pySplit_ne_nil (s : PStr) (sep : Char) : pySplit s sep ≠ [] := by
  induction s with
  | nil => simp [pySplit]
  | cons c rest ih =>
    simp only [pySplit]
    by_cases h : c = sep
    · simp [h]
    · simp only [if_neg h]
      cases hr : pySplit rest sep with
      | nil => exact absurd hr ih
      | cons x xs => simp

/-- Splitting a string with two adjacent separators produces an empty piece
among the non-initial pieces. -/
theorem pySplit_double_sep (sep : Char) (a b : PStr) :
    [] ∈ (pySplit (a ++ sep :: sep :: b) sep).tail := by
  induction a with
  | nil =>
    simp only [List.nil_append, pySplit, if_pos rfl, List.tail_cons]
    exact List.mem_cons_self _ _
  | cons c a' ih =>
    simp only [List.cons_append, pySplit]
    by_cases h : c = sep
    · simp only [if_pos h, List.tail_cons]
      exact List.mem_of_mem_tail ih
    · simp only [if_neg h]
      cases hr : pySplit (a' ++ sep :: sep :: b) sep with
      | nil => exact absurd hr (pySplit_ne_nil _ _)
      | cons x xs =>
        simp only [List.tail_cons]
        rw [hr] at ih
        exact ih

/-- If `mapM` over `Except` succeeds, every element succeeded. -/
theorem mapM_ok_forall {α β : Type} (f : α → Except PyErr β) :
    ∀ (l : List α) (out : List β), l.mapM f = .ok out →
      ∀ x ∈ l, ∃ y, f x = .ok y := by
  intro l
  induction l with
  | nil => intro out _ x hx; exact absurd hx (List.not_mem_nil x)
  | cons a as ih =>
    intro out hok x hx
    rw [List.mapM_cons] at hok
    cases hfa : f a with
    | error e => rw [hfa] at hok; exact absurd hok (by simp [Bind.bind, Except.bind])
    | ok y =>
      rw [hfa] at hok
      cases hrest : as.mapM f with
      | error e =>
        rw [hrest] at hok
        exact absurd hok (by simp [Bind.bind, Except.bind, Pure.pure])
      | ok ys =>
        rcases List.mem_cons.mp hx with h | h
        · exact ⟨y, h ▸ hfa⟩
        · exact ih ys hrest x h

/-! ## Claim C6 -/

/-- **C6** (confirmed, with the error class made precise).  Any identifier
text containing an ellipsis-style full wildcard next to anything (in
particular `x[1,...]`, an ellipsis mixed with a fixed value) is rejected by
`parse_cuid` with an exception: the label is split on *every* `.` first, so
the `...` spelling produces empty segment texts, and `c[-1]` on an empty
segment raises.  Concretely, `parse_cuid('x[1,...]')` raises `IndexError`
(the exception `parse` surfaces for this malformed text — the spec's
`ParseError` taxon) rather than producing an identifier. -/
theorem c6_parse_rejects_mixed_ellipsis :
    (∀ a b : PStr, ∃ e, parseCuid (a ++ '.' :: '.' :: b) = .error e) ∧
      parseCuid (lc "x[1,...]") = .error .indexError := by
  constructor
  · intro a b
    cases hres : parseCuid (a ++ '.' :: '.' :: b) with
    | error e => exact ⟨e, rfl⟩
    | ok out =>
      exfalso
      have hmem : [] ∈ (pySplit (a ++ '.' :: '.' :: b) '.').reverse := by
        exact List.mem_reverse.mpr
          (List.mem_of_mem_tail (pySplit_double_sep '.' a b))
      obtain ⟨y, hy⟩ := mapM_ok_forall parseSeg _ out hres [] hmem
      simp [parseSeg] at hy
  · decide

/-! ## Claim C9 -/

/-- **C9** (confirmed).  Constructing a `ComponentUID` from a string always
rejects a context: for every string `s` and every non-`None` context `c`,
`__init__` raises `ValueError` before any parsing occurs (the error is
raised for unparseable strings as well, and no parse error can surface). -/
theorem c9_string_with_context_raises (t : Tree) (s : PStr) (c : Path)
    (buf : Option Buffer) :
    cuidInit t (.fromStr s) buf (some c) = .error .valueError := rfl

/-! ## Claim C5 -/

/-- Helper for C5: no pattern/generated pair with the pattern strictly
shorter than the generated sequence can make `matchLoop` answer `True`. -/
theorem matchLoop_longer_ne_true :
    ∀ (pats gs : List Cid), pats.length < gs.length →
      matchLoop pats gs ≠ .ok true := by
  intro pats
  induction pats with
  | nil =>
    intro gs h hc
    cases gs with
    | nil => simp at h
    | cons g gs' =>
      have he : matchLoop [] (g :: gs') = .ok false := rfl
      rw [he] at hc
      exact absurd hc (by simp)
  | cons pat pats' ih =>
    intro gs h hc
    cases gs with
    | nil => simp at h
    | cons g gs' =>
      have he : matchLoop (pat :: pats') (g :: gs') =
          (matchSeg pat g).bind
            (fun ok => if ok then matchLoop pats' gs' else pure false) := rfl
      rw [he] at hc
      cases hseg : matchSeg pat g with
      | error e => rw [hseg] at hc; simp [Except.bind] at hc
      | ok b =>
        rw [hseg] at hc
        cases b with
        | true =>
          simp only [Except.bind, if_true] at hc
          exact ih gs' (Nat.lt_of_succ_lt_succ h) hc
        | false => exact Bool.noConfusion (Except.ok.inj hc)

/-- **C5** (counterexample).  In `treeA`, the candidate `b.y` generates the
two-segment identifier `[y; b]`, and the one-segment pattern `b[**]` (a full
wildcard) agrees with the candidate's outermost segment `b`; the claim
asserts the wildcard absorbs the candidate's extra ancestry and `matches`
returns `True`, but the code returns `False` (the loop hits
`i == len(self._cids)` and bails out regardless of the wildcard). -/
theorem c5_wildcard_absorption_cex :
    generateCuid treeA [.sAttr (lc "y"), .sAttr (lc "b")] none =
      .ok [⟨lc "y", .tup [], some []⟩, ⟨lc "b", .tup [], some []⟩] ∧
    cuidMatches treeA [⟨lc "b", .star2, none⟩]
      [.sAttr (lc "y"), .sAttr (lc "b")] = .ok false := by
  constructor
  · rfl
  · rfl

/-- **C5** (amended).  A candidate whose generated identifier is strictly
longer than the pattern never matches, full wildcard or not: `matches`
returns `False` (or propagates an exception for a malformed pattern), never
`True`.  The full wildcard constrains only its own lock-step position; it
absorbs no extra ancestry. -/
theorem c5_longer_generated_never_matches (t : Tree) (cids : List Cid)
    (p : Path) (gen : List Cid)
    (hgen : generateCuid t p none = .ok gen)
    (hlen : cids.length < gen.length) :
    cuidMatches t cids p ≠ .ok true := by
  intro hmatch
  unfold cuidMatches at hmatch
  rw [hgen] at hmatch
  cases gen with
  | nil => simp at hlen
  | cons g gs =>
    have := matchLoop_longer_ne_true cids (g :: gs) hlen
    simp only [Bind.bind, Except.bind] at hmatch
    exact this hmatch

/-- **C5** (witness for the amended theorem): concrete instantiation on
`treeA` with the candidate `b.y` and the wildcard pattern `b[**]`. -/
theorem c5_longer_generated_never_matches_witness :
    generateCuid treeA [.sAttr (lc "y"), .sAttr (lc "b")] none =
      .ok [⟨lc "y", .tup [], some []⟩, ⟨lc "b", .tup [], some []⟩] ∧
    cuidMatches treeA [⟨lc "b", .star2, none⟩]
      [.sAttr (lc "y"), .sAttr (lc "b")] ≠ .ok true :=
  ⟨rfl, c5_longer_generated_never_matches treeA _ _ _ rfl (by decide)⟩

/-! ## Well-formedness plumbing -/

/-- A found kind means the node is listed. -/
theorem kindAt_mem {t : Tree} {p : Path} {k : NKind}
    (h : kindAt t p = some k) : (p, k) ∈ t.nodes := by
  unfold kindAt at h
  cases hf : t.nodes.find? (fun e => e.1 = p) with
  | none => rw [hf] at h; simp at h
  | some e =>
    rw [hf] at h
    have h2 : e.2 = k := Option.some.inj h
    have he1 : e.1 = p := by
      have := List.find?_some hf
      exact of_decide_eq_true this
    have hmem := List.mem_of_find?_eq_some hf
    have he : e = (p, k) := by
      cases e; simp only at he1 h2; rw [he1, h2]
    rw [he] at hmem; exact hmem

/-- The root of a well-formed tree is a block. -/
theorem wf_root {t : Tree} (hwf : TreeWF t) : kindAt t [] = some .nBlock :=
  hwf.1

/-- In a well-formed tree, an attribute child hangs off a block and is not a
data object. -/
theorem wf_attr_rules {t : Tree} {n : PStr} {q : Path} {k : NKind}
    (hwf : TreeWF t) (h : kindAt t (.sAttr n :: q) = some k) :
    kindAt t q = some .nBlock ∧ k ≠ .nDataObj := by
  have hmem := kindAt_mem h
  have hnw := hwf.2.2 _ hmem
  unfold nodeWF at hnw
  simp only at hnw
  rw [Bool.and_eq_true] at hnw
  refine ⟨of_decide_eq_true hnw.1, ?_⟩
  have := hnw.2
  simp only [Bool.not_eq_true'] at this
  exact of_decide_eq_false this

/-- In a well-formed tree, an item child hangs off an indexed component, is
a block or data object, and has a well-formed key. -/
theorem wf_item_rules {t : Tree} {key : PyVal} {q : Path} {k : NKind}
    (hwf : TreeWF t) (h : kindAt t (.sItem key :: q) = some k) :
    kindAt t q = some .nIndexedC ∧ (k = .nBlock ∨ k = .nDataObj) ∧
      keyWF key = true := by
  have hmem := kindAt_mem h
  have hnw := hwf.2.2 _ hmem
  unfold nodeWF at hnw
  simp only at hnw
  rw [Bool.and_eq_true, Bool.and_eq_true] at hnw
  refine ⟨of_decide_eq_true hnw.1.1, ?_, hnw.2⟩
  rcases Bool.or_eq_true _ _ |>.mp hnw.1.2 with h1 | h1
  · exact Or.inl (of_decide_eq_true h1)
  · exact Or.inr (of_decide_eq_true h1)

/-- In a well-formed tree an indexed component sits at an attribute path. -/
theorem wf_indexed_shape {t : Tree} {p : Path} (hwf : TreeWF t)
    (h : kindAt t p = some .nIndexedC) : ∃ n q, p = .sAttr n :: q := by
  match p with
  | [] => rw [wf_root hwf] at h; simp at h
  | .sAttr n :: q => exact ⟨n, q, rfl⟩
  | .sItem key :: q =>
    rcases (wf_item_rules hwf h).2.1 with h1 | h1 <;> simp at h1

/-- Scalar well-formed key components are fixed values for
`_generate_validated_index`: the validator is the identity on them. -/
theorem validatedIndexAux_scalars (vs : List PyVal)
    (h : vs.all keyScalarWF = true) (b : Bool) :
    validatedIndexAux vs b false = .ok vs := by
  induction vs generalizing b with
  | nil => rfl
  | cons v vs' ih =>
    rw [List.all_cons, Bool.and_eq_true] at h
    have hv := h.1
    have h1 : ¬ v = sliceNone := by
      intro he; rw [he] at hv; simp [keyScalarWF, sliceNone] at hv
    have h2 : ¬ v = PyVal.vEllipsis := by
      intro he; rw [he] at hv; simp [keyScalarWF] at hv
    unfold validatedIndexAux
    rw [if_neg h1, if_neg h2, if_neg (by decide : ¬ (false = true))]
    rw [ih h.2 true]
    rfl

/-- `_partial_cuid_from_index` of a well-formed key: never an error, and the
resulting args/types are direct images of the key. -/
def partialIdxWF (k : PyVal) : CArgs × Option (List Char) :=
  match k with
  | .vTuple vs => (.tup vs, some (vs.map typeChar))
  | v => (.tup [v], some [typeChar v])

/-- On well-formed keys `partialFromIndex` succeeds with `partialIdxWF`. -/
theorem partialFromIndex_keyWF {k : PyVal} (h : keyWF k = true) :
    partialFromIndex k = .ok (partialIdxWF k) := by
  cases k with
  | vTuple vs =>
    unfold keyWF at h
    rw [Bool.and_eq_true] at h
    have he : partialFromIndex (.vTuple vs) =
        (validatedIndexAux vs false false).bind
          (fun vals => .ok (.tup vals, some (vs.map typeChar))) := rfl
    rw [he, validatedIndexAux_scalars vs h.2 false]
    rfl
  | vInt n => rfl
  | vStr s => rfl
  | vNone => simp [keyWF, keyScalarWF] at h
  | vEllipsis => simp [keyWF, keyScalarWF] at h
  | vSlice a b c => simp [keyWF, keyScalarWF] at h

/-- Membership in a container's `(key, member)` pairs: each pair is a listed
item child and the member path extends the container path by its key. -/
theorem itemsOfComp_mem {t : Tree} {cp : Path} {k : PyVal} {m : Path}
    (h : (k, m) ∈ itemsOfComp t cp) :
    m = .sItem k :: cp ∧ ∃ knd, (m, knd) ∈ t.nodes := by
  unfold itemsOfComp at h
  rw [List.mem_filterMap] at h
  obtain ⟨e, hmem, he⟩ := h
  cases e with
  | mk ep ek =>
    cases ep with
    | nil => simp at he
    | cons st q =>
      cases st with
      | sAttr n => simp at he
      | sItem k' =>
        simp only at he
        by_cases hq : q = cp
        · rw [if_pos hq] at he
          have h1 : (k', Step.sItem k' :: q) = (k, m) := Option.some.inj he
          have hk2 : k' = k := congrArg Prod.fst h1
          have hm2 : (Step.sItem k' :: q : Path) = m := congrArg Prod.snd h1
          subst hq
          exact ⟨by rw [← hm2, hk2], ek, by rw [← hm2]; exact hmem⟩
        · rw [if_neg hq] at he; exact absurd he (by simp)

/-- The keys iterated over a well-formed indexed component are well-formed,
and each member path is the key consed on the container path. -/
theorem pyItems_wf {t : Tree} {cp : Path} {k : PyVal} {m : Path}
    (hwf : TreeWF t) (hc : kindAt t cp = some .nIndexedC)
    (h : (k, m) ∈ pyItems t cp) :
    m = .sItem k :: cp ∧ keyWF k = true := by
  unfold pyItems at h
  rw [hc] at h
  obtain ⟨hm, knd, hmem⟩ := itemsOfComp_mem h
  refine ⟨hm, ?_⟩
  have hnw := hwf.2.2 _ hmem
  rw [hm] at hnw
  unfold nodeWF at hnw
  simp only at hnw
  rw [Bool.and_eq_true, Bool.and_eq_true] at hnw
  exact hnw.2

/-- With no buffer and a well-formed container, the member-level body never
raises. -/
theorem genItemSeg_none_ok {t : Tree} {cp p : Path}
    (hwf : TreeWF t) (hc : kindAt t cp = some .nIndexedC) :
    ∃ sg, genItemSeg t cp p none = .ok (sg, none) := by
  have he : genItemSeg t cp p none =
      (match (pyItems t cp).find? (fun kv => kv.2 = p) with
       | some kv => (partialFromIndex kv.1).bind
           (fun pr => .ok (some ⟨localName cp, pr.1, pr.2⟩, none))
       | none => .ok (none, none)) := rfl
  rw [he]
  cases hf : (pyItems t cp).find? (fun kv => kv.2 = p) with
  | none => exact ⟨none, rfl⟩
  | some kv =>
    have hmem := List.mem_of_find?_eq_some hf
    have hkv : (kv.1, kv.2) ∈ pyItems t cp := by
      have h2 : kv = (kv.1, kv.2) := rfl
      rw [← h2]; exact hmem
    have hkw := (pyItems_wf hwf hc hkv).2
    show ∃ sg, (partialFromIndex kv.1).bind
        (fun pr => Except.ok (some ⟨localName cp, pr.1, pr.2⟩, none)) =
      Except.ok (sg, none)
    rw [partialFromIndex_keyWF hkw]
    exact ⟨some ⟨localName cp, (partialIdxWF kv.1).1, (partialIdxWF kv.1).2⟩, rfl⟩

/-! ## Claim C7 -/

/-- The parent-block ascent chain of the `while` loop of `_generate_cuid`:
the visited nodes, starting at `p` and ending at the model root. -/
def ascentChain : Path → List Path
  | [] => [[]]
  | .sAttr n :: q => (Step.sAttr n :: q) :: ascentChain q
  | .sItem k :: [] => [[Step.sItem k], []]
  | .sItem k :: st :: r => (Step.sItem k :: st :: r) :: ascentChain r

/-- "q is a (proper) ancestor of p": a strict suffix of the leaf-first path
(any node strictly above `p` on the branch from the root, containers
included). -/
def isAncestorOf (q p : Path) : Prop := q ≠ p ∧ q <:+ p

instance (q p : Path) : Decidable (isAncestorOf q p) := by
  unfold isAncestorOf; infer_instance

/-- **C7** (counterexample).  Supplying the target itself as the context is
accepted: in `treeA`, generating from `x[1]` with context `x[1]` succeeds
(with an empty identifier) even though the context is not an ancestor of the
target, while the claim requires `ContextError` exactly when the context is
not an ancestor. -/
theorem c7_context_cex :
    generateCuid treeA [.sItem (.vInt 1), .sAttr (lc "x")]
      (some [.sItem (.vInt 1), .sAttr (lc "x")]) = .ok [] ∧
    ¬ isAncestorOf [.sItem (.vInt 1), .sAttr (lc "x")]
      [.sItem (.vInt 1), .sAttr (lc "x")] := by
  exact ⟨rfl, by decide⟩

/-- Unfolding of `genLoop` at the model root. -/
theorem genLoop_root (t : Tree) (ctx : Path) (buf : Option Buffer) :
    genLoop t ctx [] buf =
      if ([] : Path) = ctx then .ok ([], buf) else .error .valueError := rfl

/-- Unfolding of `genLoop` at an attribute path. -/
theorem genLoop_attr (t : Tree) (ctx : Path) (n : PStr) (q : Path)
    (buf : Option Buffer) :
    genLoop t ctx (.sAttr n :: q) buf =
      if (Step.sAttr n :: q : Path) = ctx then .ok ([], buf)
      else
        match kindAt t (.sAttr n :: q) with
        | none => .error .typeError
        | some _ =>
          (genLoop t ctx q buf).bind
            (fun rb => .ok (⟨n, .tup [], some []⟩ :: rb.1, rb.2)) := by
  rfl

/-- Unfolding of `genLoop` at an item path directly under the root. -/
theorem genLoop_item_root (t : Tree) (ctx : Path) (k : PyVal)
    (buf : Option Buffer) :
    genLoop t ctx [.sItem k] buf =
      if ([Step.sItem k] : Path) = ctx then .ok ([], buf)
      else
        match kindAt t [.sItem k] with
        | none => .error .typeError
        | some _ =>
          (genItemSeg t [] [.sItem k] buf).bind (fun sb =>
            if ([] : Path) = ctx then
              .ok ((match sb.1 with | some c => [c] | none => []), sb.2)
            else .error .valueError) := by
  unfold genLoop
  rfl

/-- Unfolding of `genLoop` at a deeper item path. -/
theorem genLoop_item (t : Tree) (ctx : Path) (k : PyVal) (st : Step)
    (r : Path) (buf : Option Buffer) :
    genLoop t ctx (.sItem k :: st :: r) buf =
      if (Step.sItem k :: st :: r : Path) = ctx then .ok ([], buf)
      else
        match kindAt t (.sItem k :: st :: r) with
        | none => .error .typeError
        | some _ =>
          (genItemSeg t (st :: r) (.sItem k :: st :: r) buf).bind (fun sb =>
            (genLoop t ctx r sb.2).bind (fun rb =>
              .ok ((match sb.1 with | some c => c :: rb.1 | none => rb.1),
                rb.2))) := by
  rw [genLoop]
  rfl

/-- The loop of `_generate_cuid` succeeds exactly when the context lies on
the ascent chain. -/
theorem genLoop_isOk_iff {t : Tree} (hwf : TreeWF t) :
    ∀ (p : Path) (ctx : Path), validAt t p = true →
      ((genLoop t ctx p none).isOk = true ↔ ctx ∈ ascentChain p) := by
  intro p
  induction p using ascentChain.induct with
  | case1 =>
    intro ctx _
    rw [genLoop_root]
    by_cases hc : ([] : Path) = ctx
    · rw [if_pos hc]
      subst hc
      exact ⟨fun _ => by simp [ascentChain], fun _ => rfl⟩
    · rw [if_neg hc]
      constructor
      · intro h; exact absurd h (by simp [Except.isOk, Except.toBool])
      · intro h
        simp only [ascentChain, List.mem_singleton] at h
        exact absurd h.symm hc
  | case2 n q ih =>
    intro ctx hv
    rw [validAt] at hv
    cases hk : kindAt t (.sAttr n :: q) with
    | none => rw [hk] at hv; simp at hv
    | some k =>
      have hq := (wf_attr_rules hwf hk).1
      have hvq : validAt t q = true := by rw [validAt, hq]; rfl
      rw [genLoop_attr]
      by_cases hc : (Step.sAttr n :: q : Path) = ctx
      · rw [if_pos hc]
        subst hc
        exact ⟨fun _ => by simp [ascentChain], fun _ => rfl⟩
      · rw [if_neg hc, hk]
        show ((genLoop t ctx q none).bind (fun rb =>
            Except.ok (⟨n, .tup [], some []⟩ :: rb.1, rb.2))).isOk = true ↔
          ctx ∈ ascentChain (.sAttr n :: q)
        have hchain : ctx ∈ ascentChain (.sAttr n :: q) ↔ ctx ∈ ascentChain q := by
          simp only [ascentChain, List.mem_cons]
          constructor
          · intro h; rcases h with h | h
            · exact absurd h.symm hc
            · exact h
          · exact Or.inr
        rw [hchain, ← ih ctx hvq]
        cases hgl : genLoop t ctx q none with
        | error e => simp [Except.isOk, Except.toBool, Except.bind]
        | ok rb => simp [Except.isOk, Except.toBool, Except.bind]
  | case3 k =>
    intro ctx hv
    rw [validAt] at hv
    cases hk : kindAt t ([.sItem k] : Path) with
    | none => rw [hk] at hv; simp at hv
    | some knd =>
      have hcont := (wf_item_rules hwf hk).1
      obtain ⟨sg, hsg⟩ := @genItemSeg_none_ok t [] [.sItem k] hwf hcont
      rw [genLoop_item_root]
      by_cases hc : ([Step.sItem k] : Path) = ctx
      · rw [if_pos hc]
        subst hc
        exact ⟨fun _ => by simp [ascentChain], fun _ => rfl⟩
      · rw [if_neg hc, hk, hsg]
        have hgoal : ∀ (out : List Cid),
            ((if ([] : Path) = ctx then
              Except.ok (out, (none : Option Buffer))
            else Except.error PyErr.valueError).isOk = true ↔
            ctx ∈ ascentChain [.sItem k]) := by
          intro out
          by_cases hcr : ([] : Path) = ctx
          · rw [if_pos hcr]
            constructor
            · intro _
              rw [← hcr]
              simp [ascentChain]
            · intro _; rfl
          · rw [if_neg hcr]
            constructor
            · intro h; exact absurd h (by simp [Except.isOk, Except.toBool])
            · intro h
              simp only [ascentChain, List.mem_cons, List.mem_singleton,
                List.not_mem_nil] at h
              rcases h with h | h | h
              · exact absurd h.symm hc
              · exact absurd h.symm hcr
              · exact h.elim
        cases sg with
        | none => exact hgoal []
        | some c => exact hgoal [c]
  | case4 k st r ih =>
    intro ctx hv
    rw [validAt] at hv
    cases hk : kindAt t (.sItem k :: st :: r) with
    | none => rw [hk] at hv; simp at hv
    | some knd =>
      have hcont := (wf_item_rules hwf hk).1
      obtain ⟨n', q', hshape⟩ := wf_indexed_shape hwf hcont
      have hr : kindAt t r = some .nBlock := by
        have hst : st = Step.sAttr n' ∧ r = q' := by
          have hh : (st :: r : Path) = .sAttr n' :: q' := hshape
          injection hh with h1 h2; exact ⟨h1, h2⟩
        rw [hst.2]
        have hca : kindAt t (.sAttr n' :: q') = some .nIndexedC := by
          rw [← hshape]; exact hcont
        exact (wf_attr_rules hwf hca).1
      have hvr : validAt t r = true := by rw [validAt, hr]; rfl
      obtain ⟨sg, hsg⟩ :=
        @genItemSeg_none_ok t (st :: r) (.sItem k :: st :: r) hwf hcont
      rw [genLoop_item]
      by_cases hc : (Step.sItem k :: st :: r : Path) = ctx
      · rw [if_pos hc]
        subst hc
        exact ⟨fun _ => by simp [ascentChain], fun _ => rfl⟩
      · rw [if_neg hc, hk, hsg]
        have hchain : ctx ∈ ascentChain (.sItem k :: st :: r) ↔
            ctx ∈ ascentChain r := by
          simp only [ascentChain, List.mem_cons]
          constructor
          · intro h; rcases h with h | h
            · exact absurd h.symm hc
            · exact h
          · exact Or.inr
        have hgoal : ∀ (g : List Cid → List Cid),
            (((genLoop t ctx r none).bind (fun rb =>
              Except.ok (g rb.1, rb.2))).isOk = true ↔
            ctx ∈ ascentChain (.sItem k :: st :: r)) := by
          intro g
          rw [hchain, ← ih ctx hvr]
          cases hgl : genLoop t ctx r none with
          | error e => simp [Except.isOk, Except.toBool, Except.bind]
          | ok rb => simp [Except.isOk, Except.toBool, Except.bind]
        cases sg with
        | none => exact hgoal (fun l => l)
        | some c => exact hgoal (fun l => c :: l)

/-- Where the ascent of `_generate_cuid` starts: at the target itself, or at
its parent block for a bare indexed container. -/
def genStart (t : Tree) (p : Path) : Path :=
  if kindAt t p = some .nIndexedC then ((parentBlockPath p).getD []) else p

/-- **C7** (amended).  Generating from a live reference with an explicit
context raises `ContextError` (`ValueError`) iff the context is *not* on
the parent-block ascent chain: the chain starts at the target itself for
objects carrying `_component` (so the target as its own context succeeds,
though it is no ancestor), starts at the parent block for a bare indexed
container (so the container's own collection path never occurs), ascends
through parent blocks only (so a member's owning container never occurs),
and ends at the model root. -/
theorem c7_context_error_iff (t : Tree) (p ctx : Path) (hwf : TreeWF t)
    (hv : validAt t p = true) :
    (generateCuid t p (some ctx)).isOk = true ↔
      ctx ∈ ascentChain (genStart t p) := by
  unfold generateCuid genCuid genStart
  by_cases hind : kindAt t p = some .nIndexedC
  · obtain ⟨n, q, hshape⟩ := wf_indexed_shape hwf hind
    subst hshape
    rw [if_pos hind, if_pos hind]
    have hq : kindAt t q = some .nBlock := (wf_attr_rules hwf hind).1
    have hvq : validAt t q = true := by rw [validAt, hq]; rfl
    show (Except.map (fun x => x.1) ((genLoop t ctx q none).bind (fun rb =>
        Except.ok (⟨localName (.sAttr n :: q), .star2, none⟩ :: rb.1,
          rb.2)))).isOk = true ↔ ctx ∈ ascentChain q
    rw [← genLoop_isOk_iff hwf q ctx hvq]
    cases hgl : genLoop t ctx q none with
    | error e => simp [Except.isOk, Except.toBool, Except.bind, Except.map]
    | ok rb => simp [Except.isOk, Except.toBool, Except.bind, Except.map]
  · rw [if_neg hind, if_neg hind]
    show (Except.map (fun x => x.1) (genLoop t ctx p none)).isOk = true ↔
      ctx ∈ ascentChain p
    rw [← genLoop_isOk_iff hwf p ctx hv]
    cases hgl : genLoop t ctx p none with
    | error e => simp [Except.isOk, Except.toBool, Except.map]
    | ok rb => simp [Except.isOk, Except.toBool, Except.map]

/-- **C7** (witness for the amended theorem): on `treeA`, for the member
`x[1]` with the model root as explicit context (an ancestor), generation
succeeds. -/
theorem c7_context_error_iff_witness :
    TreeWF treeA ∧
    ((generateCuid treeA [.sItem (.vInt 1), .sAttr (lc "x")] (some [])).isOk = true ↔
      [] ∈ ascentChain (genStart treeA [.sItem (.vInt 1), .sAttr (lc "x")])) :=
  ⟨by decide, c7_context_error_iff treeA _ [] (by decide) (by decide)⟩

/-! ## Claim C10 -/

/-- Completeness of `itemsOfComp`: a listed item node is iterated. -/
theorem itemsOfComp_complete {t : Tree} {k : PyVal} {q : Path} {knd : NKind}
    (h : (Step.sItem k :: q, knd) ∈ t.nodes) :
    (k, Step.sItem k :: q) ∈ itemsOfComp t q := by
  unfold itemsOfComp
  rw [List.mem_filterMap]
  exact ⟨(Step.sItem k :: q, knd), h, by simp⟩

/-- A valid item node is among its container's iterated pairs. -/
theorem pyItems_complete {t : Tree} {k : PyVal} {q : Path} {knd : NKind}
    (hc : kindAt t q = some .nIndexedC)
    (h : kindAt t (.sItem k :: q) = some knd) :
    (k, Step.sItem k :: q) ∈ pyItems t q := by
  unfold pyItems; rw [hc]
  exact itemsOfComp_complete (kindAt_mem h)

/-- Reduction of `bind` on a success. -/
theorem exceptOkBind {α β : Type} (a : α) (f : α → Except PyErr β) :
    (Except.ok a : Except PyErr α).bind f = f a := rfl

/-- Congruence for the common `bind`-then-`cons` shape of the generation
loop, under equality of the produced segment sequences. -/
theorem bind_map_fst_congr (g : List Cid → List Cid)
    (x y : Except PyErr (List Cid × Option Buffer))
    (h : x.map (fun z => z.1) = y.map (fun z => z.1)) :
    (x.bind (fun rb => Except.ok (g rb.1, rb.2))).map (fun z => z.1) =
      (y.bind (fun rb => Except.ok (g rb.1, rb.2))).map (fun z => z.1) := by
  cases x with
  | error e =>
    cases y with
    | error e2 =>
      have he : e = e2 := by simpa [Except.map] using h
      rw [he]
    | ok rb2 => simp [Except.map] at h
  | ok rb =>
    cases y with
    | error e2 => simp [Except.map] at h
    | ok rb2 =>
      have he : rb.1 = rb2.1 := by simpa [Except.map] using h
      simp [Except.bind, Except.map, he]

/-- The buffer-population fold succeeds on a well-formed container and
appends one entry per `(index, object)` pair. -/
theorem buffer_fold_ok {t : Tree} {cp : Path} (hwf : TreeWF t)
    (hc : kindAt t cp = some .nIndexedC) :
    ∀ (l : List (PyVal × Path)) (b : Buffer),
      (∀ kv ∈ l, kv ∈ pyItems t cp) →
      l.foldlM (fun acc (kv : PyVal × Path) => do
          let pr ← partialFromIndex kv.1
          pure (acc ++ [(some kv.2, pr)])) b =
        .ok (b ++ l.map (fun kv => (some kv.2, partialIdxWF kv.1))) := by
  intro l
  induction l with
  | nil => intro b _; simp only [List.map_nil, List.append_nil]; rfl
  | cons kv l' ih =>
    intro b hmem
    have hkv : kv ∈ pyItems t cp := hmem kv (List.mem_cons_self _ _)
    have hkv2 : (kv.1, kv.2) ∈ pyItems t cp := by
      have h2 : kv = (kv.1, kv.2) := rfl
      rw [← h2]; exact hkv
    have hkw := (pyItems_wf hwf hc hkv2).2
    have happ : (partialFromIndex kv.1).bind
        (fun pr => (pure (b ++ [(some kv.2, pr)]) : Except PyErr Buffer)) =
      Except.ok (b ++ [(some kv.2, partialIdxWF kv.1)]) := by
      rw [partialFromIndex_keyWF hkw]; rfl
    rw [List.foldlM_cons]
    show ((partialFromIndex kv.1).bind
        (fun pr => (pure (b ++ [(some kv.2, pr)]) : Except PyErr Buffer))).bind
      (fun b2 => l'.foldlM (fun acc (kv : PyVal × Path) => do
          let pr ← partialFromIndex kv.1
          pure (acc ++ [(some kv.2, pr)])) b2) = _
    rw [happ, exceptOkBind, ih (b ++ [(some kv.2, partialIdxWF kv.1)])
      (fun kv2 h2 => hmem kv2 (List.mem_cons_of_mem _ h2))]
    simp

/-- Association lookup distributes over append. -/
theorem bufFind_append (b1 b2 : Buffer) (key : Option Path) :
    bufFind (b1 ++ b2) key =
      match bufFind b1 key with
      | some v => some v
      | none => bufFind b2 key := by
  unfold bufFind
  rw [List.find?_append]
  cases hf : b1.find? (fun e => e.1 = key) with
  | none => simp [Option.orElse]
  | some e => simp [Option.orElse]

/-- Lookup of a member's identity in the entries produced by buffer
population: the member's own partial index is found. -/
theorem bufFind_populated {cp : Path} {k : PyVal} :
    ∀ (l : List (PyVal × Path)),
      (∀ kv ∈ l, kv.2 = Step.sItem kv.1 :: cp) →
      (k, Step.sItem k :: cp) ∈ l →
      bufFind (l.map (fun kv => (some kv.2, partialIdxWF kv.1)))
        (some (.sItem k :: cp)) = some (partialIdxWF k) := by
  intro l
  induction l with
  | nil => intro _ hmem; exact absurd hmem (List.not_mem_nil _)
  | cons kv l' ih =>
    intro hsh hmem
    by_cases hkv : kv.2 = (Step.sItem k :: cp : Path)
    · have hk1 : kv.1 = k := by
        have h1 := hsh kv (List.mem_cons_self _ _)
        rw [hkv] at h1
        injection h1.symm with h2 _
        injection h2 with h3
        all_goals exact h3.symm
      unfold bufFind
      rw [List.map_cons, List.find?_cons_of_pos _ (by simp [hkv]), hk1]
      rfl
    · unfold bufFind
      rw [List.map_cons, List.find?_cons_of_neg _ (by simp [hkv])]
      have hmem2 : (k, Step.sItem k :: cp) ∈ l' := by
        rcases List.mem_cons.mp hmem with h | h
        · exfalso; apply hkv; rw [← h]
        · exact h
      have hih := ih (fun kv2 h2 => hsh kv2 (List.mem_cons_of_mem _ h2)) hmem2
      unfold bufFind at hih
      exact hih

/-- The buffer invariant maintained along the ascent: every entry is keyed
by the identity of a data object strictly deeper than the current
target. -/
def BufInv (b : Buffer) (p : Path) : Prop :=
  ∀ e ∈ b, ∃ m : Path, e.1 = some m ∧ p.length < m.length

/-- The member-level body with a buffer satisfying the invariant produces
the same segment as the unbuffered identity scan, and fills the buffer with
entries no shallower than the member. -/
theorem genItemSeg_buffer {t : Tree} (hwf : TreeWF t) {cp : Path} {k : PyVal}
    (hc : kindAt t cp = some .nIndexedC)
    (hitem : (k, Step.sItem k :: cp) ∈ pyItems t cp)
    (b : Buffer) (hinv : BufInv b (.sItem k :: cp)) :
    ∃ b', genItemSeg t cp (.sItem k :: cp) (some b) =
        .ok (some ⟨localName cp, (partialIdxWF k).1, (partialIdxWF k).2⟩, some b') ∧
      genItemSeg t cp (.sItem k :: cp) none =
        .ok (some ⟨localName cp, (partialIdxWF k).1, (partialIdxWF k).2⟩, none) ∧
      ∀ e ∈ b', ∃ m : Path,
        e.1 = some m ∧ (Step.sItem k :: cp : Path).length ≤ m.length := by
  have hshape : ∀ kv ∈ pyItems t cp, kv.2 = Step.sItem kv.1 :: cp := by
    intro kv hkv
    have hkv2 : (kv.1, kv.2) ∈ pyItems t cp := by
      have h2 : kv = (kv.1, kv.2) := rfl
      rw [← h2]; exact hkv
    exact (pyItems_wf hwf hc hkv2).1
  have hkw : keyWF k = true := (pyItems_wf hwf hc hitem).2
  -- the unbuffered scan
  have hnone : genItemSeg t cp (.sItem k :: cp) none =
      .ok (some ⟨localName cp, (partialIdxWF k).1, (partialIdxWF k).2⟩, none) := by
    have he : genItemSeg t cp (.sItem k :: cp) none =
        (match (pyItems t cp).find? (fun kv => kv.2 = (.sItem k :: cp : Path)) with
         | some kv => (partialFromIndex kv.1).bind
             (fun pr => .ok (some ⟨localName cp, pr.1, pr.2⟩, none))
         | none => .ok (none, none)) := rfl
    rw [he]
    have hsome : ((pyItems t cp).find?
        (fun kv => kv.2 = (.sItem k :: cp : Path))).isSome := by
      rw [List.find?_isSome]
      exact ⟨(k, .sItem k :: cp), hitem, by simp⟩
    cases hf : (pyItems t cp).find? (fun kv => kv.2 = (.sItem k :: cp : Path)) with
    | none => rw [hf] at hsome; simp at hsome
    | some kv =>
      have hp2 : kv.2 = (Step.sItem k :: cp : Path) := by
        have := List.find?_some hf
        exact of_decide_eq_true this
      have hk1 : kv.1 = k := by
        have h1 := hshape kv (List.mem_of_find?_eq_some hf)
        rw [hp2] at h1
        injection h1.symm with h2 _
        injection h2 with h3
        all_goals exact h3.symm
      show (partialFromIndex kv.1).bind
          (fun pr => Except.ok (some (Cid.mk (localName cp) pr.1 pr.2),
            (none : Option Buffer))) =
        Except.ok (some (Cid.mk (localName cp) (partialIdxWF k).1
          (partialIdxWF k).2), (none : Option Buffer))
      rw [hk1, partialFromIndex_keyWF hkw, exceptOkBind]
  -- the buffered lookup
  have hbnone : bufFind b none = Option.none := by
    unfold bufFind
    cases hf : b.find? (fun e => e.1 = none) with
    | none => rfl
    | some e =>
      exfalso
      have hp := List.find?_some hf
      have hmem := List.mem_of_find?_eq_some hf
      obtain ⟨m, hm, _⟩ := hinv e hmem
      rw [hm] at hp
      simp at hp
  have hfindb : bufFind b (some (.sItem k :: cp : Path)) = Option.none := by
    unfold bufFind
    cases hf : b.find? (fun e => e.1 = some (.sItem k :: cp : Path)) with
    | none => rfl
    | some e =>
      exfalso
      have hp := List.find?_some hf
      have hmem := List.mem_of_find?_eq_some hf
      obtain ⟨m, hm, hlen⟩ := hinv e hmem
      rw [hm] at hp
      have hmp : m = (Step.sItem k :: cp : Path) := by
        have := of_decide_eq_true hp
        exact Option.some.inj this
      rw [hmp] at hlen
      omega
  have hlook : bufFind
      (b ++ (pyItems t cp).map (fun kv => (some kv.2, partialIdxWF kv.1)))
      (some (.sItem k :: cp : Path)) = some (partialIdxWF k) := by
    rw [bufFind_append, hfindb]
    exact bufFind_populated (pyItems t cp) hshape hitem
  have hsomeeq : genItemSeg t cp (.sItem k :: cp) (some b) =
      (if bufFind b none = Option.none then
        ((pyItems t cp).foldlM (fun acc (kv : PyVal × Path) => do
            let pr ← partialFromIndex kv.1
            pure (acc ++ [(some kv.2, pr)])) b).bind (fun b2 =>
          match bufFind b2 (some (.sItem k :: cp : Path)) with
          | some pr => Except.ok (some (Cid.mk (localName cp) pr.1 pr.2), some b2)
          | none => Except.error PyErr.keyError)
      else (pure b : Except PyErr Buffer).bind (fun b2 =>
          match bufFind b2 (some (.sItem k :: cp : Path)) with
          | some pr => Except.ok (some (Cid.mk (localName cp) pr.1 pr.2), some b2)
          | none => Except.error PyErr.keyError)) := rfl
  refine ⟨b ++ (pyItems t cp).map (fun kv => (some kv.2, partialIdxWF kv.1)),
    ?_, hnone, ?_⟩
  · rw [hsomeeq, if_pos hbnone,
      buffer_fold_ok hwf hc (pyItems t cp) b (fun kv h => h), exceptOkBind,
      hlook]
  · intro e he
    rcases List.mem_append.mp he with h | h
    · obtain ⟨m, hm, hlen⟩ := hinv e h
      exact ⟨m, hm, Nat.le_of_lt hlen⟩
    · rw [List.mem_map] at h
      obtain ⟨kv, hkv, hekv⟩ := h
      refine ⟨kv.2, by rw [← hekv], ?_⟩
      rw [hshape kv hkv]
      simp

/-- The generation loop with a buffer satisfying the invariant produces the
same segment sequence as the unbuffered loop. -/
theorem genLoop_buffer {t : Tree} (hwf : TreeWF t) :
    ∀ (p ctx : Path) (b : Buffer), validAt t p = true → BufInv b p →
      (genLoop t ctx p (some b)).map (fun x => x.1) =
        (genLoop t ctx p none).map (fun x => x.1) := by
  intro p
  induction p using ascentChain.induct with
  | case1 =>
    intro ctx b _ _
    rw [genLoop_root, genLoop_root]
    by_cases hc : ([] : Path) = ctx
    · rw [if_pos hc, if_pos hc]
      all_goals rfl
    · rw [if_neg hc, if_neg hc]
      all_goals rfl
  | case2 n q ih =>
    intro ctx b hv hinv
    rw [validAt] at hv
    cases hk : kindAt t (.sAttr n :: q) with
    | none => rw [hk] at hv; simp at hv
    | some k =>
      have hq := (wf_attr_rules hwf hk).1
      have hvq : validAt t q = true := by rw [validAt, hq]; rfl
      have hinvq : BufInv b q := by
        intro e he
        obtain ⟨m, hm, hlen⟩ := hinv e he
        refine ⟨m, hm, ?_⟩
        simp only [List.length_cons] at hlen
        omega
      rw [genLoop_attr, genLoop_attr]
      by_cases hc : (Step.sAttr n :: q : Path) = ctx
      · rw [if_pos hc, if_pos hc]
        all_goals rfl
      · rw [if_neg hc, if_neg hc, hk]
        exact bind_map_fst_congr (fun l => ⟨n, .tup [], some []⟩ :: l)
          (genLoop t ctx q (some b)) (genLoop t ctx q none)
          (ih ctx b hvq hinvq)
  | case3 k =>
    intro ctx b hv hinv
    rw [validAt] at hv
    cases hk : kindAt t ([.sItem k] : Path) with
    | none => rw [hk] at hv; simp at hv
    | some knd =>
      have hcont := (wf_item_rules hwf hk).1
      have hitem := pyItems_complete hcont hk
      obtain ⟨b', hb1, hb2, _⟩ :=
        genItemSeg_buffer hwf hcont hitem b hinv
      rw [genLoop_item_root, genLoop_item_root]
      by_cases hc : ([Step.sItem k] : Path) = ctx
      · rw [if_pos hc, if_pos hc]
        all_goals rfl
      · rw [if_neg hc, if_neg hc, hk, hb1, hb2, exceptOkBind, exceptOkBind]
        by_cases hcr : ([] : Path) = ctx
        · rw [if_pos hcr, if_pos hcr]
          all_goals rfl
        · rw [if_neg hcr, if_neg hcr]
          all_goals rfl
  | case4 k st r ih =>
    intro ctx b hv hinv
    rw [validAt] at hv
    cases hk : kindAt t (.sItem k :: st :: r) with
    | none => rw [hk] at hv; simp at hv
    | some knd =>
      have hcont := (wf_item_rules hwf hk).1
      have hitem := pyItems_complete hcont hk
      obtain ⟨b', hb1, hb2, hinv'⟩ :=
        genItemSeg_buffer hwf hcont hitem b hinv
      obtain ⟨n', q', hshape⟩ := wf_indexed_shape hwf hcont
      have hr : kindAt t r = some .nBlock := by
        have hst : st = Step.sAttr n' ∧ r = q' := by
          have hh : (st :: r : Path) = .sAttr n' :: q' := hshape
          injection hh with h1 h2; exact ⟨h1, h2⟩
        rw [hst.2]
        have hca : kindAt t (.sAttr n' :: q') = some .nIndexedC := by
          rw [← hshape]; exact hcont
        exact (wf_attr_rules hwf hca).1
      have hvr : validAt t r = true := by rw [validAt, hr]; rfl
      have hinvr : BufInv b' r := by
        intro e he
        obtain ⟨m, hm, hlen⟩ := hinv' e he
        refine ⟨m, hm, ?_⟩
        simp only [List.length_cons] at hlen
        omega
      rw [genLoop_item, genLoop_item]
      by_cases hc : (Step.sItem k :: st :: r : Path) = ctx
      · rw [if_pos hc, if_pos hc]
        all_goals rfl
      · rw [if_neg hc, if_neg hc, hk, hb1, hb2, exceptOkBind, exceptOkBind]
        exact bind_map_fst_congr
          (fun l => ⟨localName (st :: r), (partialIdxWF k).1,
            (partialIdxWF k).2⟩ :: l)
          (genLoop t ctx r (some b')) (genLoop t ctx r none)
          (ih ctx b' hvr hinvr)

/-- **C10** (confirmed).  Cache transparency of generation: for every valid
component and every context, `_generate_cuid` with a freshly supplied empty
`cuid_buffer` yields exactly the same segment sequence as without a buffer;
the buffer affects only lookup mechanics, never the produced identifier
(note the populate guard tests `id(self)`, which is never a stored key, so
the buffer is repopulated at every indexed level but each lookup agrees
with the identity scan). -/
theorem c10_buffer_transparent (t : Tree) (p : Path) (ctx : Option Path)
    (hwf : TreeWF t) (hv : validAt t p = true) :
    (genCuid t p (some []) ctx).map (fun x => x.1) = generateCuid t p ctx := by
  unfold generateCuid genCuid
  by_cases hind : kindAt t p = some .nIndexedC
  · obtain ⟨n, q, hshape⟩ := wf_indexed_shape hwf hind
    subst hshape
    rw [if_pos hind, if_pos hind]
    have hq : kindAt t q = some .nBlock := (wf_attr_rules hwf hind).1
    have hvq : validAt t q = true := by rw [validAt, hq]; rfl
    show ((genLoop t (ctx.getD []) q (some [])).bind (fun rb =>
        Except.ok (⟨localName (.sAttr n :: q), .star2, none⟩ :: rb.1,
          rb.2))).map (fun z => z.1) =
      ((genLoop t (ctx.getD []) q none).bind (fun rb =>
        Except.ok (⟨localName (.sAttr n :: q), .star2, none⟩ :: rb.1,
          rb.2))).map (fun z => z.1)
    exact bind_map_fst_congr
      (fun l => ⟨localName (.sAttr n :: q), .star2, none⟩ :: l)
      _ _ (genLoop_buffer hwf q (ctx.getD []) [] hvq (fun e he => absurd he (List.not_mem_nil e)))
  · rw [if_neg hind, if_neg hind]
    exact genLoop_buffer hwf p (ctx.getD []) [] hv
      (fun e he => absurd he (List.not_mem_nil e))

/-- **C10** (witness): concrete instantiation on `treeA` at the member
`x[2]` with the default context. -/
theorem c10_buffer_transparent_witness :
    TreeWF treeA ∧
    (genCuid treeA [.sItem (.vInt 2), .sAttr (lc "x")] (some []) none).map
      (fun x => x.1) =
      generateCuid treeA [.sItem (.vInt 2), .sAttr (lc "x")] none :=
  ⟨by decide, c10_buffer_transparent treeA _ none (by decide) (by decide)⟩

/-! ## Decimal and separator round-trip infrastructure -/

/-- Characters written by the decimal printer are read back as their digit
values. -/
theorem digitVal_ofNat (d : Nat) (h : d < 10) :
    digitVal (Char.ofNat (48 + d)) = some d := by
  interval_cases d <;> decide

/-- Reading the printed digits of `n` in front of `acc` is reading `acc`
with accumulator `n`. -/
theorem natDigitsAux_reads (f : Nat) : ∀ (n : Nat) (acc : PStr), n < f →
    natFromDigits 0 (natDigitsAux f n acc) = natFromDigits n acc := by
  induction f with
  | zero => intro n acc h; omega
  | succ f ih =>
    intro n acc h
    show natFromDigits 0
        (if n < 10 then Char.ofNat (48 + n) :: acc
         else natDigitsAux f (n / 10) (Char.ofNat (48 + n % 10) :: acc)) = _
    by_cases h10 : n < 10
    · rw [if_pos h10]
      show (match digitVal (Char.ofNat (48 + n)) with
            | some d => natFromDigits (0 * 10 + d) acc
            | none => none) = natFromDigits n acc
      rw [digitVal_ofNat n h10]
      show natFromDigits (0 * 10 + n) acc = natFromDigits n acc
      rw [Nat.zero_mul, Nat.zero_add]
    · rw [if_neg h10]
      rw [ih (n / 10) _ (by omega)]
      show (match digitVal (Char.ofNat (48 + n % 10)) with
            | some d => natFromDigits (n / 10 * 10 + d) acc
            | none => none) = natFromDigits n acc
      rw [digitVal_ofNat (n % 10) (Nat.mod_lt n (by omega))]
      show natFromDigits (n / 10 * 10 + n % 10) acc = natFromDigits n acc
      rw [show n / 10 * 10 + n % 10 = n from by omega]

/-- The decimal digits of `n` read back as `n`. -/
theorem natFromDigits_natDigits (n : Nat) :
    natFromDigits 0 (natDigits n) = some n := by
  have h := natDigitsAux_reads (n + 1) n [] (by omega)
  rw [natDigits, h]
  rfl

/-- The decimal printer emits a digit character first. -/
theorem natDigitsAux_head (f : Nat) : ∀ (n : Nat) (acc : PStr), n < f →
    ∃ d rest, d < 10 ∧ natDigitsAux f n acc = Char.ofNat (48 + d) :: rest := by
  induction f with
  | zero => intro n acc h; omega
  | succ f ih =>
    intro n acc h
    by_cases h10 : n < 10
    · exact ⟨n, acc, h10, by unfold natDigitsAux; rw [if_pos h10]⟩
    · obtain ⟨d, rest, hd, he⟩ := ih (n / 10) (Char.ofNat (48 + n % 10) :: acc) (by omega)
      exact ⟨d, rest, hd, by unfold natDigitsAux; rw [if_neg h10]; exact he⟩

/-- Every character the decimal printer emits beyond `acc` is a digit. -/
theorem natDigitsAux_chars (f : Nat) : ∀ (n : Nat) (acc : PStr) (c : Char),
    c ∈ natDigitsAux f n acc →
    c ∈ acc ∨ ∃ d, d < 10 ∧ c = Char.ofNat (48 + d) := by
  induction f with
  | zero => intro n acc c h; exact Or.inl h
  | succ f ih =>
    intro n acc c h
    rw [show natDigitsAux (f + 1) n acc =
        (if n < 10 then Char.ofNat (48 + n) :: acc
         else natDigitsAux f (n / 10) (Char.ofNat (48 + n % 10) :: acc)) from rfl] at h
    by_cases h10 : n < 10
    · rw [if_pos h10] at h
      rcases List.mem_cons.mp h with h1 | h1
      · exact Or.inr ⟨n, h10, h1⟩
      · exact Or.inl h1
    · rw [if_neg h10] at h
      rcases ih (n / 10) _ c h with h1 | h1
      · rcases List.mem_cons.mp h1 with h2 | h2
        · exact Or.inr ⟨n % 10, Nat.mod_lt n (by omega), h2⟩
        · exact Or.inl h2
      · exact Or.inr h1

/-- Every character of `natDigits n` is a digit. -/
theorem natDigits_chars (n : Nat) (c : Char) (h : c ∈ natDigits n) :
    ∃ d, d < 10 ∧ c = Char.ofNat (48 + d) := by
  rcases natDigitsAux_chars (n + 1) n [] c h with h1 | h1
  · exact absurd h1 (List.not_mem_nil c)
  · exact h1

/-- Every character of Python `str(z)` for an `int` is a digit or the
leading minus sign. -/
theorem intRepr_chars (z : Int) (c : Char) (h : c ∈ intRepr z) :
    c = '-' ∨ ∃ d, d < 10 ∧ c = Char.ofNat (48 + d) := by
  unfold intRepr at h
  by_cases hz : z < 0
  · rw [if_pos hz] at h
    rcases List.mem_cons.mp h with h1 | h1
    · exact Or.inl h1
    · exact Or.inr (natDigits_chars _ c h1)
  · rw [if_neg hz] at h
    exact Or.inr (natDigits_chars _ c h)

/-- A list none of whose characters satisfies the predicate is left
unchanged by `dropWhile`. -/
theorem dropWhile_clean {p : Char → Bool} :
    ∀ {l : List Char}, (∀ c ∈ l, p c = false) → l.dropWhile p = l := by
  intro l h
  cases l with
  | nil => rfl
  | cons c cs =>
    rw [List.dropWhile_cons, h c (List.mem_cons_self c cs)]
    rfl

/-- Stripping `int()` whitespace from both ends of a whitespace-free
string is the identity. -/
theorem pyStrip_clean {l : PStr} (h : ∀ c ∈ l, pyIntWs c = false) :
    ((l.dropWhile pyIntWs).reverse.dropWhile pyIntWs).reverse = l := by
  rw [dropWhile_clean h,
    dropWhile_clean (fun c hc => h c (List.mem_reverse.mp hc))]
  exact List.reverse_reverse l

/-- On digit-only strings the underscore-aware reader agrees with the
plain one. -/
theorem natFromUDigits_digits :
    ∀ (s : PStr), (∀ c ∈ s, ∃ d, d < 10 ∧ c = Char.ofNat (48 + d)) →
    ∀ acc, natFromUDigits acc true s = natFromDigits acc s := by
  intro s
  induction s with
  | nil => intro _ _; rfl
  | cons c cs ih =>
    intro h acc
    obtain ⟨d, hd, hc⟩ := h c (List.mem_cons_self c cs)
    subst hc
    have hL : natFromUDigits acc true (Char.ofNat (48 + d) :: cs) =
        natFromUDigits (acc * 10 + d) true cs := by
      show (match digitVal (Char.ofNat (48 + d)) with
        | some d2 => natFromUDigits (acc * 10 + d2) true cs
        | none =>
          if Char.ofNat (48 + d) = '_' then natFromUDigits acc false cs
          else none) = natFromUDigits (acc * 10 + d) true cs
      rw [digitVal_ofNat d hd]
    have hR : natFromDigits acc (Char.ofNat (48 + d) :: cs) =
        natFromDigits (acc * 10 + d) cs := by
      show (match digitVal (Char.ofNat (48 + d)) with
        | some d2 => natFromDigits (acc * 10 + d2) cs
        | none => none) = natFromDigits (acc * 10 + d) cs
      rw [digitVal_ofNat d hd]
    rw [hL, hR]
    exact ih (fun c2 hc2 => h c2 (List.mem_cons_of_mem _ hc2)) (acc * 10 + d)

/-- On a nonempty digit-only string the digit run of `int()` is the plain
decimal reading. -/
theorem pyIntBody_digits {c : Char} {cs : PStr}
    (h : ∀ x ∈ c :: cs, ∃ d, d < 10 ∧ x = Char.ofNat (48 + d)) :
    pyIntBody (c :: cs) = natFromDigits 0 (c :: cs) := by
  obtain ⟨d, hd, hc⟩ := h c (List.mem_cons_self c cs)
  subst hc
  have hL : pyIntBody (Char.ofNat (48 + d) :: cs) =
      natFromUDigits d true cs := by
    show (match digitVal (Char.ofNat (48 + d)) with
      | some d2 => natFromUDigits d2 true cs
      | none => none) = natFromUDigits d true cs
    rw [digitVal_ofNat d hd]
  have hR : natFromDigits 0 (Char.ofNat (48 + d) :: cs) =
      natFromDigits d cs := by
    show (match digitVal (Char.ofNat (48 + d)) with
      | some d2 => natFromDigits (0 * 10 + d2) cs
      | none => none) = natFromDigits d cs
    rw [digitVal_ofNat d hd]
    show natFromDigits (0 * 10 + d) cs = natFromDigits d cs
    rw [Nat.zero_mul, Nat.zero_add]
  rw [hL, hR]
  exact natFromUDigits_digits cs (fun x hx => h x (List.mem_cons_of_mem _ hx)) d

/-- No character of Python `str(z)` for an `int` is `int()` whitespace. -/
theorem intRepr_not_ws (z : Int) : ∀ c ∈ intRepr z, pyIntWs c = false := by
  intro c hc
  rcases intRepr_chars z c hc with rfl | ⟨d, hd, rfl⟩
  · decide
  · interval_cases d <;> decide

/-- Python `int(str(z)) == z`: the decimal form of an integer parses back to
it. -/
theorem pyParseInt_intRepr (z : Int) : pyParseInt (intRepr z) = .ok z := by
  have hstrip := pyStrip_clean (intRepr_not_ws z)
  show pyIntSigned
    ((((intRepr z).dropWhile pyIntWs).reverse.dropWhile pyIntWs).reverse) =
    .ok z
  rw [hstrip]
  unfold intRepr
  by_cases hz : z < 0
  · rw [if_pos hz]
    obtain ⟨d, rest, hd, he⟩ :=
      natDigitsAux_head (z.natAbs + 1) z.natAbs [] (by omega)
    have hds : natDigits z.natAbs = Char.ofNat (48 + d) :: rest := he
    have hdigs : ∀ x ∈ Char.ofNat (48 + d) :: rest,
        ∃ d2, d2 < 10 ∧ x = Char.ofNat (48 + d2) := by
      intro x hx
      rw [← hds] at hx
      exact natDigits_chars _ x hx
    have hnf := natFromDigits_natDigits z.natAbs
    rw [hds] at hnf
    rw [hds]
    show (match pyIntBody (Char.ofNat (48 + d) :: rest) with
          | some n => (Except.ok (-(n : Int)) : Except PyErr Int)
          | none => .error .valueError) = .ok z
    rw [pyIntBody_digits hdigs, hnf]
    show Except.ok (-(z.natAbs : Int)) = Except.ok z
    congr 1
    omega
  · rw [if_neg hz]
    obtain ⟨d, rest, hd, he⟩ :=
      natDigitsAux_head (z.toNat + 1) z.toNat [] (by omega)
    have hds : natDigits z.toNat = Char.ofNat (48 + d) :: rest := he
    have hdigs : ∀ x ∈ Char.ofNat (48 + d) :: rest,
        ∃ d2, d2 < 10 ∧ x = Char.ofNat (48 + d2) := by
      intro x hx
      rw [← hds] at hx
      exact natDigits_chars _ x hx
    have hnf := natFromDigits_natDigits z.toNat
    rw [hds] at hnf
    rw [hds]
    unfold pyIntSigned
    split
    · next rest2 heq =>
      have hc : Char.ofNat (48 + d) = '-' := (List.cons.inj heq).1
      interval_cases d <;> exact absurd hc (by decide)
    · next rest2 heq =>
      have hc : Char.ofNat (48 + d) = '+' := (List.cons.inj heq).1
      interval_cases d <;> exact absurd hc (by decide)
    · rw [pyIntBody_digits hdigs, hnf]
      show Except.ok ((z.toNat : Nat) : Int) = Except.ok z
      congr 1
      omega

/-- A separator-free string splits into the single piece itself. -/
theorem pySplit_no_sep (s : PStr) (sep : Char) (h : sep ∉ s) :
    pySplit s sep = [s] := by
  induction s with
  | nil => rfl
  | cons c rest ih =>
    have hcs : ¬ c = sep := by
      intro he
      exact h (by rw [← he]; exact List.mem_cons_self c rest)
    have hr : sep ∉ rest := fun hm => h (List.mem_cons_of_mem c hm)
    show (if c = sep then [] :: pySplit rest sep
          else match pySplit rest sep with
               | x :: xs => (c :: x) :: xs
               | [] => [[c]]) = [c :: rest]
    rw [if_neg hcs, ih hr]

/-- Splitting after a separator-free prefix peels that prefix off. -/
theorem pySplit_append_sep (p q : PStr) (sep : Char) (h : sep ∉ p) :
    pySplit (p ++ sep :: q) sep = p :: pySplit q sep := by
  induction p with
  | nil =>
    show (if sep = sep then [] :: pySplit q sep
          else match pySplit q sep with
               | x :: xs => (sep :: x) :: xs
               | [] => [[sep]]) = [] :: pySplit q sep
    rw [if_pos rfl]
  | cons c rest ih =>
    have hcs : ¬ c = sep := by
      intro he
      exact h (by rw [← he]; exact List.mem_cons_self c rest)
    have hr : sep ∉ rest := fun hm => h (List.mem_cons_of_mem c hm)
    show (if c = sep then [] :: pySplit (rest ++ sep :: q) sep
          else match pySplit (rest ++ sep :: q) sep with
               | x :: xs => (c :: x) :: xs
               | [] => [[c]]) = (c :: rest) :: pySplit q sep
    rw [if_neg hcs, ih hr]

/-- `split(sep, 1)` of a separator-free string finds nothing. -/
theorem pySplitOnce_no_sep (s : PStr) (sep : Char) (h : sep ∉ s) :
    pySplitOnce s sep = (s, none) := by
  induction s with
  | nil => rfl
  | cons c rest ih =>
    have hcs : ¬ c = sep := by
      intro he
      exact h (by rw [← he]; exact List.mem_cons_self c rest)
    have hr : sep ∉ rest := fun hm => h (List.mem_cons_of_mem c hm)
    show (if c = sep then ([], some rest)
          else ((c :: (pySplitOnce rest sep).1, (pySplitOnce rest sep).2) :
            PStr × Option PStr)) = (c :: rest, none)
    rw [if_neg hcs, ih hr]

/-- `split(sep, 1)` after a separator-free prefix splits exactly there. -/
theorem pySplitOnce_append (p q : PStr) (sep : Char) (h : sep ∉ p) :
    pySplitOnce (p ++ sep :: q) sep = (p, some q) := by
  induction p with
  | nil =>
    show (if sep = sep then (([] : PStr), some q)
          else ((sep :: (pySplitOnce q sep).1, (pySplitOnce q sep).2) :
            PStr × Option PStr)) = ([], some q)
    rw [if_pos rfl]
  | cons c rest ih =>
    have hcs : ¬ c = sep := by
      intro he
      exact h (by rw [← he]; exact List.mem_cons_self c rest)
    have hr : sep ∉ rest := fun hm => h (List.mem_cons_of_mem c hm)
    show (if c = sep then ([], some (rest ++ sep :: q))
          else ((c :: (pySplitOnce (rest ++ sep :: q) sep).1,
            (pySplitOnce (rest ++ sep :: q) sep).2) : PStr × Option PStr)) =
        (c :: rest, some q)
    rw [if_neg hcs, ih hr]

/-- `'.'.join` of a list of non-empty pieces, as `__repr__`/`__str__`
produce it. -/
def dotJoin : List PStr → PStr
  | [] => []
  | [t] => t
  | t :: ts => t ++ '.' :: dotJoin ts

/-- The tail form of `dotJoin`: what each further piece contributes. -/
def dotTail : List PStr → PStr
  | [] => []
  | t :: ts => '.' :: (t ++ dotTail ts)

/-- `dotJoin` written with its tail form. -/
theorem dotJoin_cons (t : PStr) (ts : List PStr) :
    dotJoin (t :: ts) = t ++ dotTail ts := by
  induction ts generalizing t with
  | nil => show t = t ++ []; rw [List.append_nil]
  | cons u ts' ih =>
    show t ++ '.' :: dotJoin (u :: ts') = t ++ '.' :: (u ++ dotTail ts')
    rw [ih u]

/-- Splitting a dot-join of dot-free pieces recovers the pieces. -/
theorem pySplit_dotJoin (txts : List PStr) (hne : txts ≠ [])
    (h : ∀ p ∈ txts, ('.' : Char) ∉ p) :
    pySplit (dotJoin txts) '.' = txts := by
  induction txts with
  | nil => exact absurd rfl hne
  | cons t ts ih =>
    cases ts with
    | nil => exact pySplit_no_sep t '.' (h t (List.mem_cons_self t []))
    | cons u ts' =>
      show pySplit (t ++ '.' :: dotJoin (u :: ts')) '.' = t :: (u :: ts')
      rw [pySplit_append_sep _ _ _ (h t (List.mem_cons_self t (u :: ts')))]
      rw [ih (by simp) (fun p hp => h p (List.mem_cons_of_mem t hp))]

/-! ## Separator-free goodness predicates and the per-segment round trip -/

/-- A string value whose text survives the parser's separators: no `.`
(label split), no `,` (index split), no `]` (bracket dispatch), and not the
full-wildcard text `**`. -/
def GoodStr (s : PStr) : Prop :=
  ('.' : Char) ∉ s ∧ (',' : Char) ∉ s ∧ (']' : Char) ∉ s ∧ s ≠ ['*', '*']

/-- A component name the parser reads back intact: non-empty and free of
the label and index separators. -/
def GoodName (n : PStr) : Prop :=
  n ≠ [] ∧ ('.' : Char) ∉ n ∧ (':' : Char) ∉ n ∧ ('[' : Char) ∉ n ∧
    (']' : Char) ∉ n

instance (s : PStr) : Decidable (GoodStr s) := by
  unfold GoodStr; infer_instance

instance (n : PStr) : Decidable (GoodName n) := by
  unfold GoodName; infer_instance

/-- A generated `(type char, value)` pair that `repr` and `parse` shuttle
faithfully: an integer tagged `#`, or a separator-free string tagged `$`. -/
def GoodVal (tc : Char) (v : PyVal) : Prop :=
  match v with
  | .vInt _ => tc = '#'
  | .vStr s => tc = '$' ∧ GoodStr s
  | _ => False

/-- A `_cids` entry whose verbose rendering re-parses to itself: a good
name and positionally good (type, value) pairs (no full wildcard). -/
def GoodCid (cid : Cid) : Prop :=
  GoodName cid.name ∧
  match cid.args, cid.types with
  | .tup vals, some tys => List.Forall₂ GoodVal tys vals
  | _, _ => False

/-- A digit character is none of the separators. -/
theorem digitChar_ne (d : Nat) (h : d < 10) :
    Char.ofNat (48 + d) ≠ '.' ∧ Char.ofNat (48 + d) ≠ ',' ∧
      Char.ofNat (48 + d) ≠ ']' := by
  interval_cases d <;> decide

/-- The characters of a printed integer avoid the separators. -/
theorem intRepr_clean (z : Int) : ∀ c ∈ intRepr z,
    c ≠ '.' ∧ c ≠ ',' ∧ c ≠ ']' := by
  intro c hc
  rcases intRepr_chars z c hc with rfl | ⟨d, hd, rfl⟩
  · exact ⟨by decide, by decide, by decide⟩
  · exact digitChar_ne d hd

/-- The characters of a rendered good piece avoid the separators. -/
theorem piece_clean {tc : Char} {v : PyVal} (h : GoodVal tc v) :
    ∀ c ∈ (tc :: pyStr v), c ≠ '.' ∧ c ≠ ',' ∧ c ≠ ']' := by
  intro c hc
  cases v with
  | vInt z =>
    have htc : tc = '#' := h
    subst htc
    rcases List.mem_cons.mp hc with rfl | h2
    · exact ⟨by decide, by decide, by decide⟩
    · exact intRepr_clean z c h2
  | vStr s =>
    have htc : tc = '$' := h.1
    have hs : GoodStr s := h.2
    subst htc
    rcases List.mem_cons.mp hc with rfl | h2
    · exact ⟨by decide, by decide, by decide⟩
    · exact ⟨fun he => hs.1 (he ▸ h2), fun he => hs.2.1 (he ▸ h2),
        fun he => hs.2.2.1 (he ▸ h2)⟩
  | vNone => exact h.elim
  | vEllipsis => exact h.elim
  | vSlice a b c' => exact h.elim
  | vTuple vs => exact h.elim

/-- `parse_cuid`'s value processing inverts `__repr__`'s piece rendering on
good pairs. -/
theorem parseVal_piece (tc : Char) (v : PyVal) (h : GoodVal tc v) :
    parseVal (tc :: pyStr v) = .ok (v, tc) := by
  cases v with
  | vInt z =>
    have htc : tc = '#' := h
    subst htc
    unfold parseVal
    rw [if_neg (fun hh => absurd (List.cons.inj hh).1 (by decide))]
    show (match pyParseInt (intRepr z) with
          | .ok z' => (Except.ok (PyVal.vInt z', '#') : Except PyErr (PyVal × Char))
          | .error e => .error e) = .ok (.vInt z, '#')
    rw [pyParseInt_intRepr]
  | vStr s =>
    have htc : tc = '$' := h.1
    subst htc
    unfold parseVal
    rw [if_neg (fun hh => absurd (List.cons.inj hh).1 (by decide))]
    rfl
  | vNone => exact h.elim
  | vEllipsis => exact h.elim
  | vSlice a b c' => exact h.elim
  | vTuple vs => exact h.elim

/-- A pointwise-`ok` list maps to the `ok` of the pointwise results. -/
theorem mapM_ok_of_forall₂ {α β : Type} (f : α → Except PyErr β) :
    ∀ {xs : List α} {ys : List β},
      List.Forall₂ (fun x y => f x = .ok y) xs ys → xs.mapM f = .ok ys := by
  intro xs ys h
  induction h with
  | nil => rfl
  | cons hxy _ ih => rw [List.mapM_cons, hxy, ih]; rfl

/-- `mapM` after `map` fuses. -/
theorem mapM_map {α β γ : Type} (g : α → β) (f : β → Except PyErr γ) :
    ∀ (xs : List α), (xs.map g).mapM f = xs.mapM (fun a => f (g a)) := by
  intro xs
  induction xs with
  | nil => rfl
  | cons x xs ih => rw [List.map_cons, List.mapM_cons, List.mapM_cons, ih]

/-- The type characters of good pairs are never the untyped `.`. -/
theorem forall₂_ty_ne_dot : ∀ {tys : List Char} {vals : List PyVal},
    List.Forall₂ GoodVal tys vals → ∀ tc ∈ tys, tc ≠ '.' := by
  intro tys vals h
  induction h with
  | nil => intro tc htc; exact absurd htc (List.not_mem_nil tc)
  | @cons a b l1 l2 h1 h2 ih =>
    intro tc htc
    rcases List.mem_cons.mp htc with rfl | hm
    · cases b with
      | vInt z => have h3 : tc = '#' := h1; rw [h3]; decide
      | vStr s => have h3 : tc = '$' := h1.1; rw [h3]; decide
      | vNone => exact h1.elim
      | vEllipsis => exact h1.elim
      | vSlice x y z => exact h1.elim
      | vTuple vs => exact h1.elim
    · exact ih tc hm

/-- Good value lists are never the parsed full-wildcard singleton. -/
theorem vals_ne_star2 {tys : List Char} {vals : List PyVal}
    (h : List.Forall₂ GoodVal tys vals) :
    vals ≠ [PyVal.vStr ['*', '*']] := by
  intro he
  rw [he] at h
  cases h with
  | cons h1 h2 => exact h1.2.2.2.2 rfl

/-- Good pairs, read off the zipped lists. -/
theorem forall₂_zip_good {tys : List Char} {vals : List PyVal}
    (h : List.Forall₂ GoodVal tys vals) :
    ∀ pr ∈ tys.zip vals, GoodVal pr.1 pr.2 := by
  induction h with
  | nil => intro pr hpr; exact absurd hpr (List.not_mem_nil pr)
  | @cons a b l1 l2 h1 h2 ih =>
    intro pr hpr
    rcases List.mem_cons.mp hpr with rfl | hm
    · exact h1
    · exact ih pr hm

/-- `__repr__`'s per-position pieces of a good `(types, args)` pairing. -/
theorem range_reprVal : ∀ (tys : List Char) (vals : List PyVal),
    tys.length = vals.length → (∀ tc ∈ tys, tc ≠ '.') →
    (List.range vals.length).mapM
        (fun i => reprVal tys i (CArgs.get (.tup vals) i)) =
      .ok ((tys.zip vals).map (fun pr => pr.1 :: pyStr pr.2)) := by
  intro tys vals
  induction vals generalizing tys with
  | nil =>
    intro hlen _
    cases tys with
    | nil => rfl
    | cons tc tys' => simp at hlen
  | cons v vals' ih =>
    intro hlen hdot
    cases tys with
    | nil => simp at hlen
    | cons tc tys' =>
      have hlen' : tys'.length = vals'.length := by simpa using hlen
      have hdot' : ∀ c ∈ tys', c ≠ '.' :=
        fun c hc => hdot c (List.mem_cons_of_mem tc hc)
      rw [show (v :: vals').length = vals'.length + 1 from rfl,
        List.range_succ_eq_map, List.mapM_cons, mapM_map]
      have h0 : reprVal (tc :: tys') 0 (CArgs.get (.tup (v :: vals')) 0) =
          .ok (tc :: pyStr v) := by
        show Except.ok ((if tc = '.' then [] else [tc]) ++ pyStr v) =
          Except.ok (tc :: pyStr v)
        rw [if_neg (hdot tc (List.mem_cons_self tc tys'))]
        rfl
      rw [h0]
      show ((List.range vals'.length).mapM
          (fun i => reprVal tys' i (CArgs.get (.tup vals') i))).bind
            (fun ys => (pure ((tc :: pyStr v) :: ys) : Except PyErr (List PStr))) = _
      rw [ih tys' hlen' hdot', exceptOkBind]
      rfl

/-- Parsing the rendered pieces of good pairs returns the `(value, type)`
pairs. -/
theorem pieces_parse : ∀ {tys : List Char} {vals : List PyVal},
    List.Forall₂ GoodVal tys vals →
    ((tys.zip vals).map (fun pr => pr.1 :: pyStr pr.2)).mapM parseVal =
      .ok ((tys.zip vals).map (fun pr => (pr.2, pr.1))) := by
  intro tys vals h
  induction h with
  | nil => rfl
  | @cons a b l1 l2 h1 h2 ih =>
    show ((a :: pyStr b) ::
        ((l1.zip l2).map (fun pr => pr.1 :: pyStr pr.2))).mapM parseVal = _
    rw [List.mapM_cons, parseVal_piece a b h1]
    show (((l1.zip l2).map (fun pr => pr.1 :: pyStr pr.2)).mapM parseVal).bind
        (fun ys => (pure ((b, a) :: ys) : Except PyErr (List (PyVal × Char)))) = _
    rw [ih, exceptOkBind]
    rfl

/-- `'.'.join` on no pieces. -/
theorem pyJoin_nil (sep : Char) : pyJoin sep [] = [] := rfl

/-- `'.'.join` on a single piece. -/
theorem pyJoin_single (sep : Char) (t : PStr) : pyJoin sep [t] = t := by
  simp [pyJoin, List.intercalate]

/-- `'.'.join` peels its first piece. -/
theorem pyJoin_cons_cons (sep : Char) (t u : PStr) (ts : List PStr) :
    pyJoin sep (t :: u :: ts) = t ++ sep :: pyJoin sep (u :: ts) := by
  simp [pyJoin, List.intercalate]

/-- A character of a join is the separator or from one of the pieces. -/
theorem mem_pyJoin (sep : Char) : ∀ (ps : List PStr) (c : Char),
    c ∈ pyJoin sep ps → c = sep ∨ ∃ p ∈ ps, c ∈ p := by
  intro ps
  induction ps with
  | nil => intro c h; rw [pyJoin_nil] at h; exact absurd h (List.not_mem_nil c)
  | cons t ts ih =>
    intro c h
    cases ts with
    | nil =>
      rw [pyJoin_single] at h
      exact Or.inr ⟨t, List.mem_cons_self t [], h⟩
    | cons u ts' =>
      rw [pyJoin_cons_cons] at h
      rcases List.mem_append.mp h with h1 | h1
      · exact Or.inr ⟨t, List.mem_cons_self t (u :: ts'), h1⟩
      · rcases List.mem_cons.mp h1 with rfl | h2
        · exact Or.inl rfl
        · rcases ih c h2 with h3 | ⟨p, hp, hcp⟩
          · exact Or.inl h3
          · exact Or.inr ⟨p, List.mem_cons_of_mem t hp, hcp⟩

/-- Splitting a join of separator-free pieces recovers the pieces. -/
theorem pySplit_pyJoin (sep : Char) : ∀ (ps : List PStr), ps ≠ [] →
    (∀ p ∈ ps, sep ∉ p) → pySplit (pyJoin sep ps) sep = ps := by
  intro ps
  induction ps with
  | nil => intro h _; exact absurd rfl h
  | cons t ts ih =>
    intro _ h
    cases ts with
    | nil =>
      rw [pyJoin_single]
      exact pySplit_no_sep t sep (h t (List.mem_cons_self t []))
    | cons u ts' =>
      rw [pyJoin_cons_cons,
        pySplit_append_sep _ _ _ (h t (List.mem_cons_self t (u :: ts'))),
        ih (by simp) (fun p hp => h p (List.mem_cons_of_mem t hp))]

/-- A non-empty string avoiding `]` has a last character, and it is not
`]`. -/
theorem getLast?_ne_rb : ∀ (txt : PStr), txt ≠ [] → (']' : Char) ∉ txt →
    ∃ last, txt.getLast? = some last ∧ last ≠ ']'
  | [], hne, _ => absurd rfl hne
  | [c], _, hrb =>
    ⟨c, rfl, fun he => hrb (by rw [← he]; exact List.mem_cons_self c [])⟩
  | c :: c' :: rest, _, hrb =>
    have h2 := getLast?_ne_rb (c' :: rest) (by simp)
      (fun hm => hrb (List.mem_cons_of_mem c hm))
    ⟨h2.choose, by rw [List.getLast?_cons_cons]; exact h2.choose_spec.1,
      h2.choose_spec.2⟩

/-- The colon dispatch of `parse_cuid`'s segment processing, for segments
not ending in `]`. -/
theorem parseSeg_eq (txt : PStr) (last : Char) (hg : txt.getLast? = some last)
    (hlne : last ≠ ']') :
    parseSeg txt =
      (match (pySplitOnce txt ':').2 with
       | none => Except.ok ⟨(pySplitOnce txt ':').1, .tup [], some []⟩
       | some suffix => do
         let parsed ← (pySplit suffix ',').mapM parseVal
         let vals := parsed.map Prod.fst
         if vals = [.vStr ['*', '*']] then
           Except.ok ⟨(pySplitOnce txt ':').1, .star2, none⟩
         else
           Except.ok ⟨(pySplitOnce txt ':').1, .tup vals,
             some (parsed.map Prod.snd)⟩) := by
  unfold parseSeg
  rw [hg]
  show (let cinfo := if last = ']' then pySplitOnce txt.dropLast '['
          else pySplitOnce txt ':'
        match cinfo.2 with
        | none => (Except.ok ⟨cinfo.1, CArgs.tup [], some []⟩ : Except PyErr Cid)
        | some suffix => do
          let parsed ← (pySplit suffix ',').mapM parseVal
          let vals := parsed.map Prod.fst
          if vals = [PyVal.vStr ['*', '*']] then
            Except.ok ⟨cinfo.1, .star2, none⟩
          else Except.ok ⟨cinfo.1, .tup vals, some (parsed.map Prod.snd)⟩) = _
  rw [if_neg hlne]

/-- **Per-segment round trip**: a good `_cids` entry renders to a
non-empty dot-free segment text that `parse_cuid` maps back to the entry
itself. -/
theorem segment_roundtrip (cid : Cid) (h : GoodCid cid) :
    ∃ txt, cuidReprFold [] cid = .ok txt ∧ txt ≠ [] ∧
      ('.' : Char) ∉ txt ∧ parseSeg txt = .ok cid := by
  obtain ⟨name, args, types⟩ := cid
  obtain ⟨hname, hrest⟩ := h
  cases args with
  | star2 => exact hrest.elim
  | tup vals =>
    cases types with
    | none => exact hrest.elim
    | some tys =>
      cases hrest with
      | nil =>
        refine ⟨name, rfl, hname.1, hname.2.1, ?_⟩
        obtain ⟨last, hg, hlast⟩ := getLast?_ne_rb name hname.1 hname.2.2.2.2
        rw [parseSeg_eq name last hg hlast,
          pySplitOnce_no_sep name ':' hname.2.2.1]
      | @cons tc v tys' vals' h1 h2 =>
        have hF : List.Forall₂ GoodVal (tc :: tys') (v :: vals') :=
          List.Forall₂.cons h1 h2
        have hlen : (tc :: tys').length = (v :: vals').length := hF.length_eq
        have hdot := forall₂_ty_ne_dot hF
        have hzip := forall₂_zip_good hF
        set pieces := (((tc :: tys').zip (v :: vals')).map
          (fun pr => pr.1 :: pyStr pr.2)) with hpieces
        have hclean : ∀ p ∈ pieces, ∀ c ∈ p, c ≠ '.' ∧ c ≠ ',' ∧ c ≠ ']' := by
          intro p hp c hc
          rw [hpieces] at hp
          obtain ⟨pr, hpr, hpe⟩ := List.mem_map.mp hp
          rw [← hpe] at hc
          exact piece_clean (hzip pr hpr) c hc
        have hjoin : ∀ c ∈ pyJoin ',' pieces, c = ',' ∨ ∃ p ∈ pieces, c ∈ p :=
          fun c hc => mem_pyJoin ',' pieces c hc
        refine ⟨name ++ ':' :: pyJoin ',' pieces, ?_, ?_, ?_, ?_⟩
        · have he : cuidReprFold [] ⟨name, .tup (v :: vals'), some (tc :: tys')⟩ =
              ((List.range (v :: vals').length).mapM
                (fun i => reprVal (tc :: tys') i
                  (CArgs.get (.tup (v :: vals')) i))).bind
                (fun parts => Except.ok (name ++ ':' :: pyJoin ',' parts)) := rfl
          rw [he, range_reprVal _ _ hlen hdot, exceptOkBind]
        · intro hemp
          exact hname.1 (List.append_eq_nil.mp hemp).1
        · intro hmem
          rcases List.mem_append.mp hmem with h1' | h1'
          · exact hname.2.1 h1'
          · rcases List.mem_cons.mp h1' with h2' | h2'
            · exact absurd h2' (by decide)
            · rcases hjoin '.' h2' with h3 | ⟨p, hp, hcp⟩
              · exact absurd h3 (by decide)
              · exact (hclean p hp '.' hcp).1 rfl
        · have hrbt : (']' : Char) ∉ name ++ ':' :: pyJoin ',' pieces := by
            intro hmem
            rcases List.mem_append.mp hmem with h1' | h1'
            · exact hname.2.2.2.2 h1'
            · rcases List.mem_cons.mp h1' with h2' | h2'
              · exact absurd h2' (by decide)
              · rcases hjoin ']' h2' with h3 | ⟨p, hp, hcp⟩
                · exact absurd h3 (by decide)
                · exact (hclean p hp ']' hcp).2.2 rfl
          have hnet : name ++ ':' :: pyJoin ',' pieces ≠ [] := by
            intro hemp
            exact hname.1 (List.append_eq_nil.mp hemp).1
          obtain ⟨last, hg, hlast⟩ := getLast?_ne_rb _ hnet hrbt
          rw [parseSeg_eq _ last hg hlast,
            pySplitOnce_append name _ ':' hname.2.2.1]
          show (do
            let parsed ← (pySplit (pyJoin ',' pieces) ',').mapM parseVal
            let vals := parsed.map Prod.fst
            if vals = [PyVal.vStr ['*', '*']] then
              (Except.ok ⟨name, .star2, none⟩ : Except PyErr Cid)
            else Except.ok ⟨name, .tup vals, some (parsed.map Prod.snd)⟩) = _
          have hpne : pieces ≠ [] := by rw [hpieces]; simp
          have hcomma : ∀ p ∈ pieces, (',' : Char) ∉ p :=
            fun p hp hc => (hclean p hp ',' hc).2.1 rfl
          rw [pySplit_pyJoin ',' pieces hpne hcomma, pieces_parse hF]
          have hfst : (((tc :: tys').zip (v :: vals')).map
              (fun pr => (pr.2, pr.1))).map Prod.fst = v :: vals' := by
            rw [List.map_map]
            show ((tc :: tys').zip (v :: vals')).map Prod.snd = v :: vals'
            exact List.map_snd_zip _ _ hlen.symm.le
          have hsnd : (((tc :: tys').zip (v :: vals')).map
              (fun pr => (pr.2, pr.1))).map Prod.snd = tc :: tys' := by
            rw [List.map_map]
            show ((tc :: tys').zip (v :: vals')).map Prod.fst = tc :: tys'
            exact List.map_fst_zip _ _ hlen.le
          show (if (((tc :: tys').zip (v :: vals')).map
                (fun pr => (pr.2, pr.1))).map Prod.fst = [PyVal.vStr ['*', '*']]
              then (Except.ok ⟨name, .star2, none⟩ : Except PyErr Cid)
              else Except.ok ⟨name,
                .tup ((((tc :: tys').zip (v :: vals')).map
                  (fun pr => (pr.2, pr.1))).map Prod.fst),
                some ((((tc :: tys').zip (v :: vals')).map
                  (fun pr => (pr.2, pr.1))).map Prod.snd)⟩) = _
          rw [hfst, hsnd, if_neg (vals_ne_star2 hF)]

/-! ## The whole-identifier verbose round trip on good segment lists -/

/-- With a non-empty accumulator, one `__repr__` step appends a dot and the
segment's own text. -/
theorem cuidReprFold_append (a name : PStr) (args : CArgs)
    (types : Option (List Char)) (ha : a ≠ []) :
    cuidReprFold a ⟨name, args, types⟩ =
      (cuidReprFold [] ⟨name, args, types⟩).map (fun s => a ++ '.' :: s) := by
  cases types with
  | none =>
    show Except.ok ((if a = [] then name else a ++ '.' :: name) ++
        ':' :: ['*', '*']) =
      (Except.ok (name ++ ':' :: ['*', '*']) : Except PyErr PStr).map
        (fun s => a ++ '.' :: s)
    rw [if_neg ha, List.append_assoc]
    rfl
  | some tys =>
    show (if CArgs.len args = 0 then
            Except.ok (if a = [] then name else a ++ '.' :: name)
          else
            ((List.range (CArgs.len args)).mapM
              (fun i => reprVal tys i (CArgs.get args i))).bind
              (fun parts => Except.ok ((if a = [] then name
                else a ++ '.' :: name) ++ ':' :: pyJoin ',' parts))) =
        ((if CArgs.len args = 0 then Except.ok name
          else
            ((List.range (CArgs.len args)).mapM
              (fun i => reprVal tys i (CArgs.get args i))).bind
              (fun parts => Except.ok (name ++ ':' :: pyJoin ',' parts))) :
          Except PyErr PStr).map (fun s => a ++ '.' :: s)
    by_cases hl : CArgs.len args = 0
    · rw [if_pos hl, if_pos hl, if_neg ha]
      rfl
    · rw [if_neg hl, if_neg hl, if_neg ha]
      cases hm : (List.range (CArgs.len args)).mapM
          (fun i => reprVal tys i (CArgs.get args i)) with
      | error e => rfl
      | ok parts =>
        show Except.ok ((a ++ '.' :: name) ++ ':' :: pyJoin ',' parts) =
          Except.ok (a ++ '.' :: (name ++ ':' :: pyJoin ',' parts))
        rw [List.append_assoc]
        rfl

/-- The right components of a `Forall₂` each have a related left witness. -/
theorem forall₂_mem_right {α β : Type} {R : α → β → Prop} :
    ∀ {l1 : List α} {l2 : List β}, List.Forall₂ R l1 l2 →
      ∀ b ∈ l2, ∃ a, R a b := by
  intro l1 l2 h
  induction h with
  | nil => intro b hb; exact absurd hb (List.not_mem_nil b)
  | cons h1 h2 ih =>
    intro b hb
    rcases List.mem_cons.mp hb with rfl | hm
    · exact ⟨_, h1⟩
    · exact ih b hm

/-- `Forall₂` with the relation's arguments swapped. -/
theorem forall₂_swap {α β : Type} {R : α → β → Prop} :
    ∀ {l1 : List α} {l2 : List β}, List.Forall₂ R l1 l2 →
      List.Forall₂ (fun b a => R a b) l2 l1 := by
  intro l1 l2 h
  induction h with
  | nil => exact List.Forall₂.nil
  | cons h1 h2 ih => exact List.Forall₂.cons h1 ih

/-- `Forall₂` respects appending. -/
theorem forall₂_append {α β : Type} {R : α → β → Prop} :
    ∀ {l1 : List α} {l2 : List β} {u1 : List α} {u2 : List β},
      List.Forall₂ R l1 l2 → List.Forall₂ R u1 u2 →
      List.Forall₂ R (l1 ++ u1) (l2 ++ u2) := by
  intro l1 l2 u1 u2 h hu
  induction h with
  | nil => exact hu
  | cons h1 h2 ih => exact List.Forall₂.cons h1 ih

/-- `Forall₂` respects reversal. -/
theorem forall₂_reverse {α β : Type} {R : α → β → Prop} :
    ∀ {l1 : List α} {l2 : List β}, List.Forall₂ R l1 l2 →
      List.Forall₂ R l1.reverse l2.reverse := by
  intro l1 l2 h
  induction h with
  | nil => exact List.Forall₂.nil
  | @cons a b t1 t2 h1 h2 ih =>
    rw [List.reverse_cons, List.reverse_cons]
    exact forall₂_append ih (List.Forall₂.cons h1 List.Forall₂.nil)

/-- The `__repr__` accumulation over good segments, from a non-empty
accumulated prefix: each segment contributes a dot and its own re-parsable
text. -/
theorem foldlM_reprFold_acc : ∀ (cs : List Cid), (∀ c ∈ cs, GoodCid c) →
    ∀ a : PStr, a ≠ [] →
    ∃ txts, List.Forall₂ (fun c txt => cuidReprFold [] c = .ok txt ∧
        txt ≠ [] ∧ ('.' : Char) ∉ txt ∧ parseSeg txt = .ok c) cs txts ∧
      cs.foldlM cuidReprFold a = .ok (a ++ dotTail txts) := by
  intro cs
  induction cs with
  | nil =>
    intro _ a ha
    refine ⟨[], List.Forall₂.nil, ?_⟩
    show Except.ok a = Except.ok (a ++ dotTail [])
    rw [show dotTail [] = [] from rfl, List.append_nil]
  | cons c cs' ih =>
    intro h a ha
    obtain ⟨txt, hfold, htne, htdot, hpseg⟩ :=
      segment_roundtrip c (h c (List.mem_cons_self c cs'))
    have h' : ∀ c' ∈ cs', GoodCid c' :=
      fun c' hc' => h c' (List.mem_cons_of_mem c hc')
    obtain ⟨txts', hF', hfold'⟩ := ih h' (a ++ '.' :: txt) (by simp)
    refine ⟨txt :: txts',
      List.Forall₂.cons ⟨hfold, htne, htdot, hpseg⟩ hF', ?_⟩
    rw [List.foldlM_cons]
    obtain ⟨name, args, types⟩ := c
    rw [cuidReprFold_append a name args types ha, hfold]
    show List.foldlM cuidReprFold (a ++ '.' :: txt) cs' =
      Except.ok (a ++ dotTail (txt :: txts'))
    rw [hfold']
    show Except.ok ((a ++ '.' :: txt) ++ dotTail txts') =
      Except.ok (a ++ '.' :: (txt ++ dotTail txts'))
    rw [List.append_assoc]
    rfl

/-- **Verbose round trip on good segments**: a non-empty identifier all of
whose segments are good renders to a text that parses back to the
identifier itself. -/
theorem cuid_good_roundtrip (cids : List Cid) (hne : cids ≠ [])
    (h : ∀ c ∈ cids, GoodCid c) :
    ∃ txt, cuidRepr cids = .ok txt ∧ parseCuid txt = .ok cids := by
  have hcs : ∀ c ∈ cids.reverse, GoodCid c :=
    fun c hc => h c (List.mem_reverse.mp hc)
  cases hrv : cids.reverse with
  | nil =>
    refine absurd ?_ hne
    rw [← List.reverse_reverse cids, hrv]
    rfl
  | cons c0 cs' =>
    obtain ⟨txt0, hfold0, hne0, hdot0, hseg0⟩ :=
      segment_roundtrip c0 (hcs c0 (by rw [hrv]; exact List.mem_cons_self c0 cs'))
    have hcs' : ∀ c ∈ cs', GoodCid c :=
      fun c hc => hcs c (by rw [hrv]; exact List.mem_cons_of_mem c0 hc)
    obtain ⟨txts', hF', hfold'⟩ := foldlM_reprFold_acc cs' hcs' txt0 hne0
    refine ⟨dotJoin (txt0 :: txts'), ?_, ?_⟩
    · show cids.reverse.foldlM cuidReprFold [] = _
      rw [hrv, List.foldlM_cons]
      obtain ⟨name0, args0, types0⟩ := c0
      rw [show cuidReprFold [] ⟨name0, args0, types0⟩ = .ok txt0 from hfold0]
      show List.foldlM cuidReprFold txt0 cs' = Except.ok (dotJoin (txt0 :: txts'))
      rw [hfold', dotJoin_cons]
    · have hdots : ∀ p ∈ txt0 :: txts', ('.' : Char) ∉ p := by
        intro p hp
        rcases List.mem_cons.mp hp with rfl | hm
        · exact hdot0
        · obtain ⟨c, hc⟩ := forall₂_mem_right hF' p hm
          exact hc.2.2.1
      show ((pySplit (dotJoin (txt0 :: txts')) '.').reverse).mapM parseSeg =
        Except.ok cids
      rw [pySplit_dotJoin (txt0 :: txts') (by simp) hdots]
      have hFall : List.Forall₂ (fun txt c => parseSeg txt = .ok c)
          (txt0 :: txts').reverse cids := by
        have h1 : List.Forall₂ (fun c txt => parseSeg txt = .ok c)
            (c0 :: cs') (txt0 :: txts') :=
          List.Forall₂.cons hseg0
            (List.Forall₂.imp (fun _ _ hr => hr.2.2.2) hF')
        have h2 := forall₂_reverse (forall₂_swap h1)
        rw [← hrv] at h2
        rw [List.reverse_reverse] at h2
        exact h2
      exact mapM_ok_of_forall₂ parseSeg hFall

/-! ## Claim C2: the verbose round trip for generated identifiers -/

/-- Textual goodness of a scalar collection key. -/
def GoodKeyScalar : PyVal → Prop
  | .vInt _ => True
  | .vStr s => GoodStr s
  | _ => False

/-- Textual goodness of a collection key. -/
def GoodKey : PyVal → Prop
  | .vTuple vs => ∀ v ∈ vs, GoodKeyScalar v
  | v => GoodKeyScalar v

/-- Textual goodness of one path step. -/
def GoodStep : Step → Prop
  | .sAttr n => GoodName n
  | .sItem k => GoodKey k

/-- A tree whose attribute names and collection keys all survive the
parser's separators. -/
def GoodTree (t : Tree) : Prop := ∀ e ∈ t.nodes, ∀ st ∈ e.1, GoodStep st

instance (v : PyVal) : Decidable (GoodKeyScalar v) := by
  cases v with
  | vInt z => exact inferInstanceAs (Decidable True)
  | vStr s => exact inferInstanceAs (Decidable (GoodStr s))
  | vNone => exact inferInstanceAs (Decidable False)
  | vEllipsis => exact inferInstanceAs (Decidable False)
  | vSlice a b c => exact inferInstanceAs (Decidable False)
  | vTuple vs => exact inferInstanceAs (Decidable False)

instance (k : PyVal) : Decidable (GoodKey k) := by
  cases k with
  | vTuple vs => exact inferInstanceAs (Decidable (∀ v ∈ vs, GoodKeyScalar v))
  | vInt z => exact inferInstanceAs (Decidable (GoodKeyScalar (.vInt z)))
  | vStr s => exact inferInstanceAs (Decidable (GoodKeyScalar (.vStr s)))
  | vNone => exact inferInstanceAs (Decidable (GoodKeyScalar .vNone))
  | vEllipsis => exact inferInstanceAs (Decidable (GoodKeyScalar .vEllipsis))
  | vSlice a b c => exact inferInstanceAs (Decidable (GoodKeyScalar (.vSlice a b c)))

instance (st : Step) : Decidable (GoodStep st) := by
  cases st with
  | sAttr n => exact inferInstanceAs (Decidable (GoodName n))
  | sItem k => exact inferInstanceAs (Decidable (GoodKey k))

instance (t : Tree) : Decidable (GoodTree t) := by
  unfold GoodTree; infer_instance

/-- A good well-formed scalar key makes a good pair with its type
character. -/
theorem goodVal_typeChar_scalar (v : PyVal) (hwf : keyScalarWF v = true)
    (hg : GoodKeyScalar v) : GoodVal (typeChar v) v := by
  cases v with
  | vInt z => exact rfl
  | vStr s => exact ⟨rfl, hg⟩
  | vNone => exact Bool.noConfusion hwf
  | vEllipsis => exact Bool.noConfusion hwf
  | vSlice a b c => exact Bool.noConfusion hwf
  | vTuple vs => exact Bool.noConfusion hwf

/-- Pointwise good pairs for a scalar key list against its type
characters. -/
theorem forall₂_goodVal_typeChar : ∀ (vs : List PyVal),
    (∀ v ∈ vs, keyScalarWF v = true) → (∀ v ∈ vs, GoodKeyScalar v) →
    List.Forall₂ GoodVal (vs.map typeChar) vs := by
  intro vs
  induction vs with
  | nil => intro _ _; exact List.Forall₂.nil
  | cons v vs' ih =>
    intro h1 h2
    exact List.Forall₂.cons
      (goodVal_typeChar_scalar v (h1 v (List.mem_cons_self v vs'))
        (h2 v (List.mem_cons_self v vs')))
      (ih (fun u hu => h1 u (List.mem_cons_of_mem v hu))
        (fun u hu => h2 u (List.mem_cons_of_mem v hu)))

/-- `_partial_cuid_from_index` of a good well-formed key yields a good
segment (for any good name). -/
theorem partialIdxWF_good {k : PyVal} (hwf : keyWF k = true) (hg : GoodKey k)
    (n : PStr) (hn : GoodName n) :
    GoodCid ⟨n, (partialIdxWF k).1, (partialIdxWF k).2⟩ := by
  cases k with
  | vTuple vs =>
    refine ⟨hn, ?_⟩
    show List.Forall₂ GoodVal (vs.map typeChar) vs
    unfold keyWF at hwf
    rw [Bool.and_eq_true] at hwf
    exact forall₂_goodVal_typeChar vs (List.all_eq_true.mp hwf.2) hg
  | vInt z => exact ⟨hn, List.Forall₂.cons rfl List.Forall₂.nil⟩
  | vStr s => exact ⟨hn, List.Forall₂.cons ⟨rfl, hg⟩ List.Forall₂.nil⟩
  | vNone => exact Bool.noConfusion hwf
  | vEllipsis => exact Bool.noConfusion hwf
  | vSlice a b c => exact Bool.noConfusion hwf

/-- In a good tree, the name of a listed attribute child is good. -/
theorem goodTree_attr {t : Tree} (hg : GoodTree t) {n : PStr} {q : Path}
    {k : NKind} (h : kindAt t (.sAttr n :: q) = some k) : GoodName n :=
  hg _ (kindAt_mem h) (.sAttr n) (List.mem_cons_self _ _)

/-- With no buffer, a member segment produced at a good tree's well-formed
container is good. -/
theorem genItemSeg_none_good {t : Tree} {cp p : Path} {sg : Option Cid}
    {b2 : Option Buffer} (hwf : TreeWF t) (hg : GoodTree t)
    (hc : kindAt t cp = some .nIndexedC) (hgn : GoodName (localName cp))
    (h : genItemSeg t cp p none = .ok (sg, b2)) :
    ∀ c, sg = some c → GoodCid c := by
  intro c hsg
  rw [hsg] at h
  have he : genItemSeg t cp p none =
      (match (pyItems t cp).find? (fun kv => kv.2 = p) with
       | some kv => (partialFromIndex kv.1).bind
           (fun pr => .ok (some ⟨localName cp, pr.1, pr.2⟩, none))
       | none => .ok (none, none)) := rfl
  rw [he] at h
  cases hf : (pyItems t cp).find? (fun kv => kv.2 = p) with
  | none =>
    rw [hf] at h
    have h2 : ((none : Option Cid), (none : Option Buffer)) = (some c, b2) :=
      Except.ok.inj h
    exact absurd (congrArg Prod.fst h2) (by simp)
  | some kv =>
    rw [hf] at h
    have hmem := List.mem_of_find?_eq_some hf
    have hkv : (kv.1, kv.2) ∈ pyItems t cp := by
      rw [show ((kv.1, kv.2) : PyVal × Path) = kv from rfl]
      exact hmem
    have hkw := (pyItems_wf hwf hc hkv).2
    have h3 : (partialFromIndex kv.1).bind (fun pr =>
        Except.ok ((some ⟨localName cp, pr.1, pr.2⟩ : Option Cid),
          (none : Option Buffer))) = Except.ok (some c, b2) := h
    rw [partialFromIndex_keyWF hkw, exceptOkBind] at h3
    have h2 := Except.ok.inj h3
    have hc2 : some (⟨localName cp, (partialIdxWF kv.1).1,
        (partialIdxWF kv.1).2⟩ : Cid) = some c := congrArg Prod.fst h2
    rw [← Option.some.inj hc2]
    have hitems : (kv.1, kv.2) ∈ itemsOfComp t cp := by
      unfold pyItems at hkv
      rw [hc] at hkv
      exact hkv
    obtain ⟨hpath, knd, hnodemem⟩ := itemsOfComp_mem hitems
    have hgk : GoodKey kv.1 := by
      refine hg _ hnodemem (.sItem kv.1) ?_
      rw [hpath]
      exact List.mem_cons_self _ _
    exact partialIdxWF_good hkw hgk _ hgn

/-- Every segment the buffer-less generation loop yields on a good
well-formed tree is good. -/
theorem genLoop_good {t : Tree} (hwf : TreeWF t) (hg : GoodTree t) :
    ∀ (p : Path) (ctx : Path) (res : List Cid × Option Buffer),
      genLoop t ctx p none = .ok res → ∀ c ∈ res.1, GoodCid c := by
  intro p
  induction p using ascentChain.induct with
  | case1 =>
    intro ctx res h c hc
    rw [genLoop_root] at h
    by_cases hcx : ([] : Path) = ctx
    · rw [if_pos hcx] at h
      rw [← Except.ok.inj h] at hc
      exact absurd hc (List.not_mem_nil c)
    · rw [if_neg hcx] at h
      exact Except.noConfusion h
  | case2 n q ih =>
    intro ctx res h c hc
    rw [genLoop_attr] at h
    by_cases hcx : (Step.sAttr n :: q : Path) = ctx
    · rw [if_pos hcx] at h
      rw [← Except.ok.inj h] at hc
      exact absurd hc (List.not_mem_nil c)
    · rw [if_neg hcx] at h
      cases hk : kindAt t (.sAttr n :: q) with
      | none => rw [hk] at h; exact Except.noConfusion h
      | some k =>
        rw [hk] at h
        cases hgl : genLoop t ctx q none with
        | error e => rw [hgl] at h; exact Except.noConfusion h
        | ok rb =>
          rw [hgl, exceptOkBind] at h
          rw [← Except.ok.inj h] at hc
          rcases List.mem_cons.mp hc with rfl | hm
          · exact ⟨goodTree_attr hg hk, List.Forall₂.nil⟩
          · exact ih ctx rb hgl c hm
  | case3 k =>
    intro ctx res h c hc
    rw [genLoop_item_root] at h
    by_cases hcx : ([Step.sItem k] : Path) = ctx
    · rw [if_pos hcx] at h
      rw [← Except.ok.inj h] at hc
      exact absurd hc (List.not_mem_nil c)
    · rw [if_neg hcx] at h
      cases hk : kindAt t [.sItem k] with
      | none => rw [hk] at h; exact Except.noConfusion h
      | some knd =>
        have h1 := (wf_item_rules hwf hk).1
        rw [wf_root hwf] at h1
        exact absurd (Option.some.inj h1) (by decide)
  | case4 k st r ih =>
    intro ctx res h c hc
    rw [genLoop_item] at h
    by_cases hcx : (Step.sItem k :: st :: r : Path) = ctx
    · rw [if_pos hcx] at h
      rw [← Except.ok.inj h] at hc
      exact absurd hc (List.not_mem_nil c)
    · rw [if_neg hcx] at h
      cases hk : kindAt t (.sItem k :: st :: r) with
      | none => rw [hk] at h; exact Except.noConfusion h
      | some knd =>
        have h0 : ((genItemSeg t (st :: r) (.sItem k :: st :: r) none).bind
            (fun sb => (genLoop t ctx r sb.2).bind (fun rb =>
              Except.ok ((match sb.1 with
                | some c0 => c0 :: rb.1
                | none => rb.1), rb.2)))) = Except.ok res := by
          rw [hk] at h
          exact h
        have hcind : kindAt t (st :: r) = some .nIndexedC :=
          (wf_item_rules hwf hk).1
        obtain ⟨sg, hseg⟩ :=
          @genItemSeg_none_ok t (st :: r) (.sItem k :: st :: r) hwf hcind
        have hgn : GoodName (localName (st :: r)) := by
          obtain ⟨n', q', hshape⟩ := wf_indexed_shape hwf hcind
          rw [hshape]
          exact goodTree_attr hg (hshape ▸ hcind)
        cases sg with
        | none =>
          rw [hseg, exceptOkBind] at h0
          have h' : ((genLoop t ctx r none).bind (fun rb =>
              Except.ok (rb.1, rb.2))) = Except.ok res := h0
          cases hgl : genLoop t ctx r none with
          | error e => rw [hgl] at h'; exact Except.noConfusion h'
          | ok rb =>
            rw [hgl, exceptOkBind] at h'
            rw [← Except.ok.inj h'] at hc
            exact ih ctx rb hgl c hc
        | some c0 =>
          rw [hseg, exceptOkBind] at h0
          have h' : ((genLoop t ctx r none).bind (fun rb =>
              Except.ok (c0 :: rb.1, rb.2))) = Except.ok res := h0
          cases hgl : genLoop t ctx r none with
          | error e => rw [hgl] at h'; exact Except.noConfusion h'
          | ok rb =>
            rw [hgl, exceptOkBind] at h'
            rw [← Except.ok.inj h'] at hc
            rcases List.mem_cons.mp hc with rfl | hm
            · exact genItemSeg_none_good hwf hg hcind hgn hseg c rfl
            · exact ih ctx rb hgl c hm

/-- Every segment of an identifier generated (without a buffer) from a
non-container target in a good well-formed tree is good. -/
theorem generateCuid_good {t : Tree} (hwf : TreeWF t) (hg : GoodTree t)
    {p : Path} {ctx : Option Path} {cids : List Cid}
    (hnind : kindAt t p ≠ some .nIndexedC)
    (h : generateCuid t p ctx = .ok cids) :
    ∀ c ∈ cids, GoodCid c := by
  have h' : ((if kindAt t p = some .nIndexedC then
      (match parentBlockPath p with
       | some q => (genLoop t (ctx.getD []) q none).bind (fun rb =>
           Except.ok (⟨localName p, .star2, none⟩ :: rb.1, rb.2))
       | none => .error .typeError)
    else genLoop t (ctx.getD []) p none).map (fun x => x.1)) =
      Except.ok cids := h
  rw [if_neg hnind] at h'
  cases hgl : genLoop t (ctx.getD []) p none with
  | error e => rw [hgl] at h'; exact Except.noConfusion h'
  | ok rb =>
    rw [hgl] at h'
    have h2 : rb.1 = cids := Except.ok.inj h'
    intro c hc
    rw [← h2] at hc
    exact genLoop_good hwf hg p (ctx.getD []) rb hgl c hc

/-- **C2** (counterexample): the identifier generated for the bare indexed
container `x` of `treeA` is the single full-wildcard segment
`('x', '**', None)`; its verbose serialization is `x:**`, which parses to
the slice-valued `'*'`-typed segment instead — the round trip fails on
full-wildcard segments. -/
theorem c2_verbose_roundtrip_cex :
    generateCuid treeA [.sAttr (lc "x")] none = .ok [⟨lc "x", .star2, none⟩] ∧
    cuidRepr [⟨lc "x", .star2, none⟩] = .ok (lc "x:**") ∧
    parseCuid (lc "x:**") =
      .ok [⟨lc "x", .tup [.vSlice .vNone (.vStr (lc "*")) .vNone],
        some ['*']⟩] ∧
    parseCuid (lc "x:**") ≠ .ok [⟨lc "x", .star2, none⟩] := by
  refine ⟨by decide, by decide, by decide, by decide⟩

/-- **C2** (amended): the verbose round trip
`parse_cuid(repr(i)) = i._cids` holds for every identifier generated from
a live reference into a well-formed tree whose names and string keys are
free of the parser's separator characters, provided the identifier is
non-empty and the target is not a bare indexed container (whose generated
full-wildcard segment `('name', '**', None)` re-parses as a slice-valued
wildcard instead). -/
theorem c2_verbose_roundtrip (t : Tree) (p : Path) (ctx : Option Path)
    (cids : List Cid) (hwf : TreeWF t) (hg : GoodTree t)
    (hnind : kindAt t p ≠ some .nIndexedC)
    (hgen : generateCuid t p ctx = .ok cids) (hne : cids ≠ []) :
    ∃ txt, cuidRepr cids = .ok txt ∧ parseCuid txt = .ok cids :=
  cuid_good_roundtrip cids hne (generateCuid_good hwf hg hnind hgen)

/-- **C2** (witness): the member `x[2]` of `treeA` generates
`[('x', (2,), '#')]`, whose verbose text `x:#2` parses back to itself. -/
theorem c2_verbose_roundtrip_witness :
    TreeWF treeA ∧ GoodTree treeA ∧
    ∃ txt, cuidRepr [⟨lc "x", .tup [.vInt 2], some ['#']⟩] = .ok txt ∧
      parseCuid txt = .ok [⟨lc "x", .tup [.vInt 2], some ['#']⟩] :=
  ⟨by decide, by decide,
    c2_verbose_roundtrip treeA [.sItem (.vInt 2), .sAttr (lc "x")] none
      [⟨lc "x", .tup [.vInt 2], some ['#']⟩] (by decide) (by decide)
      (by decide) (by decide) (by decide)⟩

/-! ## Claim C8: error conditions of slice-log generation -/

/-- `isOk` ignores a trailing `ok`-producing continuation. -/
theorem isOk_bind_ok {α β : Type} (x : Except PyErr α) (g : α → β) :
    (x.bind (fun a => (Except.ok (g a) : Except PyErr β))).isOk = x.isOk := by
  cases x <;> rfl

/-- More than one ellipsis among the elements of an index tuple. -/
def twoEll (vs : List PyVal) : Prop :=
  2 ≤ vs.countP (fun v => decide (v = PyVal.vEllipsis))

/-- A fixed (non-wildcard, non-ellipsis) element of an index tuple. -/
def hasFixedElem (vs : List PyVal) : Prop :=
  ∃ v ∈ vs, v ≠ sliceNone ∧ v ≠ PyVal.vEllipsis

/-- An index value `_generate_validated_index` rejects: a tuple with more
than one ellipsis, or an ellipsis together with a fixed value. -/
def badTuple : PyVal → Prop
  | .vTuple vs => twoEll vs ∨ (PyVal.vEllipsis ∈ vs ∧ hasFixedElem vs)
  | _ => False

/-- The exact failure condition of the index validator, for arbitrary
starting flags: with the ellipsis flag set any non-wildcard element raises;
otherwise a second ellipsis, or an ellipsis alongside a fixed element (or
the fixed flag), raises. -/
theorem validatedIndexAux_err_iff : ∀ (vs : List PyVal) (f e : Bool),
    ((validatedIndexAux vs f e).isOk = false ↔
      (if e = true then ∃ v ∈ vs, v ≠ sliceNone
       else twoEll vs ∨
         (PyVal.vEllipsis ∈ vs ∧ (f = true ∨ hasFixedElem vs)))) := by
  intro vs
  induction vs with
  | nil =>
    intro f e
    by_cases he : e = true
    · rw [if_pos he]
      simp [validatedIndexAux, Except.isOk, Except.toBool]
    · rw [if_neg he]
      simp [validatedIndexAux, Except.isOk, Except.toBool, twoEll]
  | cons v rest ih =>
    intro f e
    by_cases hv1 : v = sliceNone
    · subst hv1
      have e1 : validatedIndexAux (sliceNone :: rest) f e =
          (validatedIndexAux rest f e).bind
            (fun r => Except.ok (PyVal.vStr [] :: r)) := rfl
      rw [e1, isOk_bind_ok, ih f e]
      by_cases he : e = true
      · rw [if_pos he, if_pos he]
        constructor
        · rintro ⟨u, hu, hne⟩
          exact ⟨u, List.mem_cons_of_mem _ hu, hne⟩
        · rintro ⟨u, hu, hne⟩
          rcases List.mem_cons.mp hu with rfl | h2
          · exact absurd rfl hne
          · exact ⟨u, h2, hne⟩
      · rw [if_neg he, if_neg he]
        have hc1 : twoEll (sliceNone :: rest) ↔ twoEll rest := by
          unfold twoEll
          have hcc : List.countP (fun u => decide (u = PyVal.vEllipsis))
              (sliceNone :: rest) =
              List.countP (fun u => decide (u = PyVal.vEllipsis)) rest :=
            List.countP_cons_of_neg _ _ (by decide)
          rw [hcc]
        have hc2 : (PyVal.vEllipsis ∈ sliceNone :: rest) ↔
            PyVal.vEllipsis ∈ rest := by
          constructor
          · intro h
            rcases List.mem_cons.mp h with h2 | h2
            · exact absurd h2 (by decide)
            · exact h2
          · exact List.mem_cons_of_mem _
        have hc3 : hasFixedElem (sliceNone :: rest) ↔ hasFixedElem rest := by
          constructor
          · rintro ⟨u, hu, hne, hne2⟩
            rcases List.mem_cons.mp hu with rfl | h2
            · exact absurd rfl hne
            · exact ⟨u, h2, hne, hne2⟩
          · rintro ⟨u, hu, hne, hne2⟩
            exact ⟨u, List.mem_cons_of_mem _ hu, hne, hne2⟩
        rw [hc1, hc2, hc3]
    · by_cases hv2 : v = PyVal.vEllipsis
      · subst hv2
        have e1 : validatedIndexAux (PyVal.vEllipsis :: rest) f e =
            (if e = true then Except.error PyErr.notImplementedError
             else if f = true then Except.error PyErr.notImplementedError
             else (validatedIndexAux rest f true).bind
               (fun r => Except.ok (PyVal.vStr ['*', '*'] :: r))) := rfl
        rw [e1]
        by_cases he : e = true
        · rw [if_pos he, if_pos he]
          exact iff_of_true rfl ⟨PyVal.vEllipsis, List.mem_cons_self _ _, hv1⟩
        · rw [if_neg he, if_neg he]
          by_cases hf : f = true
          · rw [if_pos hf]
            exact iff_of_true rfl
              (Or.inr ⟨List.mem_cons_self _ _, Or.inl hf⟩)
          · rw [if_neg hf, isOk_bind_ok, ih f true, if_pos rfl]
            constructor
            · rintro ⟨u, hu, hune⟩
              by_cases hu2 : u = PyVal.vEllipsis
              · refine Or.inl ?_
                unfold twoEll
                have hpos : 0 < rest.countP
                    (fun v => decide (v = PyVal.vEllipsis)) :=
                  List.countP_pos_iff.mpr ⟨u, hu, by rw [hu2]; decide⟩
                have hcc : List.countP (fun u => decide (u = PyVal.vEllipsis))
                    (PyVal.vEllipsis :: rest) =
                    List.countP (fun u => decide (u = PyVal.vEllipsis)) rest + 1 :=
                  List.countP_cons_of_pos _ _ (by decide)
                rw [hcc]
                omega
              · exact Or.inr ⟨List.mem_cons_self _ _,
                  Or.inr ⟨u, List.mem_cons_of_mem _ hu, hune, hu2⟩⟩
            · rintro (h | ⟨_, hf2⟩)
              · unfold twoEll at h
                have hcc : List.countP (fun u => decide (u = PyVal.vEllipsis))
                    (PyVal.vEllipsis :: rest) =
                    List.countP (fun u => decide (u = PyVal.vEllipsis)) rest + 1 :=
                  List.countP_cons_of_pos _ _ (by decide)
                rw [hcc] at h
                have hpos : 0 < rest.countP
                    (fun v => decide (v = PyVal.vEllipsis)) := by omega
                obtain ⟨u, hu, hp⟩ := List.countP_pos_iff.mp hpos
                have hue : u = PyVal.vEllipsis := of_decide_eq_true hp
                exact ⟨u, hu, by rw [hue]; decide⟩
              · rcases hf2 with hf2 | ⟨u, hu, hune, hu2⟩
                · exact absurd hf2 hf
                · rcases List.mem_cons.mp hu with rfl | h2
                  · exact absurd rfl hu2
                  · exact ⟨u, h2, hune⟩
      · show ((if v = sliceNone then
              (validatedIndexAux rest f e).bind
                (fun r => Except.ok (PyVal.vStr [] :: r))
            else if v = PyVal.vEllipsis then
              (if e = true then Except.error PyErr.notImplementedError
               else if f = true then Except.error PyErr.notImplementedError
               else (validatedIndexAux rest f true).bind
                 (fun r => Except.ok (PyVal.vStr ['*', '*'] :: r)))
            else
              (if e = true then Except.error PyErr.notImplementedError
               else (validatedIndexAux rest true e).bind
                 (fun r => Except.ok (v :: r)))).isOk = false) ↔ _
        rw [if_neg hv1, if_neg hv2]
        by_cases he : e = true
        · rw [if_pos he, if_pos he]
          exact iff_of_true rfl ⟨v, List.mem_cons_self _ _, hv1⟩
        · rw [if_neg he, if_neg he, isOk_bind_ok, ih true e, if_neg he]
          have hvne : ¬ decide (v = PyVal.vEllipsis) = true := by
            simp [hv2]
          have hcc : List.countP (fun u => decide (u = PyVal.vEllipsis))
              (v :: rest) =
              List.countP (fun u => decide (u = PyVal.vEllipsis)) rest :=
            List.countP_cons_of_neg _ _ hvne
          constructor
          · rintro (h | ⟨hm, _⟩)
            · refine Or.inl ?_
              unfold twoEll at h ⊢
              rw [hcc]
              exact h
            · exact Or.inr ⟨List.mem_cons_of_mem _ hm,
                Or.inr ⟨v, List.mem_cons_self _ _, hv1, hv2⟩⟩
          · rintro (h | ⟨hm, _⟩)
            · refine Or.inl ?_
              unfold twoEll at h ⊢
              rw [hcc] at h
              exact h
            · rcases List.mem_cons.mp hm with h2 | h2
              · exact absurd h2 (fun hh => hv2 hh.symm)
              · exact Or.inr ⟨h2, Or.inl rfl⟩

/-- `_partial_cuid_from_index` raises exactly on bad tuples (on any
non-tuple index value it never raises). -/
theorem partialFromIndex_isOk_iff (idx : PyVal) :
    ((partialFromIndex idx).isOk = false) ↔ badTuple idx := by
  cases idx with
  | vTuple vs =>
    have he : partialFromIndex (.vTuple vs) =
        (validatedIndexAux vs false false).bind
          (fun vals => .ok (.tup vals, some (vs.map typeChar))) := rfl
    rw [he, isOk_bind_ok]
    have hiff := validatedIndexAux_err_iff vs false false
    rw [if_neg (by decide : ¬ (false = true))] at hiff
    rw [hiff]
    show _ ↔ (twoEll vs ∨ (PyVal.vEllipsis ∈ vs ∧ hasFixedElem vs))
    constructor
    · rintro (h | ⟨hm, hf | hf⟩)
      · exact Or.inl h
      · exact absurd hf (by decide)
      · exact Or.inr ⟨hm, hf⟩
    · rintro (h | ⟨hm, hf⟩)
      · exact Or.inl h
      · exact Or.inr ⟨hm, Or.inr hf⟩
  | vInt z => exact iff_of_false (fun h => Bool.noConfusion h) not_false
  | vStr s => exact iff_of_false (fun h => Bool.noConfusion h) not_false
  | vNone => exact iff_of_false (fun h => Bool.noConfusion h) not_false
  | vEllipsis => exact iff_of_false (fun h => Bool.noConfusion h) not_false
  | vSlice a b c =>
    have he : partialFromIndex (.vSlice a b c) =
        (if (PyVal.vSlice a b c : PyVal) = sliceNone then
          Except.ok (.tup [.vStr []], some ['*'])
        else Except.ok (.tup [.vSlice a b c], some [typeChar (.vSlice a b c)])) := rfl
    rw [he]
    by_cases hs : (PyVal.vSlice a b c : PyVal) = sliceNone
    · rw [if_pos hs]
      exact iff_of_false (fun h => Bool.noConfusion h) not_false
    · rw [if_neg hs]
      exact iff_of_false (fun h => Bool.noConfusion h) not_false

/-- A pointwise non-raising function maps to some `ok` list. -/
theorem mapM_ok_of_pointwise {α β : Type} (f : α → Except PyErr β) :
    ∀ (xs : List α), (∀ x ∈ xs, ∃ y, f x = .ok y) →
      ∃ ys, xs.mapM f = .ok ys := by
  intro xs
  induction xs with
  | nil => intro _; exact ⟨[], rfl⟩
  | cons x xs ih =>
    intro h
    obtain ⟨y, hy⟩ := h x (List.mem_cons_self x xs)
    obtain ⟨ys, hys⟩ := ih (fun u hu => h u (List.mem_cons_of_mem x hu))
    refine ⟨y :: ys, ?_⟩
    rw [List.mapM_cons, hy]
    show (xs.mapM f).bind (fun ys' => (pure (y :: ys') : Except PyErr (List β))) = _
    rw [hys]
    rfl

/-- The per-position value selection of
`_partial_cuid_from_slice_info` (`sliced` first, then `fixed`, else
`KeyError`). -/
def sliceValueAt (fixed sliced : List (Nat × PyVal)) (i : Nat) :
    Except PyErr PyVal :=
  match sliced.find? (fun e => e.1 = i) with
  | some e => Except.ok e.2
  | none =>
    match fixed.find? (fun e => e.1 = i) with
    | some e => Except.ok e.2
    | none => Except.error PyErr.keyError

/-- With a complete position map and no ellipsis,
`_partial_cuid_from_slice_info` succeeds. -/
theorem partialFromSliceInfo_none_ok (fixed sliced : List (Nat × PyVal))
    (hcomp : ∀ i < (((fixed ++ sliced).map Prod.fst).dedup).length,
      ((sliced.find? (fun e => e.1 = i)).isSome = true ∨
       (fixed.find? (fun e => e.1 = i)).isSome = true)) :
    ∃ pr, partialFromSliceInfo fixed sliced none = .ok pr := by
  have hpt : ∀ i ∈ List.range (((fixed ++ sliced).map Prod.fst).dedup).length,
      ∃ y, sliceValueAt fixed sliced i = Except.ok y := by
    intro i hi
    unfold sliceValueAt
    rcases hcomp i (List.mem_range.mp hi) with h | h
    · cases hf : sliced.find? (fun e => e.1 = i) with
      | none => rw [hf] at h; exact absurd h (by decide)
      | some e => exact ⟨e.2, rfl⟩
    · cases hf : sliced.find? (fun e => e.1 = i) with
      | some e => exact ⟨e.2, rfl⟩
      | none =>
        cases hf2 : fixed.find? (fun e => e.1 = i) with
        | none => rw [hf2] at h; exact absurd h (by decide)
        | some e => exact ⟨e.2, rfl⟩
  obtain ⟨ys, hys⟩ := mapM_ok_of_pointwise _ _ hpt
  refine ⟨(.tup (ys.map (fun v => if v = sliceNone then .vStr [] else v)),
    some (ys.map (fun v =>
      match v with | .vSlice _ _ _ => '*' | _ => typeChar v))), ?_⟩
  have he : partialFromSliceInfo fixed sliced none =
      ((List.range (((fixed ++ sliced).map Prod.fst).dedup).length).mapM
        (sliceValueAt fixed sliced)).bind (fun values =>
        Except.ok (.tup (values.map (fun v =>
            if v = sliceNone then .vStr [] else v)),
          some (values.map (fun v =>
            match v with | .vSlice _ _ _ => '*' | _ => typeChar v)))) := rfl
  rw [he, hys, exceptOkBind]

/-- Unfolding of the slice-log loop at a `set`/`del` opcode. -/
theorem genSliceLoop_setOrDel (t : Tree) (ctx : Option Path) (ops : List SOp)
    (index : PyVal) (nm : Option PStr) (count : Nat) :
    genSliceLoop t ctx (.setOrDel :: ops) index nm count =
      .error .valueError := rfl

/-- Unfolding of the slice-log loop at a `get_item` opcode. -/
theorem genSliceLoop_getItem (t : Tree) (ctx : Option Path) (idx : PyVal)
    (ops : List SOp) (index : PyVal) (nm : Option PStr) (count : Nat) :
    genSliceLoop t ctx (.getItem idx :: ops) index nm count =
      genSliceLoop t ctx ops idx nm (count + 1) := rfl

/-- Unfolding of the slice-log loop at a `call` opcode. -/
theorem genSliceLoop_callOp (t : Tree) (ctx : Option Path) (a : PStr)
    (ops : List SOp) (index : PyVal) (nm : Option PStr) (count : Nat) :
    genSliceLoop t ctx (.callOp a :: ops) index nm count =
      genSliceLoop t ctx ops index (some a) (count + 1) := rfl

/-- Unfolding of the slice-log loop at a `get_attr` opcode with no pending
call. -/
theorem genSliceLoop_getAttr_none (t : Tree) (ctx : Option Path) (nm0 : PStr)
    (ops : List SOp) (index : PyVal) (count : Nat) :
    genSliceLoop t ctx (.getAttr nm0 :: ops) index none count =
      (if count + 1 = 1 then
        (genSliceLoop t ctx ops (.vTuple []) none (count + 1)).bind
          (fun rest => Except.ok (⟨nm0, .star2, none⟩ :: rest))
      else
        (partialFromIndex index).bind (fun pr =>
          (genSliceLoop t ctx ops (.vTuple []) none (count + 1)).bind
            (fun rest => Except.ok (⟨nm0, pr.1, pr.2⟩ :: rest)))) := rfl

/-- Unfolding of the slice-log loop at a `get_attr` opcode with a pending
call. -/
theorem genSliceLoop_getAttr_some (t : Tree) (ctx : Option Path) (nm0 a : PStr)
    (ops : List SOp) (index : PyVal) (count : Nat) :
    genSliceLoop t ctx (.getAttr nm0 :: ops) index (some a) count =
      (if nm0 ≠ "component".toList then
        (Except.error PyErr.notImplementedError : Except PyErr PStr).bind
          (fun arg =>
            if count + 1 = 1 then
              (genSliceLoop t ctx ops (.vTuple []) none (count + 1)).bind
                (fun rest => Except.ok (⟨arg, .star2, none⟩ :: rest))
            else
              (partialFromIndex index).bind (fun pr =>
                (genSliceLoop t ctx ops (.vTuple []) none (count + 1)).bind
                  (fun rest => Except.ok (⟨arg, pr.1, pr.2⟩ :: rest))))
      else
        (pure a : Except PyErr PStr).bind (fun arg =>
          if count + 1 = 1 then
            (genSliceLoop t ctx ops (.vTuple []) none (count + 1)).bind
              (fun rest => Except.ok (⟨arg, .star2, none⟩ :: rest))
          else
            (partialFromIndex index).bind (fun pr =>
              (genSliceLoop t ctx ops (.vTuple []) none (count + 1)).bind
                (fun rest => Except.ok (⟨arg, pr.1, pr.2⟩ :: rest))))) := rfl

/-- Unfolding of the slice-log loop at the `slice_info` record. -/
theorem genSliceLoop_sliceInfo (t : Tree) (ctx : Option Path) (comp : Path)
    (fixed sliced : List (Nat × PyVal)) (ell : Option Nat) (ops : List SOp)
    (index : PyVal) (nm : Option PStr) (count : Nat) :
    genSliceLoop t ctx (.sliceInfo comp fixed sliced ell :: ops) index nm count =
      (partialFromSliceInfo fixed sliced ell).bind (fun pr =>
        match parentBlockPath comp with
        | some pb =>
          (generateCuid t pb ctx).bind (fun gp =>
            (genSliceLoop t ctx ops index nm (count + 1)).bind (fun rest =>
              pure ((⟨localName comp, pr.1, pr.2⟩ :: gp) ++ rest)))
        | none =>
          (Except.error PyErr.typeError : Except PyErr (List Cid)).bind (fun gp =>
            (genSliceLoop t ctx ops index nm (count + 1)).bind (fun rest =>
              pure ((⟨localName comp, pr.1, pr.2⟩ :: gp) ++ rest)))) := rfl

/-- Canonical deferred-operation logs, in pop order: the ops before the
base `slice_info` record come in the groups a real
`IndexedComponent_slice` call stack produces — a bare child retrieval
`getAttr`, an indexed retrieval `getItem; getAttr`, a method call
`callOp; getAttr`, an indexed method call `getItem; callOp; getAttr` —
plus possible mutating opcodes. -/
inductive WFOps : List SOp → Prop where
  | nil : WFOps []
  | setOrDel (rest : List SOp) : WFOps rest → WFOps (.setOrDel :: rest)
  | getAttr (nm : PStr) (rest : List SOp) : WFOps rest →
      WFOps (.getAttr nm :: rest)
  | callAttr (a nm : PStr) (rest : List SOp) : WFOps rest →
      WFOps (.callOp a :: .getAttr nm :: rest)
  | itemAttr (idx : PyVal) (nm : PStr) (rest : List SOp) : WFOps rest →
      WFOps (.getItem idx :: .getAttr nm :: rest)
  | itemCallAttr (idx : PyVal) (a nm : PStr) (rest : List SOp) : WFOps rest →
      WFOps (.getItem idx :: .callOp a :: .getAttr nm :: rest)

/-- A recorded call to a method other than `component`: a `callOp`
immediately answered by a `getAttr` whose name is not `component`. -/
def hasBadCall : List SOp → Prop
  | .callOp _ :: .getAttr nm :: rest =>
    nm ≠ "component".toList ∨ hasBadCall rest
  | _ :: rest => hasBadCall rest
  | [] => False

/-- The claim's error conditions on the ops before the base record: a
mutating opcode, a recorded index that the validator rejects, or a call to
a method other than `component`. -/
def badPre (pre : List SOp) : Prop :=
  SOp.setOrDel ∈ pre ∨ (∃ idx, SOp.getItem idx ∈ pre ∧ badTuple idx) ∨
    hasBadCall pre

/-- `badPre` ignores a leading plain `getAttr`. -/
theorem badPre_cons_getAttr (nm0 : PStr) (rest : List SOp) :
    badPre (.getAttr nm0 :: rest) ↔ badPre rest := by
  unfold badPre
  rw [show hasBadCall (.getAttr nm0 :: rest) = hasBadCall rest from rfl]
  constructor
  · rintro (h | ⟨idx, hm, hb⟩ | h)
    · rcases List.mem_cons.mp h with h2 | h2
      · exact SOp.noConfusion h2
      · exact Or.inl h2
    · rcases List.mem_cons.mp hm with h2 | h2
      · exact SOp.noConfusion h2
      · exact Or.inr (Or.inl ⟨idx, h2, hb⟩)
    · exact Or.inr (Or.inr h)
  · rintro (h | ⟨idx, hm, hb⟩ | h)
    · exact Or.inl (List.mem_cons_of_mem _ h)
    · exact Or.inr (Or.inl ⟨idx, List.mem_cons_of_mem _ hm, hb⟩)
    · exact Or.inr (Or.inr h)

/-- `badPre` over a leading `getItem` separates that index's condition. -/
theorem badPre_cons_getItem (idx : PyVal) (rest : List SOp)
    (hnc : hasBadCall (.getItem idx :: rest) ↔ hasBadCall rest) :
    badPre (.getItem idx :: rest) ↔ (badTuple idx ∨ badPre rest) := by
  unfold badPre
  rw [hnc]
  constructor
  · rintro (h | ⟨idx', hm, hb⟩ | h)
    · rcases List.mem_cons.mp h with h2 | h2
      · exact SOp.noConfusion h2
      · exact Or.inr (Or.inl h2)
    · rcases List.mem_cons.mp hm with h2 | h2
      · have : idx' = idx := by injection h2
        exact Or.inl (this ▸ hb)
      · exact Or.inr (Or.inr (Or.inl ⟨idx', h2, hb⟩))
    · exact Or.inr (Or.inr (Or.inr h))
  · rintro (h | h | ⟨idx', hm, hb⟩ | h)
    · exact Or.inr (Or.inl ⟨idx, List.mem_cons_self _ _, h⟩)
    · exact Or.inl (List.mem_cons_of_mem _ h)
    · exact Or.inr (Or.inl ⟨idx', List.mem_cons_of_mem _ hm, hb⟩)
    · exact Or.inr (Or.inr h)

/-- `badPre` over a leading `callOp; getAttr` pair separates the bad-call
condition. -/
theorem badPre_cons_callAttr (a nm0 : PStr) (rest : List SOp) :
    badPre (.callOp a :: .getAttr nm0 :: rest) ↔
      (nm0 ≠ "component".toList ∨ badPre rest) := by
  unfold badPre
  rw [show hasBadCall (.callOp a :: .getAttr nm0 :: rest) =
    (nm0 ≠ "component".toList ∨ hasBadCall rest) from rfl]
  constructor
  · rintro (h | ⟨idx, hm, hb⟩ | h | h)
    · rcases List.mem_cons.mp h with h2 | h2
      · exact SOp.noConfusion h2
      · rcases List.mem_cons.mp h2 with h3 | h3
        · exact SOp.noConfusion h3
        · exact Or.inr (Or.inl h3)
    · rcases List.mem_cons.mp hm with h2 | h2
      · exact SOp.noConfusion h2
      · rcases List.mem_cons.mp h2 with h3 | h3
        · exact SOp.noConfusion h3
        · exact Or.inr (Or.inr (Or.inl ⟨idx, h3, hb⟩))
    · exact Or.inl h
    · exact Or.inr (Or.inr (Or.inr h))
  · rintro (h | h | ⟨idx, hm, hb⟩ | h)
    · exact Or.inr (Or.inr (Or.inl h))
    · exact Or.inl (List.mem_cons_of_mem _ (List.mem_cons_of_mem _ h))
    · exact Or.inr (Or.inl
        ⟨idx, List.mem_cons_of_mem _ (List.mem_cons_of_mem _ hm), hb⟩)
    · exact Or.inr (Or.inr (Or.inr h))

/-- The loop of `_generate_cids_from_slice` on a canonical log raises
exactly under the amended conditions, assuming the base record's component
sits in the tree with a generatable parent and complete position maps. -/
theorem genSliceLoop_err_iff (t : Tree) (ctx : Option Path) (comp : Path)
    (fixed sliced : List (Nat × PyVal)) (ell : Option Nat) (pb : Path)
    (g : List Cid) (hpb : parentBlockPath comp = some pb)
    (hgen : generateCuid t pb ctx = .ok g)
    (hcomp : ell = none →
      ∀ i < (((fixed ++ sliced).map Prod.fst).dedup).length,
        ((sliced.find? (fun e => e.1 = i)).isSome = true ∨
         (fixed.find? (fun e => e.1 = i)).isSome = true))
    {pre : List SOp} (hpre : WFOps pre) :
    ∀ count : Nat,
      ((genSliceLoop t ctx (pre ++ [.sliceInfo comp fixed sliced ell])
          (.vTuple []) none count).isOk = false ↔
        (badPre pre ∨ (ell ≠ none ∧ fixed ≠ []))) := by
  induction hpre with
  | nil =>
    intro count
    rw [List.nil_append, genSliceLoop_sliceInfo]
    cases ell with
    | some i =>
      rw [show partialFromSliceInfo fixed sliced (some i) =
          (if fixed ≠ [] then Except.error PyErr.notImplementedError
           else Except.ok (.tup [.vStr ['*', '*']], none)) from rfl]
      by_cases hfx : fixed ≠ []
      · rw [if_pos hfx]
        exact iff_of_true rfl (Or.inr ⟨fun hh => Option.noConfusion hh, hfx⟩)
      · rw [if_neg hfx]
        rw [exceptOkBind, hpb]
        show ((generateCuid t pb ctx).bind (fun gp =>
            (genSliceLoop t ctx [] (.vTuple []) none (count + 1)).bind
              (fun rest =>
                (pure ((⟨localName comp, .tup [.vStr ['*', '*']], none⟩ :: gp)
                  ++ rest) : Except PyErr (List Cid))))).isOk = false ↔ _
        rw [hgen, exceptOkBind]
        refine iff_of_false (fun h => Bool.noConfusion h) ?_
        rintro ((h | ⟨idx, hm, _⟩ | h) | ⟨_, hfx2⟩)
        · exact absurd h (List.not_mem_nil _)
        · exact absurd hm (List.not_mem_nil _)
        · exact h
        · exact hfx hfx2
    | none =>
      obtain ⟨pr, hps⟩ := partialFromSliceInfo_none_ok fixed sliced (hcomp rfl)
      rw [hps, exceptOkBind, hpb]
      show ((generateCuid t pb ctx).bind (fun gp =>
          (genSliceLoop t ctx [] (.vTuple []) none (count + 1)).bind
            (fun rest =>
              (pure ((⟨localName comp, pr.1, pr.2⟩ :: gp) ++ rest) :
                Except PyErr (List Cid))))).isOk = false ↔ _
      rw [hgen, exceptOkBind]
      refine iff_of_false (fun h => Bool.noConfusion h) ?_
      rintro ((h | ⟨idx, hm, _⟩ | h) | ⟨hne, _⟩)
      · exact absurd h (List.not_mem_nil _)
      · exact absurd hm (List.not_mem_nil _)
      · exact h
      · exact hne rfl
  | setOrDel rest hrest ih =>
    intro count
    rw [List.cons_append, genSliceLoop_setOrDel]
    exact iff_of_true rfl (Or.inl (Or.inl (List.mem_cons_self _ _)))
  | getAttr nm0 rest hrest ih =>
    intro count
    rw [List.cons_append, genSliceLoop_getAttr_none]
    by_cases hc : count + 1 = 1
    · rw [if_pos hc, isOk_bind_ok, ih (count + 1)]
      rw [show (badPre (.getAttr nm0 :: rest) ∨ (ell ≠ none ∧ fixed ≠ [])) ↔
          (badPre rest ∨ (ell ≠ none ∧ fixed ≠ [])) from
        or_congr (badPre_cons_getAttr nm0 rest) Iff.rfl]
    · rw [if_neg hc,
        show partialFromIndex (PyVal.vTuple []) =
          Except.ok (CArgs.tup [], some ([] : List Char)) from rfl,
        exceptOkBind]
      show ((genSliceLoop t ctx (rest ++ [.sliceInfo comp fixed sliced ell])
          (.vTuple []) none (count + 1)).bind (fun rest' =>
            (Except.ok (⟨nm0, .tup [], some []⟩ :: rest') :
              Except PyErr (List Cid)))).isOk = false ↔ _
      rw [isOk_bind_ok, ih (count + 1)]
      rw [show (badPre (.getAttr nm0 :: rest) ∨ (ell ≠ none ∧ fixed ≠ [])) ↔
          (badPre rest ∨ (ell ≠ none ∧ fixed ≠ [])) from
        or_congr (badPre_cons_getAttr nm0 rest) Iff.rfl]
  | callAttr a nm0 rest hrest ih =>
    intro count
    rw [List.cons_append, genSliceLoop_callOp, List.cons_append,
      genSliceLoop_getAttr_some]
    by_cases hnm : nm0 ≠ "component".toList
    · rw [if_pos hnm]
      exact iff_of_true rfl
        (Or.inl ((badPre_cons_callAttr a nm0 rest).mpr (Or.inl hnm)))
    · rw [if_neg hnm]
      show ((Except.ok a : Except PyErr PStr).bind (fun arg =>
          if count + 1 + 1 = 1 then
            (genSliceLoop t ctx (rest ++ [.sliceInfo comp fixed sliced ell])
              (.vTuple []) none (count + 1 + 1)).bind
              (fun rest' => Except.ok (⟨arg, .star2, none⟩ :: rest'))
          else
            (partialFromIndex (.vTuple [])).bind (fun pr =>
              (genSliceLoop t ctx (rest ++ [.sliceInfo comp fixed sliced ell])
                (.vTuple []) none (count + 1 + 1)).bind
                (fun rest' =>
                  Except.ok (⟨arg, pr.1, pr.2⟩ :: rest'))))).isOk = false ↔ _
      rw [exceptOkBind]
      show (if count + 1 + 1 = 1 then
          (genSliceLoop t ctx (rest ++ [.sliceInfo comp fixed sliced ell])
            (.vTuple []) none (count + 1 + 1)).bind
            (fun rest' =>
              (Except.ok (⟨a, .star2, none⟩ :: rest') : Except PyErr (List Cid)))
        else
          (partialFromIndex (.vTuple [])).bind (fun pr =>
            (genSliceLoop t ctx (rest ++ [.sliceInfo comp fixed sliced ell])
              (.vTuple []) none (count + 1 + 1)).bind
              (fun rest' =>
                Except.ok (⟨a, pr.1, pr.2⟩ :: rest')))).isOk = false ↔ _
      rw [if_neg (by omega : ¬ (count + 1 + 1 = 1)),
        show partialFromIndex (PyVal.vTuple []) =
          Except.ok (CArgs.tup [], some ([] : List Char)) from rfl,
        exceptOkBind]
      show ((genSliceLoop t ctx (rest ++ [.sliceInfo comp fixed sliced ell])
          (.vTuple []) none (count + 1 + 1)).bind (fun rest' =>
            (Except.ok (⟨a, .tup [], some []⟩ :: rest') :
              Except PyErr (List Cid)))).isOk = false ↔ _
      rw [isOk_bind_ok, ih (count + 1 + 1)]
      constructor
      · rintro (h | h)
        · exact Or.inl ((badPre_cons_callAttr a nm0 rest).mpr (Or.inr h))
        · exact Or.inr h
      · rintro (h | h)
        · rcases (badPre_cons_callAttr a nm0 rest).mp h with h2 | h2
          · exact absurd h2 hnm
          · exact Or.inl h2
        · exact Or.inr h
  | itemAttr idx nm0 rest hrest ih =>
    intro count
    rw [List.cons_append, genSliceLoop_getItem, List.cons_append,
      genSliceLoop_getAttr_none]
    rw [if_neg (by omega : ¬ (count + 1 + 1 = 1))]
    have hbk : badPre (.getItem idx :: .getAttr nm0 :: rest) ↔
        (badTuple idx ∨ badPre rest) := by
      rw [badPre_cons_getItem idx (.getAttr nm0 :: rest) Iff.rfl,
        badPre_cons_getAttr]
    cases hpi : partialFromIndex idx with
    | error e =>
      refine iff_of_true rfl ?_
      have hbad : badTuple idx := (partialFromIndex_isOk_iff idx).mp
        (by rw [hpi]; rfl)
      exact Or.inl (hbk.mpr (Or.inl hbad))
    | ok pr =>
      rw [exceptOkBind]
      show ((genSliceLoop t ctx (rest ++ [.sliceInfo comp fixed sliced ell])
          (.vTuple []) none (count + 1 + 1)).bind (fun rest' =>
            (Except.ok (⟨nm0, pr.1, pr.2⟩ :: rest') :
              Except PyErr (List Cid)))).isOk = false ↔ _
      rw [isOk_bind_ok, ih (count + 1 + 1)]
      have hnb : ¬ badTuple idx := fun hb =>
        Bool.noConfusion (hpi ▸ (partialFromIndex_isOk_iff idx).mpr hb)
      constructor
      · rintro (h | h)
        · exact Or.inl (hbk.mpr (Or.inr h))
        · exact Or.inr h
      · rintro (h | h)
        · rcases hbk.mp h with h2 | h2
          · exact absurd h2 hnb
          · exact Or.inl h2
        · exact Or.inr h
  | itemCallAttr idx a nm0 rest hrest ih =>
    intro count
    rw [List.cons_append, genSliceLoop_getItem, List.cons_append,
      genSliceLoop_callOp, List.cons_append, genSliceLoop_getAttr_some]
    have hbk : badPre (.getItem idx :: .callOp a :: .getAttr nm0 :: rest) ↔
        (badTuple idx ∨ (nm0 ≠ "component".toList ∨ badPre rest)) := by
      rw [badPre_cons_getItem idx (.callOp a :: .getAttr nm0 :: rest) Iff.rfl,
        badPre_cons_callAttr]
    by_cases hnm : nm0 ≠ "component".toList
    · rw [if_pos hnm]
      exact iff_of_true rfl (Or.inl (hbk.mpr (Or.inr (Or.inl hnm))))
    · rw [if_neg hnm]
      show ((Except.ok a : Except PyErr PStr).bind (fun arg =>
          if count + 1 + 1 + 1 = 1 then
            (genSliceLoop t ctx (rest ++ [.sliceInfo comp fixed sliced ell])
              (.vTuple []) none (count + 1 + 1 + 1)).bind
              (fun rest' => Except.ok (⟨arg, .star2, none⟩ :: rest'))
          else
            (partialFromIndex idx).bind (fun pr =>
              (genSliceLoop t ctx (rest ++ [.sliceInfo comp fixed sliced ell])
                (.vTuple []) none (count + 1 + 1 + 1)).bind
                (fun rest' =>
                  Except.ok (⟨arg, pr.1, pr.2⟩ :: rest'))))).isOk = false ↔ _
      rw [exceptOkBind]
      show (if count + 1 + 1 + 1 = 1 then
          (genSliceLoop t ctx (rest ++ [.sliceInfo comp fixed sliced ell])
            (.vTuple []) none (count + 1 + 1 + 1)).bind
            (fun rest' =>
              (Except.ok (⟨a, .star2, none⟩ :: rest') : Except PyErr (List Cid)))
        else
          (partialFromIndex idx).bind (fun pr =>
            (genSliceLoop t ctx (rest ++ [.sliceInfo comp fixed sliced ell])
              (.vTuple []) none (count + 1 + 1 + 1)).bind
              (fun rest' =>
                Except.ok (⟨a, pr.1, pr.2⟩ :: rest')))).isOk = false ↔ _
      rw [if_neg (by omega : ¬ (count + 1 + 1 + 1 = 1))]
      cases hpi : partialFromIndex idx with
      | error e =>
        refine iff_of_true rfl ?_
        have hbad : badTuple idx := (partialFromIndex_isOk_iff idx).mp
          (by rw [hpi]; rfl)
        exact Or.inl (hbk.mpr (Or.inl hbad))
      | ok pr =>
        rw [exceptOkBind]
        show ((genSliceLoop t ctx (rest ++ [.sliceInfo comp fixed sliced ell])
            (.vTuple []) none (count + 1 + 1 + 1)).bind (fun rest' =>
              (Except.ok (⟨a, pr.1, pr.2⟩ :: rest') :
                Except PyErr (List Cid)))).isOk = false ↔ _
        rw [isOk_bind_ok, ih (count + 1 + 1 + 1)]
        have hnb : ¬ badTuple idx := fun hb =>
          Bool.noConfusion (hpi ▸ (partialFromIndex_isOk_iff idx).mpr hb)
        constructor
        · rintro (h | h)
          · exact Or.inl (hbk.mpr (Or.inr (Or.inr h)))
          · exact Or.inr h
        · rintro (h | h)
          · rcases hbk.mp h with h2 | h2 | h2
            · exact absurd h2 hnb
            · exact absurd h2 hnm
            · exact Or.inl h2
          · exact Or.inr h

/-- **C8** (counterexample): a recorded index with two ellipses that no
child retrieval ever consumes — a bare `getItem` popped just before the
base record — raises nothing: the log contains an index with more than one
ellipsis, yet generation succeeds. -/
theorem c8_slice_log_cex :
    badTuple (.vTuple [.vInt 1, .vEllipsis, .vEllipsis]) ∧
    (SOp.getItem (.vTuple [.vInt 1, .vEllipsis, .vEllipsis]) ∈
      ([.getItem (.vTuple [.vInt 1, .vEllipsis, .vEllipsis]),
        .sliceInfo [.sAttr (lc "x")] [] [(0, sliceNone)] none] : List SOp)) ∧
    (genFromSlice treeA
      [.getItem (.vTuple [.vInt 1, .vEllipsis, .vEllipsis]),
       .sliceInfo [.sAttr (lc "x")] [] [(0, sliceNone)] none] none).isOk
      = true := by
  refine ⟨?_, by decide, by decide⟩
  refine Or.inl ?_
  show 2 ≤ ([PyVal.vInt 1, PyVal.vEllipsis, PyVal.vEllipsis].countP
    (fun v => decide (v = PyVal.vEllipsis)))
  decide

/-- **C8** (amended): on a canonical log (every recorded index and call
answered by a child retrieval) whose base record's component is in the
tree with a generatable parent and complete position maps, generation
raises exactly when the log has a `set`/`del` opcode (a `ValueError`), a
consumed index the validator rejects (more than one ellipsis, or an
ellipsis with a fixed value), a call to a method other than `component`,
or an ellipsis with fixed positions in the base record; an index recorded
by a `getItem` that no retrieval consumes is dropped silently, so the
claim's by-containment reading is false. -/
theorem c8_slice_log_errors (t : Tree) (ctx : Option Path) (pre : List SOp)
    (comp : Path) (fixed sliced : List (Nat × PyVal)) (ell : Option Nat)
    (pb : Path) (g : List Cid)
    (hpre : WFOps pre)
    (hpb : parentBlockPath comp = some pb)
    (hgen : generateCuid t pb ctx = .ok g)
    (hcomp : ell = none →
      ∀ i < (((fixed ++ sliced).map Prod.fst).dedup).length,
        ((sliced.find? (fun e => e.1 = i)).isSome = true ∨
         (fixed.find? (fun e => e.1 = i)).isSome = true)) :
    ((genFromSlice t (pre ++ [.sliceInfo comp fixed sliced ell]) ctx).isOk
        = false ↔
      (SOp.setOrDel ∈ pre ∨
       (∃ idx, SOp.getItem idx ∈ pre ∧ badTuple idx) ∨
       hasBadCall pre ∨ (ell ≠ none ∧ fixed ≠ []))) := by
  have h := genSliceLoop_err_iff t ctx comp fixed sliced ell pb g hpb hgen
    hcomp hpre 0
  rw [show genFromSlice t (pre ++ [.sliceInfo comp fixed sliced ell]) ctx =
    genSliceLoop t ctx (pre ++ [.sliceInfo comp fixed sliced ell])
      (.vTuple []) none 0 from rfl]
  rw [h]
  unfold badPre
  rw [or_assoc, or_assoc]

/-- **C8** (witness): on `treeA`, the canonical log for
`m.x[:][(..., ...)].y` — whose doubly-elliptic index *is* consumed by the
`y` retrieval — raises, in agreement with the amended condition. -/
theorem c8_slice_log_errors_witness :
    (genFromSlice treeA
        [.getItem (.vTuple [.vEllipsis, .vEllipsis]), .getAttr (lc "y"),
         .sliceInfo [.sAttr (lc "x")] [] [(0, sliceNone)] none] none).isOk
        = false ↔
      (SOp.setOrDel ∈ ([.getItem (.vTuple [.vEllipsis, .vEllipsis]),
          .getAttr (lc "y")] : List SOp) ∨
       (∃ idx, SOp.getItem idx ∈ ([.getItem (.vTuple [.vEllipsis, .vEllipsis]),
          .getAttr (lc "y")] : List SOp) ∧ badTuple idx) ∨
       hasBadCall [.getItem (.vTuple [.vEllipsis, .vEllipsis]),
          .getAttr (lc "y")] ∨
       ((none : Option Nat) ≠ none ∧ ([] : List (Nat × PyVal)) ≠ [])) :=
  c8_slice_log_errors treeA none
    [.getItem (.vTuple [.vEllipsis, .vEllipsis]), .getAttr (lc "y")]
    [.sAttr (lc "x")] [] [(0, sliceNone)] none [] []
    (WFOps.itemAttr _ _ _ WFOps.nil) (by decide) (by decide)
    (fun _ => by decide)

/-! ## Claim C3: the compact round trip on the fully-typed subset -/

/-- A string value whose compact rendering re-parses as itself with the
untyped code: non-empty, free of the parser's separators, not starting
with a type key or quote, ASCII (so the modelled `int()` is exactly
Python's), and not numeric (so the coercion search's `int` cast fails). -/
def C3Str : PStr → Prop
  | [] => False
  | c :: rest =>
    c ∉ (['#', '$', '*', '"', '\''] : List Char) ∧
    ('.' : Char) ∉ (c :: rest) ∧ (',' : Char) ∉ (c :: rest) ∧
    (']' : Char) ∉ (c :: rest) ∧ ('[' : Char) ∉ (c :: rest) ∧
    (pyParseInt (c :: rest)).isOk = false ∧
    ∀ ch ∈ c :: rest, ch.toNat < 128

instance : (s : PStr) → Decidable (C3Str s)
  | [] => isFalse (fun h => h)
  | c :: rest => inferInstanceAs (Decidable (_ ∧ _ ∧ _ ∧ _ ∧ _ ∧ _ ∧ _))

/-- A fully-typed segment of the compact round trip: a scalar (no-index)
segment, a single integer position, or a single good string position. -/
def C3Seg : Cid → Prop
  | ⟨n, .tup [], some []⟩ => GoodName n
  | ⟨n, .tup [.vInt _], some [tc]⟩ => tc = '#' ∧ GoodName n
  | ⟨n, .tup [.vStr s], some [tc]⟩ => tc = '$' ∧ GoodName n ∧ C3Str s
  | _ => False

instance : (c : Cid) → Decidable (C3Seg c)
  | ⟨n, .tup [], some []⟩ => inferInstanceAs (Decidable (GoodName n))
  | ⟨_, .tup [.vInt _], some [_]⟩ => inferInstanceAs (Decidable (_ ∧ _))
  | ⟨_, .tup [.vStr _], some [_]⟩ => inferInstanceAs (Decidable (_ ∧ _ ∧ _))
  | ⟨_, .star2, _⟩ => isFalse (fun h => h)
  | ⟨_, .tup [], none⟩ => isFalse (fun h => h)
  | ⟨_, .tup [], some (_ :: _)⟩ => isFalse (fun h => h)
  | ⟨_, .tup [.vInt _], none⟩ => isFalse (fun h => h)
  | ⟨_, .tup [.vInt _], some []⟩ => isFalse (fun h => h)
  | ⟨_, .tup [.vInt _], some (_ :: _ :: _)⟩ => isFalse (fun h => h)
  | ⟨_, .tup [.vStr _], none⟩ => isFalse (fun h => h)
  | ⟨_, .tup [.vStr _], some []⟩ => isFalse (fun h => h)
  | ⟨_, .tup [.vStr _], some (_ :: _ :: _)⟩ => isFalse (fun h => h)
  | ⟨_, .tup [.vNone], _⟩ => isFalse (fun h => h)
  | ⟨_, .tup [.vEllipsis], _⟩ => isFalse (fun h => h)
  | ⟨_, .tup [.vSlice _ _ _], _⟩ => isFalse (fun h => h)
  | ⟨_, .tup [.vTuple _], _⟩ => isFalse (fun h => h)
  | ⟨_, .tup (.vInt _ :: _ :: _), _⟩ => isFalse (fun h => h)
  | ⟨_, .tup (.vStr _ :: _ :: _), _⟩ => isFalse (fun h => h)
  | ⟨_, .tup (.vNone :: _ :: _), _⟩ => isFalse (fun h => h)
  | ⟨_, .tup (.vEllipsis :: _ :: _), _⟩ => isFalse (fun h => h)
  | ⟨_, .tup (.vSlice _ _ _ :: _ :: _), _⟩ => isFalse (fun h => h)
  | ⟨_, .tup (.vTuple _ :: _ :: _), _⟩ => isFalse (fun h => h)

/-- Textual well-formedness of the keys: no string key of the tree parses
as an integer (so an integer's decimal text never shadows a string-keyed
member, nor conversely). -/
def numFreeStep : Step → Prop
  | .sItem (.vStr s) => (pyParseInt s).isOk = false
  | _ => True

instance : (st : Step) → Decidable (numFreeStep st)
  | .sAttr _ => isTrue trivial
  | .sItem (.vStr s) =>
    inferInstanceAs (Decidable ((pyParseInt s).isOk = false))
  | .sItem (.vInt _) => isTrue trivial
  | .sItem .vNone => isTrue trivial
  | .sItem .vEllipsis => isTrue trivial
  | .sItem (.vSlice _ _ _) => isTrue trivial
  | .sItem (.vTuple _) => isTrue trivial

/-- No string key of the tree is numeric text. -/
def NoNumericStrKeys (t : Tree) : Prop :=
  ∀ e ∈ t.nodes, ∀ st ∈ e.1, numFreeStep st

instance (t : Tree) : Decidable (NoNumericStrKeys t) := by
  unfold NoNumericStrKeys; infer_instance

/-- In a well-formed tree no member is keyed by a slice. -/
theorem pyGetitemKey_slice_none {t : Tree} (hwf : TreeWF t) (c : Path)
    (a b c' : PyVal) : pyGetitemKey t c (.vSlice a b c') = none := by
  unfold pyGetitemKey
  cases hk : kindAt t c with
  | none => rfl
  | some k =>
    cases k with
    | nIndexedC =>
      show (if validAt t (.sItem (.vSlice a b c') :: c) then
        some (.sItem (.vSlice a b c') :: c) else none) = none
      rw [if_neg]
      intro hv
      rw [validAt] at hv
      cases hk2 : kindAt t (.sItem (.vSlice a b c') :: c) with
      | none => rw [hk2] at hv; exact Bool.noConfusion hv
      | some k2 =>
        have := (wf_item_rules hwf hk2).2.2
        exact Bool.noConfusion this
    | nBlock =>
      show (if (PyVal.vSlice a b c' : PyVal) = .vNone then some c else none) = none
      rw [if_neg (fun hh => PyVal.noConfusion hh)]
    | nScalarC =>
      show (if (PyVal.vSlice a b c' : PyVal) = .vNone then some c else none) = none
      rw [if_neg (fun hh => PyVal.noConfusion hh)]
    | nDataObj => rfl

/-- With numeric-free string keys, the decimal text of an integer is never
a key. -/
theorem pyGetitemKey_intText_none {t : Tree} (hnn : NoNumericStrKeys t)
    (c : Path) (z : Int) : pyGetitemKey t c (.vStr (intRepr z)) = none := by
  unfold pyGetitemKey
  cases hk : kindAt t c with
  | none => rfl
  | some k =>
    cases k with
    | nIndexedC =>
      show (if validAt t (.sItem (.vStr (intRepr z)) :: c) then
        some (.sItem (.vStr (intRepr z)) :: c) else none) = none
      rw [if_neg]
      intro hv
      rw [validAt] at hv
      cases hk2 : kindAt t (.sItem (.vStr (intRepr z)) :: c) with
      | none => rw [hk2] at hv; exact Bool.noConfusion hv
      | some k2 =>
        have hmem := kindAt_mem hk2
        have hnf : numFreeStep (.sItem (.vStr (intRepr z))) :=
          hnn _ hmem _ (List.mem_cons_self _ _)
        have : (pyParseInt (intRepr z)).isOk = false := hnf
        rw [pyParseInt_intRepr] at this
        exact Bool.noConfusion this
    | nBlock =>
      show (if (PyVal.vStr (intRepr z) : PyVal) = .vNone then some c else none)
        = none
      rw [if_neg (fun hh => PyVal.noConfusion hh)]
    | nScalarC =>
      show (if (PyVal.vStr (intRepr z) : PyVal) = .vNone then some c else none)
        = none
      rw [if_neg (fun hh => PyVal.noConfusion hh)]
    | nDataObj => rfl

/-- How `parse_cuid` reads a compact (`__str__`) segment back: every
rendered position returns as its text with the untyped code `.`; a
no-index segment returns unchanged. -/
def reparseSeg : Cid → Cid
  | ⟨n, .tup [], _⟩ => ⟨n, .tup [], some []⟩
  | ⟨n, .tup vs, _⟩ =>
    ⟨n, .tup (vs.map (fun v => .vStr (pyStr v))), some (vs.map (fun _ => '.'))⟩
  | c => c

/-- A digit character is no type key, quote, or bracket. -/
theorem digitChar_ne_keys (d : Nat) (h : d < 10) :
    Char.ofNat (48 + d) ∉ (['#', '$', '*', '"', '\''] : List Char) ∧
      Char.ofNat (48 + d) ≠ '[' := by
  interval_cases d <;> exact ⟨by decide, by decide⟩

/-- A value text that starts with no type key or quote parses as itself,
untyped. -/
theorem parseVal_untyped (c : Char) (rest : PStr)
    (hc : c ∉ (['#', '$', '*', '"', '\''] : List Char)) :
    parseVal (c :: rest) = .ok (.vStr (c :: rest), '.') := by
  have hc1 : ¬ c = '#' := fun h => hc (by rw [h]; decide)
  have hc2 : ¬ c = '$' := fun h => hc (by rw [h]; decide)
  have hc3 : ¬ c = '*' := fun h => hc (by rw [h]; decide)
  have hstar : ¬ (c :: rest) = ['*'] := fun h => hc3 (List.cons.inj h).1
  have hc4 : ¬ ((c = '"' ∨ c = '\'') ∧ (c :: rest).getLast? = some c) := by
    rintro ⟨h1 | h1, _⟩
    · exact hc (by rw [h1]; decide)
    · exact hc (by rw [h1]; decide)
  unfold parseVal
  rw [if_neg hstar]
  show (if c = '#' then
        (match pyParseInt rest with
         | .ok z => (Except.ok (PyVal.vInt z, '#') : Except PyErr (PyVal × Char))
         | .error e => .error e)
      else if c = '$' then .ok (.vStr rest, '$')
      else if c = '*' then .ok (.vSlice .vNone (.vStr rest) .vNone, '*')
      else if (c = '"' ∨ c = '\'') ∧ (c :: rest).getLast? = some c then
        .ok (.vStr rest.dropLast, '$')
      else .ok (.vStr (c :: rest), '.')) = .ok (.vStr (c :: rest), '.')
  rw [if_neg hc1, if_neg hc2, if_neg hc3, if_neg hc4]

/-- The printed integer has a minus sign or digit first. -/
theorem intRepr_head (z : Int) : ∃ c rest, intRepr z = c :: rest ∧
    (c = '-' ∨ ∃ d, d < 10 ∧ c = Char.ofNat (48 + d)) := by
  unfold intRepr
  by_cases hz : z < 0
  · rw [if_pos hz]
    exact ⟨'-', natDigits z.natAbs, rfl, Or.inl rfl⟩
  · rw [if_neg hz]
    obtain ⟨d, rest, hd, he⟩ := natDigitsAux_head (z.toNat + 1) z.toNat [] (by omega)
    exact ⟨Char.ofNat (48 + d), rest, he, Or.inr ⟨d, hd, rfl⟩⟩

/-- The printed integer parses as untyped text. -/
theorem parseVal_intRepr (z : Int) :
    parseVal (intRepr z) = .ok (.vStr (intRepr z), '.') := by
  obtain ⟨c, rest, he, hc⟩ := intRepr_head z
  rw [he]
  refine parseVal_untyped c rest ?_
  rcases hc with rfl | ⟨d, hd, rfl⟩
  · decide
  · exact (digitChar_ne_keys d hd).1

/-- The bracket dispatch of `parse_cuid`'s segment processing for segments
ending in `]`. -/
theorem parseSeg_concat_rb (body : PStr) :
    parseSeg (body ++ [']']) =
      (match (pySplitOnce body '[').2 with
       | none => Except.ok ⟨(pySplitOnce body '[').1, .tup [], some []⟩
       | some suffix => do
         let parsed ← (pySplit suffix ',').mapM parseVal
         let vals := parsed.map Prod.fst
         if vals = [.vStr ['*', '*']] then
           Except.ok ⟨(pySplitOnce body '[').1, .star2, none⟩
         else
           Except.ok ⟨(pySplitOnce body '[').1, .tup vals,
             some (parsed.map Prod.snd)⟩) := by
  unfold parseSeg
  rw [List.getLast?_concat]
  show (let cinfo := if (']' : Char) = ']' then
          pySplitOnce (body ++ [']']).dropLast '['
        else pySplitOnce (body ++ [']']) ':'
        match cinfo.2 with
        | none => (Except.ok ⟨cinfo.1, CArgs.tup [], some []⟩ : Except PyErr Cid)
        | some suffix => do
          let parsed ← (pySplit suffix ',').mapM parseVal
          let vals := parsed.map Prod.fst
          if vals = [PyVal.vStr ['*', '*']] then
            Except.ok ⟨cinfo.1, .star2, none⟩
          else Except.ok ⟨cinfo.1, .tup vals, some (parsed.map Prod.snd)⟩) = _
  rw [if_pos rfl, List.dropLast_concat]

/-- Pointwise `ok` results with a result function give the mapped `ok`. -/
theorem mapM_ok_of_map {α β : Type} (f : α → Except PyErr β) (g : α → β) :
    ∀ (xs : List α), (∀ x ∈ xs, f x = .ok (g x)) →
      xs.mapM f = .ok (xs.map g) := by
  intro xs
  induction xs with
  | nil => intro _; rfl
  | cons x xs ih =>
    intro h
    rw [List.mapM_cons, h x (List.mem_cons_self x xs)]
    show (xs.mapM f).bind
      (fun ys => (pure (g x :: ys) : Except PyErr (List β))) = _
    rw [ih (fun u hu => h u (List.mem_cons_of_mem x hu))]
    rfl

/-- **Per-segment compact round trip**: a fully-typed segment renders to a
non-empty dot-free compact text that `parse_cuid` reads back as the
segment's untyped textualization. -/
theorem c3_segment_parse (c : Cid) (h : C3Seg c) :
    cuidStrFold [] c ≠ [] ∧ ('.' : Char) ∉ cuidStrFold [] c ∧
      parseSeg (cuidStrFold [] c) = .ok (reparseSeg c) := by
  obtain ⟨n, args, tys⟩ := c
  cases args with
  | star2 => exact h.elim
  | tup vs =>
    cases vs with
    | nil =>
      cases tys with
      | none => exact h.elim
      | some tys' =>
        cases tys' with
        | cons tc tcs => exact h.elim
        | nil =>
          have hgn : GoodName n := h
          refine ⟨hgn.1, hgn.2.1, ?_⟩
          obtain ⟨last, hg, hlast⟩ := getLast?_ne_rb n hgn.1 hgn.2.2.2.2
          rw [show cuidStrFold [] ⟨n, .tup [], some []⟩ = n from rfl,
            parseSeg_eq n last hg hlast,
            pySplitOnce_no_sep n ':' hgn.2.2.1]
          rfl
    | cons v vs' =>
      cases vs' with
      | cons v2 vs'' =>
        cases v with
        | vInt z => exact False.elim h
        | vStr s => exact False.elim h
        | vNone => exact False.elim h
        | vEllipsis => exact False.elim h
        | vSlice a b c' => exact False.elim h
        | vTuple ws => exact False.elim h
      | nil =>
        cases tys with
        | none =>
          cases v with
          | vInt z => exact h.elim
          | vStr s => exact h.elim
          | vNone => exact h.elim
          | vEllipsis => exact h.elim
          | vSlice a b c' => exact h.elim
          | vTuple ws => exact h.elim
        | some tys' =>
          have hpiece : ∃ piece : PStr, strValPiece v = piece ∧ piece ≠ [] ∧
              (∀ ch ∈ piece, ch ≠ '.' ∧ ch ≠ ',' ∧ ch ≠ ']' ∧ ch ≠ '[') ∧
              parseVal piece = .ok (.vStr piece, '.') ∧
              piece = pyStr v ∧ piece ≠ ['*', '*'] := by
            cases v with
            | vInt z =>
              obtain ⟨ch, rest, he, hch⟩ := intRepr_head z
              refine ⟨intRepr z, ?_, by rw [he]; exact List.cons_ne_nil _ _,
                ?_, parseVal_intRepr z, rfl, ?_⟩
              · show (if intRepr z = [] then ['*'] else intRepr z) = intRepr z
                rw [if_neg (by rw [he]; exact List.cons_ne_nil _ _)]
              · intro ch2 hch2
                have h1 := intRepr_clean z ch2 hch2
                refine ⟨h1.1, h1.2.1, h1.2.2, ?_⟩
                rcases intRepr_chars z ch2 hch2 with rfl | ⟨d, hd, rfl⟩
                · decide
                · exact (digitChar_ne_keys d hd).2
              · rw [he]
                intro hh
                have := (List.cons.inj hh).1
                rcases hch with rfl | ⟨d, hd, rfl⟩
                · exact absurd this (by decide)
                · exact absurd this (by
                    have := (digitChar_ne_keys d hd).1
                    intro h2
                    exact this (by rw [h2]; decide))
            | vStr s =>
              have hs : C3Str s := by
                cases tys' with
                | nil => exact h.elim
                | cons tc tcs =>
                  cases tcs with
                  | cons tc2 tcs' => exact h.elim
                  | nil => exact h.2.2
              cases s with
              | nil => exact hs.elim
              | cons ch rest =>
                refine ⟨ch :: rest, ?_, List.cons_ne_nil _ _, ?_,
                  parseVal_untyped ch rest hs.1, rfl, ?_⟩
                · show (if (ch :: rest : PStr) = [] then ['*'] else ch :: rest)
                    = ch :: rest
                  rw [if_neg (List.cons_ne_nil _ _)]
                · intro ch2 hch2
                  exact ⟨fun hh => hs.2.1 (hh ▸ hch2),
                    fun hh => hs.2.2.1 (hh ▸ hch2),
                    fun hh => hs.2.2.2.1 (hh ▸ hch2),
                    fun hh => hs.2.2.2.2.1 (hh ▸ hch2)⟩
                · intro hh
                  have := (List.cons.inj hh).1
                  exact hs.1 (by rw [this]; decide)
            | vNone =>
              cases tys' with
              | nil => exact h.elim
              | cons tc tcs =>
                cases tcs with
                | cons tc2 tcs' => exact h.elim
                | nil => exact h.elim
            | vEllipsis =>
              cases tys' with
              | nil => exact h.elim
              | cons tc tcs =>
                cases tcs with
                | cons tc2 tcs' => exact h.elim
                | nil => exact h.elim
            | vSlice a b c' =>
              cases tys' with
              | nil => exact h.elim
              | cons tc tcs =>
                cases tcs with
                | cons tc2 tcs' => exact h.elim
                | nil => exact h.elim
            | vTuple ws =>
              cases tys' with
              | nil => exact h.elim
              | cons tc tcs =>
                cases tcs with
                | cons tc2 tcs' => exact h.elim
                | nil => exact h.elim
          obtain ⟨piece, hsv, hpne, hpch, hpv, hptext, hpstar⟩ := hpiece
          have hgn : GoodName n := by
            cases v with
            | vInt z =>
              cases tys' with
              | nil => exact h.elim
              | cons tc tcs =>
                cases tcs with
                | cons tc2 tcs' => exact h.elim
                | nil => exact h.2
            | vStr s =>
              cases tys' with
              | nil => exact h.elim
              | cons tc tcs =>
                cases tcs with
                | cons tc2 tcs' => exact h.elim
                | nil => exact h.2.1
            | vNone => exact h.elim
            | vEllipsis => exact h.elim
            | vSlice a b c' => exact h.elim
            | vTuple ws => exact h.elim
          have htext : cuidStrFold [] ⟨n, .tup [v], some tys'⟩ =
              (n ++ '[' :: piece) ++ [']'] := by
            show n ++ '[' :: (pyJoin ',' ([v].map strValPiece) ++ [']']) =
              (n ++ '[' :: piece) ++ [']']
            rw [show ([v].map strValPiece) = [strValPiece v] from rfl,
              pyJoin_single, hsv, List.append_assoc]
            rfl
          rw [htext]
          refine ⟨?_, ?_, ?_⟩
          · intro hemp
            rcases List.append_eq_nil.mp hemp with ⟨h1, _⟩
            rcases List.append_eq_nil.mp h1 with ⟨h2, _⟩
            exact hgn.1 h2
          · intro hmem
            rcases List.mem_append.mp hmem with h1 | h1
            · rcases List.mem_append.mp h1 with h2 | h2
              · exact hgn.2.1 h2
              · rcases List.mem_cons.mp h2 with h3 | h3
                · exact absurd h3 (by decide)
                · exact (hpch '.' h3).1 rfl
            · rcases List.mem_cons.mp h1 with h3 | h3
              · exact absurd h3 (by decide)
              · exact absurd h3 (List.not_mem_nil _)
          · rw [parseSeg_concat_rb,
              pySplitOnce_append n piece '[' hgn.2.2.2.1]
            show (do
              let parsed ← (pySplit piece ',').mapM parseVal
              let vals := parsed.map Prod.fst
              if vals = [PyVal.vStr ['*', '*']] then
                (Except.ok ⟨n, .star2, none⟩ : Except PyErr Cid)
              else Except.ok ⟨n, .tup vals, some (parsed.map Prod.snd)⟩) = _
            rw [pySplit_no_sep piece ','
                (fun hm => (hpch ',' hm).2.1 rfl)]
            have hm1 : ([piece] : List PStr).mapM parseVal =
                .ok [(PyVal.vStr piece, '.')] := by
              rw [List.mapM_cons, hpv]
              rfl
            rw [hm1]
            show ((Except.ok ([(PyVal.vStr piece, '.')]) :
                Except PyErr (List (PyVal × Char))).bind (fun parsed =>
              if parsed.map Prod.fst = [PyVal.vStr ['*', '*']] then
                (Except.ok ⟨n, .star2, none⟩ : Except PyErr Cid)
              else Except.ok ⟨n, .tup (parsed.map Prod.fst),
                some (parsed.map Prod.snd)⟩)) = _
            rw [exceptOkBind]
            show (if [PyVal.vStr piece] = [PyVal.vStr ['*', '*']] then
                (Except.ok ⟨n, .star2, none⟩ : Except PyErr Cid)
              else Except.ok ⟨n, .tup [PyVal.vStr piece], some ['.']⟩) = _
            rw [if_neg (fun hh => hpstar
              (PyVal.vStr.inj ((List.cons.inj hh).1)))]
            show Except.ok ⟨n, .tup [PyVal.vStr piece], some ['.']⟩ =
              Except.ok (reparseSeg ⟨n, .tup [v], some tys'⟩)
            rw [show reparseSeg ⟨n, .tup [v], some tys'⟩ =
              ⟨n, .tup [.vStr (pyStr v)], some ['.']⟩ from rfl, hptext]

/-- With a non-empty accumulator, one `__str__` step appends a dot and the
segment's own text. -/
theorem cuidStrFold_append (a name : PStr) (args : CArgs)
    (types : Option (List Char)) (ha : a ≠ []) :
    cuidStrFold a ⟨name, args, types⟩ =
      a ++ '.' :: cuidStrFold [] ⟨name, args, types⟩ := by
  cases types with
  | none =>
    show (if a = [] then name else a ++ '.' :: name) ++ "[**]".toList =
      a ++ '.' :: (name ++ "[**]".toList)
    rw [if_neg ha, List.append_assoc]
    rfl
  | some tys =>
    show (if CArgs.len args = 0 then
            (if a = [] then name else a ++ '.' :: name)
          else (if a = [] then name else a ++ '.' :: name) ++
            '[' :: (pyJoin ',' ((CArgs.vals args).map strValPiece) ++ [']'])) =
      a ++ '.' :: (if CArgs.len args = 0 then name
        else name ++
          '[' :: (pyJoin ',' ((CArgs.vals args).map strValPiece) ++ [']']))
    by_cases hl : CArgs.len args = 0
    · rw [if_pos hl, if_pos hl, if_neg ha]
    · rw [if_neg hl, if_neg hl, if_neg ha, List.append_assoc]
      rfl

/-- The `__str__` accumulation from a non-empty accumulated prefix: each
segment contributes a dot and its own compact text. -/
theorem foldl_strFold_acc : ∀ (cs : List Cid) (a : PStr), a ≠ [] →
    cs.foldl cuidStrFold a = a ++ dotTail (cs.map (cuidStrFold [])) := by
  intro cs
  induction cs with
  | nil =>
    intro a _
    show a = a ++ dotTail []
    rw [show dotTail [] = [] from rfl, List.append_nil]
  | cons c cs' ih =>
    intro a ha
    rw [List.foldl_cons]
    obtain ⟨name, args, types⟩ := c
    rw [cuidStrFold_append a name args types ha]
    rw [ih (a ++ '.' :: cuidStrFold [] ⟨name, args, types⟩) (by simp)]
    show (a ++ '.' :: cuidStrFold [] ⟨name, args, types⟩) ++
        dotTail (cs'.map (cuidStrFold [])) =
      a ++ '.' :: (cuidStrFold [] ⟨name, args, types⟩ ++
        dotTail (cs'.map (cuidStrFold [])))
    rw [List.append_assoc]
    rfl

/-- **Compact serialization re-parses untyped**: a non-empty identifier of
fully-typed segments renders through `__str__` to a text that `parse_cuid`
reads back as the untyped textualization of each segment. -/
theorem parseCuid_cuidStr (cids : List Cid) (hne : cids ≠ [])
    (h : ∀ c ∈ cids, C3Seg c) :
    parseCuid (cuidStr cids) = .ok (cids.map reparseSeg) := by
  have hcs : ∀ c ∈ cids.reverse, C3Seg c :=
    fun c hc => h c (List.mem_reverse.mp hc)
  cases hrv : cids.reverse with
  | nil =>
    refine absurd ?_ hne
    rw [← List.reverse_reverse cids, hrv]
    rfl
  | cons c0 cs' =>
    have hc0 := c3_segment_parse c0
      (hcs c0 (by rw [hrv]; exact List.mem_cons_self c0 cs'))
    have hstr : cuidStr cids = dotJoin ((c0 :: cs').map (cuidStrFold [])) := by
      show cids.reverse.foldl cuidStrFold [] = _
      rw [hrv, List.foldl_cons]
      show List.foldl cuidStrFold (cuidStrFold [] c0) cs' = _
      rw [foldl_strFold_acc cs' (cuidStrFold [] c0) hc0.1,
        List.map_cons, dotJoin_cons]
    have hdots : ∀ p ∈ (c0 :: cs').map (cuidStrFold []),
        ('.' : Char) ∉ p := by
      intro p hp
      obtain ⟨c, hcmem, rfl⟩ := List.mem_map.mp hp
      exact (c3_segment_parse c (hcs c (by rw [hrv]; exact hcmem))).2.1
    show ((pySplit (cuidStr cids) '.').reverse).mapM parseSeg = _
    rw [hstr, pySplit_dotJoin _ (by simp) hdots, ← hrv,
      ← List.map_reverse, List.reverse_reverse, mapM_map]
    exact mapM_ok_of_map (fun c => parseSeg (cuidStrFold [] c)) reparseSeg
      cids (fun c hc => (c3_segment_parse c (h c hc)).2.2)

/-- `_checkIntArgs` at a single untyped position: first the `int` cast of
the original value (whose failure on non-numeric strings is the caught
`ValueError`, and whose `TypeError` propagates), then the `str` cast, then
the `slice` cast; with no further untyped positions each recursive call is
a plain keyed lookup, and the first successful lookup wins. -/
theorem checkIntArgs_single (t : Tree) (c : Path) (vals : List PyVal) (i : Nat) :
    checkIntArgs t c vals [i] =
      (castInt (vals.getD i .vNone)).bind (fun c1 => Except.ok (
        (match c1 with
         | some v => pyGetitemKey t c (normIndex (vals.set i v))
         | none => none).orElse (fun _ =>
        (pyGetitemKey t c (normIndex (vals.set i (castStr (vals.getD i .vNone))))).orElse
          (fun _ =>
            pyGetitemKey t c (normIndex (vals.set i (castSlice (vals.getD i .vNone)))))))) := by
  have e1 : checkIntArgs t c vals [i] =
      (castInt (vals.getD i .vNone)).bind (fun c1 =>
        match c1 with
        | some v =>
          (checkIntArgs t c (vals.set i v) []).bind (fun r1 =>
            match r1 with
            | some m => pure (some m)
            | none =>
              (checkIntArgs t c (vals.set i (castStr (vals.getD i .vNone))) []).bind (fun r2 =>
                match r2 with
                | some m => pure (some m)
                | none =>
                  checkIntArgs t c (vals.set i (castSlice (vals.getD i .vNone))) []))
        | none =>
          (pure none : Except PyErr (Option Path)).bind (fun r1 =>
            match r1 with
            | some m => pure (some m)
            | none =>
              (checkIntArgs t c (vals.set i (castStr (vals.getD i .vNone))) []).bind (fun r2 =>
                match r2 with
                | some m => pure (some m)
                | none =>
                  checkIntArgs t c (vals.set i (castSlice (vals.getD i .vNone))) []))) := rfl
  rw [e1]
  cases hci : castInt (vals.getD i .vNone) with
  | error e => rfl
  | ok c1 =>
    rw [exceptOkBind, exceptOkBind]
    cases c1 with
    | none =>
      show (match pyGetitemKey t c (normIndex (vals.set i (castStr (vals.getD i .vNone)))) with
            | some m => (Except.ok (some m) : Except PyErr (Option Path))
            | none =>
              Except.ok (pyGetitemKey t c
                (normIndex (vals.set i (castSlice (vals.getD i .vNone)))))) =
          Except.ok
            ((pyGetitemKey t c (normIndex (vals.set i (castStr (vals.getD i .vNone))))).orElse
              (fun _ =>
                pyGetitemKey t c (normIndex (vals.set i (castSlice (vals.getD i .vNone))))))
      cases pyGetitemKey t c (normIndex (vals.set i (castStr (vals.getD i .vNone)))) <;> rfl
    | some v =>
      show (match pyGetitemKey t c (normIndex (vals.set i v)) with
            | some m => (Except.ok (some m) : Except PyErr (Option Path))
            | none =>
              match pyGetitemKey t c (normIndex (vals.set i (castStr (vals.getD i .vNone)))) with
              | some m => Except.ok (some m)
              | none =>
                Except.ok (pyGetitemKey t c
                  (normIndex (vals.set i (castSlice (vals.getD i .vNone)))))) =
          Except.ok
            ((pyGetitemKey t c (normIndex (vals.set i v))).orElse (fun _ =>
              (pyGetitemKey t c (normIndex (vals.set i (castStr (vals.getD i .vNone))))).orElse
                (fun _ =>
                  pyGetitemKey t c (normIndex (vals.set i (castSlice (vals.getD i .vNone)))))))
      cases pyGetitemKey t c (normIndex (vals.set i v)) with
      | some m => rfl
      | none =>
        cases pyGetitemKey t c (normIndex (vals.set i (castStr (vals.getD i .vNone)))) <;> rfl

/-- A parser-safe string value text never parses as an integer. -/
theorem c3Str_parseInt {s : PStr} (h : C3Str s) :
    (pyParseInt s).isOk = false := by
  cases s with
  | nil => exact False.elim h
  | cons c rest => exact h.2.2.2.2.2.1

/-- **Resolution ignores the compact re-typing**: on a well-formed tree
with no numeric-text string keys, the per-segment loop of `find_component`
resolves the untyped re-parse of a fully-typed segment list exactly as the
original list, from every starting path.  The direct lookup of an integer's
decimal text misses, the coercion search's `int` cast restores the integer
key, and its `str` and `slice` casts can never hit. -/
theorem findLoop_c3_equiv (t : Tree) (hwf : TreeWF t)
    (hnn : NoNumericStrKeys t) :
    ∀ (cs : List Cid), (∀ c ∈ cs, C3Seg c) → ∀ q : Path,
      findLoop t (cs.map reparseSeg) q = findLoop t cs q := by
  intro cs
  induction cs with
  | nil => intro _ _; rfl
  | cons c cs' ih =>
    intro h q
    have hc : C3Seg c := h c (List.mem_cons_self c cs')
    have h' : ∀ u ∈ cs', C3Seg u := fun u hu => h u (List.mem_cons_of_mem c hu)
    obtain ⟨n, args, tys⟩ := c
    cases args with
    | star2 => exact False.elim hc
    | tup vs =>
      cases vs with
      | nil =>
        cases tys with
        | none => exact False.elim hc
        | some tys' =>
          cases tys' with
          | cons tc tcs => exact False.elim hc
          | nil =>
            show (match pyGetattr t q n with
                  | none => (pure none : Except PyErr (Option Path))
                  | some cp => findLoop t (cs'.map reparseSeg) cp) =
                 (match pyGetattr t q n with
                  | none => pure none
                  | some cp => findLoop t cs' cp)
            cases pyGetattr t q n with
            | none => rfl
            | some cp => exact ih h' cp
      | cons v vs' =>
        cases vs' with
        | cons v2 vs'' =>
          cases v with
          | vInt z => exact False.elim hc
          | vStr s => exact False.elim hc
          | vNone => exact False.elim hc
          | vEllipsis => exact False.elim hc
          | vSlice a b c' => exact False.elim hc
          | vTuple ws => exact False.elim hc
        | nil =>
          cases tys with
          | none =>
            cases v with
            | vInt z => exact False.elim hc
            | vStr s => exact False.elim hc
            | vNone => exact False.elim hc
            | vEllipsis => exact False.elim hc
            | vSlice a b c' => exact False.elim hc
            | vTuple ws => exact False.elim hc
          | some tys' =>
            cases v with
            | vNone =>
              cases tys' with
              | nil => exact False.elim hc
              | cons tc tcs =>
                cases tcs with
                | cons tc2 tcs' => exact False.elim hc
                | nil => exact False.elim hc
            | vEllipsis =>
              cases tys' with
              | nil => exact False.elim hc
              | cons tc tcs =>
                cases tcs with
                | cons tc2 tcs' => exact False.elim hc
                | nil => exact False.elim hc
            | vSlice a b c' =>
              cases tys' with
              | nil => exact False.elim hc
              | cons tc tcs =>
                cases tcs with
                | cons tc2 tcs' => exact False.elim hc
                | nil => exact False.elim hc
            | vTuple ws =>
              cases tys' with
              | nil => exact False.elim hc
              | cons tc tcs =>
                cases tcs with
                | cons tc2 tcs' => exact False.elim hc
                | nil => exact False.elim hc
            | vInt z =>
              cases tys' with
              | nil => exact False.elim hc
              | cons tc tcs =>
                cases tcs with
                | cons tc2 tcs' => exact False.elim hc
                | nil =>
                  obtain ⟨rfl, hgn⟩ := hc
                  show (match pyGetattr t q n with
                        | none => (pure none : Except PyErr (Option Path))
                        | some cp =>
                          match pyGetitemKey t cp (.vStr (intRepr z)) with
                          | some m => findLoop t (cs'.map reparseSeg) m
                          | none => do
                            let r ← checkIntArgs t cp [.vStr (intRepr z)] [0]
                            match r with
                            | some m => findLoop t (cs'.map reparseSeg) m
                            | none => pure none) =
                       (match pyGetattr t q n with
                        | none => pure none
                        | some cp =>
                          match pyGetitemKey t cp (.vInt z) with
                          | some m => findLoop t cs' m
                          | none => pure none)
                  cases pyGetattr t q n with
                  | none => rfl
                  | some cp =>
                    show (match pyGetitemKey t cp (PyVal.vStr (intRepr z)) with
                          | some m => findLoop t (cs'.map reparseSeg) m
                          | none => do
                            let r ← checkIntArgs t cp [.vStr (intRepr z)] [0]
                            match r with
                            | some m => findLoop t (cs'.map reparseSeg) m
                            | none => (pure none : Except PyErr (Option Path))) =
                         (match pyGetitemKey t cp (PyVal.vInt z) with
                          | some m => findLoop t cs' m
                          | none => pure none)
                    have hci : castInt (.vStr (intRepr z)) =
                        .ok (some (.vInt z)) := by
                      show (match pyParseInt (intRepr z) with
                            | Except.ok z2 => (Except.ok (some (PyVal.vInt z2))
                                : Except PyErr (Option PyVal))
                            | Except.error e => Except.ok none) = _
                      rw [pyParseInt_intRepr]
                    have hchk : checkIntArgs t cp [.vStr (intRepr z)] [0] =
                        Except.ok (pyGetitemKey t cp (.vInt z)) := by
                      rw [checkIntArgs_single,
                        show ([PyVal.vStr (intRepr z)].getD 0 PyVal.vNone)
                          = PyVal.vStr (intRepr z) from rfl,
                        hci, exceptOkBind]
                      show Except.ok
                          ((pyGetitemKey t cp (PyVal.vInt z)).orElse (fun _ =>
                            (pyGetitemKey t cp
                                (PyVal.vStr (intRepr z))).orElse (fun _ =>
                              pyGetitemKey t cp (PyVal.vSlice .vNone
                                (.vStr (intRepr z)) .vNone)))) = _
                      rw [pyGetitemKey_intText_none hnn cp z,
                        pyGetitemKey_slice_none hwf cp]
                      cases pyGetitemKey t cp (PyVal.vInt z) <;> rfl
                    rw [pyGetitemKey_intText_none hnn cp z, hchk]
                    show (match pyGetitemKey t cp (PyVal.vInt z) with
                          | some m => findLoop t (cs'.map reparseSeg) m
                          | none => (pure none : Except PyErr (Option Path))) = _
                    cases pyGetitemKey t cp (PyVal.vInt z) with
                    | none => rfl
                    | some m => exact ih h' m
            | vStr s =>
              cases tys' with
              | nil => exact False.elim hc
              | cons tc tcs =>
                cases tcs with
                | cons tc2 tcs' => exact False.elim hc
                | nil =>
                  obtain ⟨rfl, hgn, hc3⟩ := hc
                  show (match pyGetattr t q n with
                        | none => (pure none : Except PyErr (Option Path))
                        | some cp =>
                          match pyGetitemKey t cp (.vStr s) with
                          | some m => findLoop t (cs'.map reparseSeg) m
                          | none => do
                            let r ← checkIntArgs t cp [.vStr s] [0]
                            match r with
                            | some m => findLoop t (cs'.map reparseSeg) m
                            | none => pure none) =
                       (match pyGetattr t q n with
                        | none => pure none
                        | some cp =>
                          match pyGetitemKey t cp (.vStr s) with
                          | some m => findLoop t cs' m
                          | none => pure none)
                  cases pyGetattr t q n with
                  | none => rfl
                  | some cp =>
                    show (match pyGetitemKey t cp (PyVal.vStr s) with
                          | some m => findLoop t (cs'.map reparseSeg) m
                          | none => do
                            let r ← checkIntArgs t cp [.vStr s] [0]
                            match r with
                            | some m => findLoop t (cs'.map reparseSeg) m
                            | none => (pure none : Except PyErr (Option Path))) =
                         (match pyGetitemKey t cp (PyVal.vStr s) with
                          | some m => findLoop t cs' m
                          | none => pure none)
                    have hq := c3Str_parseInt hc3
                    have hcie : castInt (.vStr s) = .ok none := by
                      show (match pyParseInt s with
                            | Except.ok z2 => (Except.ok (some (PyVal.vInt z2))
                                : Except PyErr (Option PyVal))
                            | Except.error e => Except.ok none) = _
                      cases hpi : pyParseInt s with
                      | ok z2 =>
                        rw [hpi] at hq
                        exact Bool.noConfusion hq
                      | error e => rfl
                    cases hpl : pyGetitemKey t cp (PyVal.vStr s) with
                    | some m => exact ih h' m
                    | none =>
                      have hchk : checkIntArgs t cp [.vStr s] [0] =
                          Except.ok none := by
                        rw [checkIntArgs_single,
                          show ([PyVal.vStr s].getD 0 PyVal.vNone)
                            = PyVal.vStr s from rfl,
                          hcie, exceptOkBind]
                        show Except.ok ((none : Option Path).orElse
                            (fun _ =>
                              (pyGetitemKey t cp (PyVal.vStr s)).orElse
                                (fun _ => pyGetitemKey t cp
                                  (PyVal.vSlice .vNone (.vStr s) .vNone)))) = _
                        rw [hpl, pyGetitemKey_slice_none hwf cp]
                        rfl
                      rw [hchk]
                      rfl

/-! ## Claim C3: compact round trip on the fully-typed subset -/

/-- **C3** (counterexample): the fully-typed identifier `x[3]` (integer key,
type `#`, no untyped position) resolves on `treeB` to the integer-keyed
member, but its compact serialization `x[3]` re-parses untyped and the
direct literal-text lookup now finds the string-keyed member `"3"` first:
the two resolutions return different objects. -/
theorem c3_compact_roundtrip_cex :
    ('.' : Char) ∉ ['#'] ∧
    cuidStr [(⟨lc "x", .tup [.vInt 3], some ['#']⟩ : Cid)] = lc "x[3]" ∧
    parseCuid (lc "x[3]") =
      .ok [⟨lc "x", .tup [.vStr (lc "3")], some ['.']⟩] ∧
    findComponent treeB [(⟨lc "x", .tup [.vInt 3], some ['#']⟩ : Cid)] [] =
      .ok (some [.sItem (.vInt 3), .sAttr (lc "x")]) ∧
    findComponent treeB [(⟨lc "x", .tup [.vStr (lc "3")], some ['.']⟩ : Cid)] [] =
      .ok (some [.sItem (.vStr (lc "3")), .sAttr (lc "x")]) ∧
    (some [Step.sItem (.vInt 3), .sAttr (lc "x")] ≠
      some [Step.sItem (.vStr (lc "3")), .sAttr (lc "x")]) :=
  ⟨by decide, by decide, by decide, by decide, by decide, by decide⟩

/-- **C3** (amended): the compact round trip preserves resolution once the
tree cannot confuse the coercion search: on a well-formed tree none of
whose string keys is numeric text, every non-empty identifier of
fully-typed parser-safe segments (a scalar segment, or one `#`-typed
integer or `$`-typed separator-free non-numeric string position)
serializes compactly to a text that re-parses (untyped) and resolves, from
every root, to exactly the object the original identifier resolves to. -/
theorem c3_compact_roundtrip (t : Tree) (cids : List Cid) (root : Path)
    (hwf : TreeWF t) (hnn : NoNumericStrKeys t)
    (hne : cids ≠ []) (h : ∀ c ∈ cids, C3Seg c) :
    ∃ rcids, parseCuid (cuidStr cids) = .ok rcids ∧
      findComponent t rcids root = findComponent t cids root := by
  refine ⟨cids.map reparseSeg, parseCuid_cuidStr cids hne h, ?_⟩
  show findLoop t (cids.map reparseSeg).reverse root =
    findLoop t cids.reverse root
  rw [← List.map_reverse]
  exact findLoop_c3_equiv t hwf hnn cids.reverse
    (fun c hc => h c (List.mem_reverse.mp hc)) root

/-- The amended C3 round trip at a concrete instance: the identifier
`x[2]` on `treeA`, from the root block. -/
theorem c3_compact_roundtrip_witness :
    TreeWF treeA ∧ NoNumericStrKeys treeA ∧
    ([(⟨lc "x", .tup [.vInt 2], some ['#']⟩ : Cid)] ≠ ([] : List Cid)) ∧
    (∀ c ∈ [(⟨lc "x", .tup [.vInt 2], some ['#']⟩ : Cid)], C3Seg c) ∧
    ∃ rcids,
      parseCuid (cuidStr [(⟨lc "x", .tup [.vInt 2], some ['#']⟩ : Cid)]) =
        .ok rcids ∧
      findComponent treeA rcids [] =
        findComponent treeA [(⟨lc "x", .tup [.vInt 2], some ['#']⟩ : Cid)] [] :=
  ⟨by decide, by decide, by decide, by decide,
    c3_compact_roundtrip treeA [⟨lc "x", .tup [.vInt 2], some ['#']⟩] []
      (by decide) (by decide) (by decide) (by decide)⟩

/-! ## Claim C1: matcher/enumerator consistency -/

/-- A pattern value `matches` and `_list_components` treat alike at one
index position: an integer or string (any type character), or a slice at a
position that is not untyped (a slice under `.` would reach `int()` and
raise `TypeError` in both). -/
def C1Val (tc : Char) (v : PyVal) : Prop :=
  match v with
  | .vInt _ => True
  | .vStr _ => True
  | .vSlice _ _ _ => tc ≠ '.'
  | _ => False

instance : (tc : Char) → (v : PyVal) → Decidable (C1Val tc v)
  | _, .vInt _ => isTrue trivial
  | _, .vStr _ => isTrue trivial
  | tc, .vSlice _ _ _ => inferInstanceAs (Decidable (tc ≠ '.'))
  | _, .vNone => isFalse (fun h => h)
  | _, .vEllipsis => isFalse (fun h => h)
  | _, .vTuple _ => isFalse (fun h => h)

/-- A pattern segment of the matcher/enumerator comparison: a full
wildcard, or an indexed segment with one type character per position, each
value admissible at its position, and not the single-position slice-typed
segment `(·, (v,), '*')` (which `_list_components` accepts against a scalar
component's `None` key while `matches` rejects it by length). -/
def C1Seg : Cid → Prop
  | ⟨_, .star2, _⟩ => True
  | ⟨_, .tup vs, some tys⟩ => List.Forall₂ C1Val tys vs ∧ tys ≠ ['*']
  | ⟨_, .tup _, none⟩ => False

instance : (c : Cid) → Decidable (C1Seg c)
  | ⟨_, .star2, _⟩ => isTrue trivial
  | ⟨_, .tup _, some _⟩ => inferInstanceAs (Decidable (_ ∧ _))
  | ⟨_, .tup _, none⟩ => isFalse (fun h => h)

/-- The component values of a collection key, as `_partial_cuid_from_index`
lists them: a tuple key spreads, a scalar key stands alone. -/
def keyComps : PyVal → List PyVal
  | .vTuple ws => ws
  | v => [v]

/-- `partialIdxWF` in terms of the key components. -/
theorem partialIdxWF_comps (k : PyVal) :
    partialIdxWF k = (.tup (keyComps k), some ((keyComps k).map typeChar)) := by
  cases k <;> rfl

/-- The identifier `_generate_cuid` produces for the object at a path
(leaf-first): an attribute step yields the scalar segment
`(name, (), '')`; an item step consumes the container's attribute step too
and yields `_partial_cuid_from_index` of its key. -/
def expectedGen : Path → List Cid
  | [] => []
  | .sAttr n :: q => ⟨n, .tup [], some []⟩ :: expectedGen q
  | .sItem k :: [] => [⟨localName [], (partialIdxWF k).1, (partialIdxWF k).2⟩]
  | .sItem k :: st :: r =>
    ⟨localName (st :: r), (partialIdxWF k).1, (partialIdxWF k).2⟩ ::
      expectedGen r

/-- The generated-identifier segments of the descent from `q` down to `p`,
outermost-first: the levels `_list_components` walks. -/
inductive RelSeg (t : Tree) : Path → List Cid → Path → Prop where
  | nil (q : Path) : RelSeg t q [] q
  | attr {q : Path} {n : PStr} {gens : List Cid} {p : Path} :
      validAt t (.sAttr n :: q) = true →
      RelSeg t (.sAttr n :: q) gens p →
      RelSeg t q (⟨n, .tup [], some []⟩ :: gens) p
  | item {q : Path} {n : PStr} {k : PyVal} {gens : List Cid} {p : Path} :
      validAt t (.sItem k :: .sAttr n :: q) = true →
      RelSeg t (.sItem k :: .sAttr n :: q) gens p →
      RelSeg t q (⟨n, (partialIdxWF k).1, (partialIdxWF k).2⟩ :: gens) p

/-- `allM` respects pointwise-equal bodies. -/
theorem allM_congr {α : Type} (f g : α → Except PyErr Bool) :
    ∀ (l : List α), (∀ x ∈ l, f x = g x) → l.allM f = l.allM g := by
  intro l
  induction l with
  | nil => intro _; rfl
  | cons x xs ih =>
    intro h
    show (f x).bind (fun b => match b with
        | true => xs.allM f | false => pure false) =
      (g x).bind (fun b => match b with
        | true => xs.allM g | false => pure false)
    rw [h x (List.mem_cons_self x xs),
      ih (fun u hu => h u (List.mem_cons_of_mem x hu))]

/-- `allM` of a body that never raises never raises. -/
theorem allM_isOk {α : Type} {f : α → Except PyErr Bool} :
    ∀ {l : List α}, (∀ x ∈ l, ∃ b, f x = .ok b) →
      ∃ b, l.allM f = .ok b := by
  intro l
  induction l with
  | nil => intro _; exact ⟨true, rfl⟩
  | cons x xs ih =>
    intro h
    obtain ⟨b, hb⟩ := h x (List.mem_cons_self x xs)
    cases b with
    | false =>
      refine ⟨false, ?_⟩
      show (f x).bind (fun b => match b with
          | true => xs.allM f | false => pure false) = .ok false
      rw [hb]
      rfl
    | true =>
      obtain ⟨b', hb'⟩ := ih (fun u hu => h u (List.mem_cons_of_mem x hu))
      refine ⟨b', ?_⟩
      show (f x).bind (fun b => match b with
          | true => xs.allM f | false => pure false) = .ok b'
      rw [hb, exceptOkBind]
      exact hb'

/-- An `allM` that answers `true` answered `true` at every element. -/
theorem allM_true_mem {α : Type} {f : α → Except PyErr Bool} :
    ∀ {l : List α}, l.allM f = .ok true → ∀ x ∈ l, f x = .ok true := by
  intro l
  induction l with
  | nil => intro _ x hx; exact absurd hx (List.not_mem_nil x)
  | cons y ys ih =>
    intro h x hx
    have h' : (f y).bind (fun b => match b with
        | true => ys.allM f | false => pure false) = .ok true := h
    cases hb : f y with
    | error e =>
      rw [hb] at h'
      exact Except.noConfusion h'
    | ok b =>
      rw [hb, exceptOkBind] at h'
      cases b with
      | false => exact Bool.noConfusion (Except.ok.inj h')
      | true =>
        rcases List.mem_cons.mp hx with rfl | hm
        · exact hb
        · exact ih h' x hm

/-- An `allM` whose body never raises and answers `false` somewhere answers
`false`. -/
theorem allM_false_of_mem {α : Type} {f : α → Except PyErr Bool} :
    ∀ {l : List α}, (∀ x ∈ l, ∃ b, f x = .ok b) →
      ∀ x0 ∈ l, f x0 = .ok false → l.allM f = .ok false := by
  intro l
  induction l with
  | nil => intro _ x0 hx; exact absurd hx (List.not_mem_nil x0)
  | cons y ys ih =>
    intro h x0 hx hf
    obtain ⟨b, hb⟩ := h y (List.mem_cons_self y ys)
    show (f y).bind (fun b => match b with
        | true => ys.allM f | false => pure false) = .ok false
    rw [hb, exceptOkBind]
    rcases List.mem_cons.mp hx with rfl | hm
    · rw [hf] at hb
      rw [← Except.ok.inj hb]
      rfl
    · cases b with
      | false => rfl
      | true =>
        exact ih (fun u hu => h u (List.mem_cons_of_mem y hu)) x0 hm hf

/-- An `allM` whose body answers `true` everywhere answers `true`. -/
theorem allM_true_of {α : Type} (f : α → Except PyErr Bool) :
    ∀ (l : List α), (∀ x ∈ l, f x = .ok true) → l.allM f = .ok true := by
  intro l
  induction l with
  | nil => intro _; rfl
  | cons y ys ih =>
    intro h
    show (f y).bind (fun b => match b with
        | true => ys.allM f | false => pure false) = .ok true
    rw [h y (List.mem_cons_self y ys), exceptOkBind]
    exact ih (fun u hu => h u (List.mem_cons_of_mem y hu))

/-- A two-level `if` over `pure` never raises. -/
theorem ite_pure_ok (c1 c2 : Prop) [Decidable c1] [Decidable c2] (d : Bool) :
    ∃ b, (if c1 then (pure true : Except PyErr Bool)
      else if c2 then pure true else pure d) = .ok b := by
  by_cases h1 : c1
  · exact ⟨true, by rw [if_pos h1]; rfl⟩
  · by_cases h2 : c2
    · exact ⟨true, by rw [if_neg h1, if_pos h2]; rfl⟩
    · exact ⟨d, by rw [if_neg h1, if_neg h2]; rfl⟩

/-- The cast comparison loop of `matches` never raises on an integer or
string first argument (the `int()` of anything else would). -/
theorem castMatches_ok (v w : PyVal)
    (hv : (∃ z, v = PyVal.vInt z) ∨ (∃ s, v = PyVal.vStr s)) :
    ∃ b, castMatches v w = .ok b := by
  rcases hv with ⟨z, rfl⟩ | ⟨s, rfl⟩
  · obtain ⟨b, hb⟩ := ite_pure_ok
      ((some (PyVal.vInt z) : Option PyVal) = some w)
      (castStr (.vInt z) = w) (decide (castSlice (.vInt z) = w))
    refine ⟨b, ?_⟩
    show (Except.ok (some (PyVal.vInt z)) : Except PyErr (Option PyVal)).bind
      (fun i => if i = some w then pure true
        else if castStr (.vInt z) = w then pure true
        else pure (decide (castSlice (.vInt z) = w))) = .ok b
    rw [exceptOkBind]
    exact hb
  · cases hpi : pyParseInt s with
    | ok z =>
      have hci : castInt (.vStr s) = .ok (some (.vInt z)) := by
        show (match pyParseInt s with
              | Except.ok z2 => (Except.ok (some (PyVal.vInt z2))
                  : Except PyErr (Option PyVal))
              | Except.error e => Except.ok none) = _
        rw [hpi]
      obtain ⟨b, hb⟩ := ite_pure_ok
        ((some (PyVal.vInt z) : Option PyVal) = some w)
        (castStr (.vStr s) = w) (decide (castSlice (.vStr s) = w))
      refine ⟨b, ?_⟩
      show (castInt (.vStr s)).bind
        (fun i => if i = some w then pure true
          else if castStr (.vStr s) = w then pure true
          else pure (decide (castSlice (.vStr s) = w))) = .ok b
      rw [hci, exceptOkBind]
      exact hb
    | error e =>
      have hci : castInt (.vStr s) = .ok none := by
        show (match pyParseInt s with
              | Except.ok z2 => (Except.ok (some (PyVal.vInt z2))
                  : Except PyErr (Option PyVal))
              | Except.error e2 => Except.ok none) = _
        rw [hpi]
      obtain ⟨b, hb⟩ := ite_pure_ok
        ((none : Option PyVal) = some w)
        (castStr (.vStr s) = w) (decide (castSlice (.vStr s) = w))
      refine ⟨b, ?_⟩
      show (castInt (.vStr s)).bind
        (fun i => if i = some w then pure true
          else if castStr (.vStr s) = w then pure true
          else pure (decide (castSlice (.vStr s) = w))) = .ok b
      rw [hci, exceptOkBind]
      exact hb

/-- An admissible untyped-position value is an integer or a string. -/
theorem c1val_dot {v : PyVal} (h : C1Val '.' v) :
    (∃ z, v = PyVal.vInt z) ∨ (∃ s, v = PyVal.vStr s) := by
  cases v with
  | vInt z => exact Or.inl ⟨z, rfl⟩
  | vStr s => exact Or.inr ⟨s, rfl⟩
  | vSlice a b c => exact absurd rfl h
  | vNone => exact False.elim h
  | vEllipsis => exact False.elim h
  | vTuple ws => exact False.elim h

/-- `Forall₂` read at one position through `getD`. -/
theorem forall₂_getD {α β : Type} {R : α → β → Prop} :
    ∀ {l1 : List α} {l2 : List β}, List.Forall₂ R l1 l2 →
      ∀ j, j < l2.length → ∀ (d1 : α) (d2 : β),
        R (l1.getD j d1) (l2.getD j d2) := by
  intro l1 l2 h
  induction h with
  | nil => intro j hj _ _; exact absurd hj (Nat.not_lt_zero j)
  | cons h1 h2 ih =>
    intro j hj d1 d2
    cases j with
    | zero => exact h1
    | succ j' => exact ih j' (Nat.lt_of_succ_lt_succ hj) d1 d2

/-- Lists of equal length agreeing at every position are equal. -/
theorem list_eq_of_getD :
    ∀ {l1 l2 : List PyVal}, l1.length = l2.length →
      (∀ j, j < l1.length → l1.getD j .vNone = l2.getD j .vNone) →
      l1 = l2 := by
  intro l1
  induction l1 with
  | nil =>
    intro l2 hlen _
    cases l2 with
    | nil => rfl
    | cons y ys => exact absurd hlen (by simp)
  | cons x xs ih =>
    intro l2 hlen h
    cases l2 with
    | nil => exact absurd hlen (by simp)
    | cons y ys =>
      have h0 : x = y := h 0 (Nat.succ_pos _)
      have htl : xs = ys := by
        refine ih (Nat.succ.inj hlen) (fun j hj => ?_)
        exact h (j + 1) (Nat.succ_lt_succ hj)
      rw [h0, htl]

/-- The common per-position comparison loop of `matches` and of the
wildcard filter of `_list_components`: the pattern positions `vs` (typed
`tys`) against the generated positions `ks`. -/
def posCheck (vs : List PyVal) (tys : List Char) (ks : List PyVal) :
    Except PyErr Bool :=
  (List.range ks.length).allM (fun j =>
    if vs.getD j .vNone = ks.getD j .vNone then pure true
    else
      match tys.get? j with
      | none => .error .indexError
      | some tc =>
        if tc = '*' then pure true
        else if tc = '.' then
          castMatches (vs.getD j .vNone) (ks.getD j .vNone)
        else pure false)

/-- The comparison loop accepts identical lists. -/
theorem posCheck_refl (vs : List PyVal) (tys : List Char) :
    posCheck vs tys vs = .ok true := by
  refine allM_true_of _ _ (fun j _ => ?_)
  show (if vs.getD j .vNone = vs.getD j .vNone then (pure true : Except PyErr Bool)
    else _) = .ok true
  rw [if_pos rfl]
  rfl

/-- The comparison loop never raises on admissible patterns when the
lengths agree. -/
theorem posCheck_ok {vs ks : List PyVal} {tys : List Char}
    (hF : List.Forall₂ C1Val tys vs) (hlen : ks.length = vs.length) :
    ∃ b, posCheck vs tys ks = .ok b := by
  refine allM_isOk (fun j hj => ?_)
  rw [List.mem_range] at hj
  have hjv : j < vs.length := hlen ▸ hj
  have hjt : j < tys.length := by rw [hF.length_eq]; exact hjv
  by_cases he : vs.getD j .vNone = ks.getD j .vNone
  · refine ⟨true, ?_⟩
    show (if vs.getD j .vNone = ks.getD j .vNone then (pure true : Except PyErr Bool)
      else _) = .ok true
    rw [if_pos he]
    rfl
  · obtain ⟨tc, htc⟩ : ∃ tc, tys.get? j = some tc := by
      cases hg : tys.get? j with
      | none => exact absurd (List.get?_eq_none.mp hg) (Nat.not_le_of_lt hjt)
      | some tc => exact ⟨tc, rfl⟩
    have htd : tys.getD j ' ' = tc := by
      rw [List.getD_eq_get?, htc]
      rfl
    have hcv : C1Val tc (vs.getD j .vNone) := by
      have := forall₂_getD hF j hjv ' ' .vNone
      rw [htd] at this
      exact this
    show ∃ b, (if vs.getD j .vNone = ks.getD j .vNone then (pure true : Except PyErr Bool)
      else match tys.get? j with
        | none => .error .indexError
        | some tc =>
          if tc = '*' then pure true
          else if tc = '.' then
            castMatches (vs.getD j .vNone) (ks.getD j .vNone)
          else pure false) = .ok b
    rw [if_neg he, htc]
    show ∃ b, (if tc = '*' then (pure true : Except PyErr Bool)
      else if tc = '.' then
        castMatches (vs.getD j .vNone) (ks.getD j .vNone)
      else pure false) = .ok b
    by_cases h1 : tc = '*'
    · exact ⟨true, by rw [if_pos h1]; rfl⟩
    · by_cases h2 : tc = '.'
      · obtain ⟨b, hb⟩ := castMatches_ok (vs.getD j .vNone) (ks.getD j .vNone)
          (c1val_dot (h2 ▸ hcv))
        exact ⟨b, by rw [if_neg h1, if_pos h2]; exact hb⟩
      · exact ⟨false, by rw [if_neg h1, if_neg h2]; rfl⟩

/-- With no wildcard and no untyped position, the comparison loop is exact
equality of the position lists. -/
theorem posCheck_concrete {vs ks : List PyVal} {tys : List Char}
    (hF : List.Forall₂ C1Val tys vs) (hlen : ks.length = vs.length)
    (hstar : ('*' : Char) ∉ tys) (hdot : ('.' : Char) ∉ tys) :
    (posCheck vs tys ks = .ok true ↔ ks = vs) := by
  constructor
  · intro h
    have hmem := allM_true_mem h
    refine list_eq_of_getD (by rw [hlen]) (fun j hj => ?_)
    have hb : (if vs.getD j .vNone = ks.getD j .vNone then (pure true : Except PyErr Bool)
        else match tys.get? j with
          | none => .error .indexError
          | some tc =>
            if tc = '*' then pure true
            else if tc = '.' then
              castMatches (vs.getD j .vNone) (ks.getD j .vNone)
            else pure false) = .ok true :=
      hmem j (List.mem_range.mpr hj)
    by_cases he : vs.getD j .vNone = ks.getD j .vNone
    · exact he.symm ▸ rfl
    · exfalso
      have hjt : j < tys.length := by
        rw [hF.length_eq, ← hlen]
        exact hj
      obtain ⟨tc, htc⟩ : ∃ tc, tys.get? j = some tc := by
        cases hg : tys.get? j with
        | none => exact absurd (List.get?_eq_none.mp hg) (Nat.not_le_of_lt hjt)
        | some tc => exact ⟨tc, rfl⟩
      have hmem2 : tc ∈ tys := List.get?_mem htc
      rw [if_neg he, htc] at hb
      have hb2 : (if tc = '*' then (pure true : Except PyErr Bool)
          else if tc = '.' then
            castMatches (vs.getD j .vNone) (ks.getD j .vNone)
          else pure false) = .ok true := hb
      rw [if_neg (fun hh : tc = '*' => hstar (hh ▸ hmem2)),
        if_neg (fun hh : tc = '.' => hdot (hh ▸ hmem2))] at hb2
      exact Bool.noConfusion (Except.ok.inj hb2)
  · intro h
    rw [h]
    exact posCheck_refl vs tys

/-- The common segment comparison: shortcut on equal position lists, reject
on differing lengths, otherwise the per-position loop. -/
def segCheck (vs : List PyVal) (tys : List Char) (ks : List PyVal) :
    Except PyErr Bool :=
  if ks = vs then .ok true
  else if ks.length ≠ vs.length then .ok false
  else posCheck vs tys ks

/-- A segment accepted by `matches` carries the candidate's name. -/
theorem matchSeg_names {pat g : Cid} (h : matchSeg pat g = .ok true) :
    pat.name = g.name := by
  by_cases hn : pat.name = g.name
  · exact hn
  · exfalso
    unfold matchSeg at h
    rw [if_pos hn] at h
    exact Bool.noConfusion (Except.ok.inj h)

/-- `matches` rejects a segment over the wrong name. -/
theorem matchSeg_ne_names {pat g : Cid} (h : pat.name ≠ g.name) :
    matchSeg pat g = .ok false := by
  unfold matchSeg
  rw [if_pos h]
  rfl

/-- A full-wildcard pattern segment accepts any generated segment of the
same name. -/
theorem matchSeg_star2 {nm : PStr} (tys : Option (List Char)) {g : Cid}
    (h : g.name = nm) : matchSeg ⟨nm, .star2, tys⟩ g = .ok true := by
  unfold matchSeg
  rw [if_neg (fun hh => hh h.symm), if_pos (Or.inl rfl)]
  rfl

/-- The indexed-pattern segment comparison of `matches` is the common
segment comparison, after the name test. -/
theorem matchSeg_segCheck (nm nm' : PStr) (vs ks : List PyVal)
    (tys : List Char) (gtys : Option (List Char)) :
    matchSeg ⟨nm, .tup vs, some tys⟩ ⟨nm', .tup ks, gtys⟩ =
      if nm ≠ nm' then .ok false else segCheck vs tys ks := by
  unfold segCheck
  show (if nm ≠ nm' then (pure false : Except PyErr Bool)
      else if CArgs.tup vs = .star2 ∨ CArgs.tup ks = .tup vs then pure true
      else if (CArgs.tup ks).len ≠ (CArgs.tup vs).len then pure false
      else (List.range (CArgs.tup ks).len).allM
        (fun j => matchPos (.tup ks) (.tup vs) (some tys) j)) = _
  by_cases hn : nm = nm'
  · rw [if_neg (show ¬ nm ≠ nm' from fun hh => hh hn),
      if_neg (show ¬ nm ≠ nm' from fun hh => hh hn)]
    by_cases hk : ks = vs
    · rw [if_pos (show CArgs.tup vs = CArgs.star2 ∨ CArgs.tup ks = CArgs.tup vs
          from Or.inr (by rw [hk])), if_pos hk]
      rfl
    · rw [if_neg (show ¬ (CArgs.tup vs = CArgs.star2 ∨
          CArgs.tup ks = CArgs.tup vs) from fun hh =>
          hh.elim (fun h1 => CArgs.noConfusion h1)
            (fun h2 => hk (CArgs.tup.inj h2))), if_neg hk]
      by_cases hl : ks.length = vs.length
      · rw [if_neg (show ¬ (CArgs.tup ks).len ≠ (CArgs.tup vs).len
            from fun hh => hh hl),
          if_neg (show ¬ ks.length ≠ vs.length from fun hh => hh hl)]
        show (List.range ks.length).allM
            (fun j => matchPos (.tup ks) (.tup vs) (some tys) j) =
          posCheck vs tys ks
        refine allM_congr _ _ _ (fun j _ => ?_)
        show (if CArgs.get (.tup ks) j = CArgs.get (.tup vs) j then
              (pure true : Except PyErr Bool)
            else match tys.get? j with
              | none => .error .indexError
              | some tc =>
                if tc = '*' then pure true
                else if tc = '.' then
                  castMatches (CArgs.get (.tup vs) j) (CArgs.get (.tup ks) j)
                else pure false) =
          (if vs.getD j .vNone = ks.getD j .vNone then
              (pure true : Except PyErr Bool)
            else match tys.get? j with
              | none => .error .indexError
              | some tc =>
                if tc = '*' then pure true
                else if tc = '.' then
                  castMatches (vs.getD j .vNone) (ks.getD j .vNone)
                else pure false)
        by_cases he : vs.getD j .vNone = ks.getD j .vNone
        · rw [if_pos he, if_pos (show CArgs.get (.tup ks) j
            = CArgs.get (.tup vs) j from he.symm)]
        · rw [if_neg he, if_neg (show ¬ CArgs.get (.tup ks) j
            = CArgs.get (.tup vs) j from fun hh => he hh.symm)]
          rfl
      · rw [if_pos (show (CArgs.tup ks).len ≠ (CArgs.tup vs).len from hl),
          if_pos hl]
        rfl
  · rw [if_pos (show nm ≠ nm' from hn), if_pos (show nm ≠ nm' from hn)]
    rfl

/-- The wildcard filter of `_list_components` evaluates to the per-position
loop after a length test. -/
theorem enumKeep_posCheck {k : PyVal} (hk : keyWF k = true)
    (vs : List PyVal) (tys : List Char) :
    enumKeep vs tys k =
      if vs.length ≠ (keyComps k).length then .ok false
      else posCheck vs tys (keyComps k) := by
  have hpr : partialFromIndex k = .ok (.tup (keyComps k),
      some ((keyComps k).map typeChar)) := by
    rw [partialFromIndex_keyWF hk, partialIdxWF_comps]
  show (partialFromIndex k).bind (fun pr =>
      if vs.length ≠ pr.1.len then pure false
      else (List.range vs.length).allM (fun j =>
        if vs.getD j .vNone = pr.1.get j then pure true
        else match tys.get? j with
          | none => Except.error PyErr.indexError
          | some tc =>
            if tc = '*' then pure true
            else if tc = '.' then
              castMatches (vs.getD j .vNone) (pr.1.get j)
            else pure false)) = _
  rw [hpr, exceptOkBind]
  show (if vs.length ≠ (keyComps k).length then (pure false : Except PyErr Bool)
      else (List.range vs.length).allM (fun j =>
        if vs.getD j .vNone = (keyComps k).getD j .vNone then pure true
        else match tys.get? j with
          | none => Except.error PyErr.indexError
          | some tc =>
            if tc = '*' then pure true
            else if tc = '.' then
              castMatches (vs.getD j .vNone) ((keyComps k).getD j .vNone)
            else pure false)) = _
  by_cases hl : vs.length = (keyComps k).length
  · rw [if_neg (show ¬ vs.length ≠ (keyComps k).length from fun hh => hh hl),
      if_neg (show ¬ vs.length ≠ (keyComps k).length from fun hh => hh hl),
      hl]
    rfl
  · rw [if_pos (show vs.length ≠ (keyComps k).length from hl),
      if_pos (show vs.length ≠ (keyComps k).length from hl)]
    rfl

/-- The keep decision of `_list_components` for one member key is the
common segment comparison of the pattern against the key's components. -/
theorem keepFor_segCheck {k : PyVal} (hk : keyWF k = true)
    (vs : List PyVal) (tys : List Char) :
    keepFor (.tup vs) (some tys) k = segCheck vs tys (keyComps k) := by
  have he := enumKeep_posCheck hk vs tys
  cases k with
  | vTuple ws =>
    rw [show keyComps (PyVal.vTuple ws) = ws from rfl] at he ⊢
    show (if PyVal.vTuple vs = .vTuple ws then (pure true : Except PyErr Bool)
          else enumKeep vs tys (.vTuple ws)) = segCheck vs tys ws
    unfold segCheck
    by_cases heq : ws = vs
    · rw [if_pos (by rw [heq]), if_pos heq]
      rfl
    · rw [if_neg (fun hh => heq (PyVal.vTuple.inj hh).symm), he, if_neg heq]
      by_cases hl : vs.length = ws.length
      · rw [if_neg (show ¬ vs.length ≠ ws.length from fun hh => hh hl),
          if_neg (show ¬ ws.length ≠ vs.length from fun hh => hh hl.symm)]
      · rw [if_pos (show vs.length ≠ ws.length from hl),
          if_pos (show ws.length ≠ vs.length from fun hh => hl hh.symm)]
  | vInt z =>
    rw [show keyComps (PyVal.vInt z) = [PyVal.vInt z] from rfl] at he ⊢
    show (if PyVal.vTuple vs = .vInt z then (pure true : Except PyErr Bool)
          else enumKeep vs tys (.vInt z)) = segCheck vs tys [.vInt z]
    rw [if_neg (fun hh => PyVal.noConfusion hh), he]
    unfold segCheck
    by_cases heq : ([PyVal.vInt z] : List PyVal) = vs
    · rw [if_pos heq, ← heq,
        if_neg (show ¬ ([PyVal.vInt z] : List PyVal).length ≠
          ([PyVal.vInt z] : List PyVal).length from fun hh => hh rfl)]
      exact posCheck_refl _ _
    · rw [if_neg heq]
      by_cases hl : vs.length = ([PyVal.vInt z] : List PyVal).length
      · rw [if_neg (show ¬ vs.length ≠ ([PyVal.vInt z] : List PyVal).length
            from fun hh => hh hl),
          if_neg (show ¬ ([PyVal.vInt z] : List PyVal).length ≠ vs.length
            from fun hh => hh hl.symm)]
      · rw [if_pos (show vs.length ≠ ([PyVal.vInt z] : List PyVal).length
            from hl),
          if_pos (show ([PyVal.vInt z] : List PyVal).length ≠ vs.length
            from fun hh => hl hh.symm)]
  | vStr s =>
    rw [show keyComps (PyVal.vStr s) = [PyVal.vStr s] from rfl] at he ⊢
    show (if PyVal.vTuple vs = .vStr s then (pure true : Except PyErr Bool)
          else enumKeep vs tys (.vStr s)) = segCheck vs tys [.vStr s]
    rw [if_neg (fun hh => PyVal.noConfusion hh), he]
    unfold segCheck
    by_cases heq : ([PyVal.vStr s] : List PyVal) = vs
    · rw [if_pos heq, ← heq,
        if_neg (show ¬ ([PyVal.vStr s] : List PyVal).length ≠
          ([PyVal.vStr s] : List PyVal).length from fun hh => hh rfl)]
      exact posCheck_refl _ _
    · rw [if_neg heq]
      by_cases hl : vs.length = ([PyVal.vStr s] : List PyVal).length
      · rw [if_neg (show ¬ vs.length ≠ ([PyVal.vStr s] : List PyVal).length
            from fun hh => hh hl),
          if_neg (show ¬ ([PyVal.vStr s] : List PyVal).length ≠ vs.length
            from fun hh => hh hl.symm)]
      · rw [if_pos (show vs.length ≠ ([PyVal.vStr s] : List PyVal).length
            from hl),
          if_pos (show ([PyVal.vStr s] : List PyVal).length ≠ vs.length
            from fun hh => hl hh.symm)]
  | vNone => exact Bool.noConfusion hk
  | vEllipsis => exact Bool.noConfusion hk
  | vSlice a b c => exact Bool.noConfusion hk

/-- `Except.bind` propagates an error. -/
theorem exceptErrBind {α β : Type} (e : PyErr) (f : α → Except PyErr β) :
    (Except.error e : Except PyErr α).bind f = .error e := rfl

/-- The lock-step walk of `matches` answers `True` exactly on pointwise
accepted segment lists. -/
theorem matchLoop_ok_true_iff :
    ∀ (pats gens : List Cid), (matchLoop pats gens = .ok true ↔
      List.Forall₂ (fun pat g => matchSeg pat g = .ok true) pats gens) := by
  intro pats gens
  induction gens generalizing pats with
  | nil =>
    cases pats with
    | nil => exact ⟨fun _ => List.Forall₂.nil, fun _ => rfl⟩
    | cons pat pats' =>
      constructor
      · intro h
        have h2 : decide ((pat :: pats' : List Cid) = []) = true :=
          Except.ok.inj h
        exact absurd (of_decide_eq_true h2) (by simp)
      · intro h
        cases h
  | cons g gs ih =>
    cases pats with
    | nil =>
      constructor
      · intro h
        exact absurd (Except.ok.inj h) (by simp)
      · intro h
        cases h
    | cons pat pats' =>
      show ((matchSeg pat g).bind (fun ok =>
        if ok then matchLoop pats' gs else pure false) = .ok true ↔ _)
      cases hms : matchSeg pat g with
      | error e =>
        rw [exceptErrBind]
        constructor
        · intro h
          exact Except.noConfusion h
        · intro h
          cases h with
          | cons h1 h2 =>
            rw [hms] at h1
            exact Except.noConfusion h1
      | ok b =>
        rw [exceptOkBind]
        cases b with
        | false =>
          rw [if_neg (by decide : ¬ false = true)]
          constructor
          · intro h
            exact absurd (Except.ok.inj h) (by decide)
          · intro h
            cases h with
            | cons h1 h2 =>
              rw [hms] at h1
              exact absurd (Except.ok.inj h1) (by decide)
        | true =>
          rw [if_pos rfl, ih pats']
          constructor
          · intro h
            exact List.Forall₂.cons hms h
          · intro h
            cases h with
            | cons h1 h2 => exact h2

/-- With pairwise-distinct paths, membership determines the stored entry. -/
theorem nodup_fst_mem_eq :
    ∀ {l : List (Path × NKind)}, (l.map Prod.fst).Nodup →
      ∀ {e1 e2 : Path × NKind}, e1 ∈ l → e2 ∈ l → e1.1 = e2.1 → e1 = e2 := by
  intro l
  induction l with
  | nil => intro _ e1 e2 h1; exact absurd h1 (List.not_mem_nil e1)
  | cons a l' ih =>
    intro hn e1 e2 h1 h2 hf
    rw [List.map_cons, List.nodup_cons] at hn
    rcases List.mem_cons.mp h1 with rfl | hm1 <;>
      rcases List.mem_cons.mp h2 with rfl | hm2
    · rfl
    · exact absurd (hf ▸ List.mem_map_of_mem Prod.fst hm2) hn.1
    · exact absurd (hf ▸ List.mem_map_of_mem Prod.fst hm1) hn.1
    · exact ih hn.2 hm1 hm2 hf

/-- A listed node is found by `kindAt`. -/
theorem mem_kindAt {t : Tree} (hwf : TreeWF t) {q : Path} {k : NKind}
    (h : (q, k) ∈ t.nodes) : kindAt t q = some k := by
  unfold kindAt
  cases hf : t.nodes.find? (fun e => e.1 = q) with
  | none => exact absurd (List.find?_eq_none.mp hf _ h) (by simp)
  | some e =>
    have hps := List.find?_some hf
    have he1 : e.1 = q := of_decide_eq_true hps
    have hmem := List.mem_of_find?_eq_some hf
    have : e = (q, k) := nodup_fst_mem_eq hwf.2.1 hmem h he1
    rw [this]
    rfl

/-- A valid attribute child is what `getattr` answers. -/
theorem valid_pyGetattr {t : Tree} (hwf : TreeWF t) {n : PStr} {q : Path}
    (hv : validAt t (.sAttr n :: q) = true) :
    pyGetattr t q n = some (.sAttr n :: q) := by
  rw [validAt] at hv
  cases hk : kindAt t (.sAttr n :: q) with
  | none => rw [hk] at hv; exact Bool.noConfusion hv
  | some k =>
    have hb := (wf_attr_rules hwf hk).1
    unfold pyGetattr
    rw [hb]
    rw [show validAt t (.sAttr n :: q) = true from by rw [validAt, hk]; rfl]
    rfl

/-- What a successful `getattr` tells: the child path, its validity, and
that the base is a block. -/
theorem pyGetattr_some {t : Tree} {n : PStr} {q : Path} {c : Path}
    (h : pyGetattr t q n = some c) :
    c = .sAttr n :: q ∧ validAt t (.sAttr n :: q) = true ∧
      kindAt t q = some .nBlock := by
  unfold pyGetattr at h
  cases hk : kindAt t q with
  | none => rw [hk] at h; exact Option.noConfusion h
  | some k =>
    cases k with
    | nBlock =>
      rw [hk] at h
      by_cases hv : validAt t (.sAttr n :: q) = true
      · rw [if_pos hv] at h
        exact ⟨(Option.some.inj h).symm, hv, rfl⟩
      · rw [if_neg (fun hh => hv hh)] at h
        exact Option.noConfusion h
    | nScalarC => rw [hk] at h; exact Option.noConfusion h
    | nIndexedC => rw [hk] at h; exact Option.noConfusion h
    | nDataObj => rw [hk] at h; exact Option.noConfusion h

/-- Every listed item child appears among its container's items. -/
theorem itemsOfComp_self {t : Tree} {k : PyVal} {q : Path} {knd : NKind}
    (h : ((Step.sItem k :: q : Path), knd) ∈ t.nodes) :
    (k, (Step.sItem k :: q : Path)) ∈ itemsOfComp t q := by
  unfold itemsOfComp
  rw [List.mem_filterMap]
  refine ⟨(Step.sItem k :: q, knd), h, ?_⟩
  show (if q = q then some (k, Step.sItem k :: q) else none) = _
  rw [if_pos rfl]

/-- A valid item child appears among its container's iterated pairs. -/
theorem pyItems_mem_of_valid {t : Tree} (hwf : TreeWF t) {k : PyVal}
    {q : Path} {knd : NKind} (h : kindAt t (.sItem k :: q) = some knd) :
    (k, (Step.sItem k :: q : Path)) ∈ pyItems t q := by
  unfold pyItems
  rw [(wf_item_rules hwf h).1]
  exact itemsOfComp_self (kindAt_mem h)

/-- The pairs iterated over a well-formed container are its valid members
with their keys. -/
theorem pyItems_mem_valid {t : Tree} (hwf : TreeWF t) {c : Path}
    (hc : kindAt t c = some .nIndexedC) {kv : PyVal × Path}
    (h : kv ∈ pyItems t c) :
    kv.2 = .sItem kv.1 :: c ∧ validAt t kv.2 = true ∧ keyWF kv.1 = true := by
  have h2 : (kv.1, kv.2) ∈ pyItems t c := by
    have : kv = (kv.1, kv.2) := rfl
    rw [← this]
    exact h
  have h3 := pyItems_wf hwf hc h2
  refine ⟨h3.1, ?_, h3.2⟩
  have h4 : (kv.1, kv.2) ∈ itemsOfComp t c := by
    unfold pyItems at h2
    rw [hc] at h2
    exact h2
  obtain ⟨_, knd, hmem⟩ := itemsOfComp_mem h4
  rw [validAt, mem_kindAt hwf hmem]
  rfl

/-- A scalar component or block iterates the single pair `(None, self)`. -/
theorem pyItems_scalar {t : Tree} {c : Path} {k : NKind}
    (hc : kindAt t c = some k) (h1 : k ≠ .nIndexedC) :
    pyItems t c = [(.vNone, c)] := by
  unfold pyItems
  rw [hc]
  cases k with
  | nIndexedC => exact absurd rfl h1
  | nBlock => rfl
  | nScalarC => rfl
  | nDataObj => rfl

/-- Without a buffer, the member-level body at a valid member returns its
`_partial_cuid_from_index` entry. -/
theorem genItemSeg_none_find {t : Tree} (hwf : TreeWF t) {k : PyVal}
    {q : Path} {knd : NKind} (h : kindAt t (.sItem k :: q) = some knd) :
    genItemSeg t q (.sItem k :: q) none =
      .ok (some ⟨localName q, (partialIdxWF k).1, (partialIdxWF k).2⟩,
        none) := by
  have hc : kindAt t q = some .nIndexedC := (wf_item_rules hwf h).1
  have hkw : keyWF k = true := (wf_item_rules hwf h).2.2
  have hmem : (k, (Step.sItem k :: q : Path)) ∈ pyItems t q :=
    pyItems_mem_of_valid hwf h
  have he : genItemSeg t q (.sItem k :: q) none =
      (match (pyItems t q).find? (fun kv => kv.2 = .sItem k :: q) with
       | some kv => (partialFromIndex kv.1).bind
           (fun pr => .ok (some ⟨localName q, pr.1, pr.2⟩, none))
       | none => .ok (none, none)) := rfl
  rw [he]
  cases hf : (pyItems t q).find? (fun kv => kv.2 = .sItem k :: q) with
  | none => exact absurd (List.find?_eq_none.mp hf _ hmem) (by simp)
  | some kv =>
    have hps := List.find?_some hf
    have hp : kv.2 = .sItem k :: q := of_decide_eq_true hps
    have hkv2 : (kv.1, kv.2) ∈ pyItems t q := by
      have h2 : kv = (kv.1, kv.2) := rfl
      rw [← h2]
      exact List.mem_of_find?_eq_some hf
    have hk1 : kv.1 = k := by
      have h3 := (pyItems_wf hwf hc hkv2).1
      rw [hp] at h3
      exact (Step.sItem.inj (List.cons.inj h3).1).symm
    show (partialFromIndex kv.1).bind
        (fun pr => (Except.ok (some ⟨localName q, pr.1, pr.2⟩, none) :
          Except PyErr (Option Cid × Option Buffer))) = _
    rw [hk1, partialFromIndex_keyWF hkw, exceptOkBind]

/-- With no buffer and the model root as context, the ascent loop of
`_generate_cuid` returns exactly the path's expected identifier. -/
theorem genLoop_none_eval {t : Tree} (hwf : TreeWF t) :
    ∀ p, validAt t p = true →
      genLoop t [] p none = .ok (expectedGen p, none) := by
  intro p
  induction p using ascentChain.induct with
  | case1 =>
    intro _
    rw [genLoop_root, if_pos rfl]
    rfl
  | case2 n q ih =>
    intro hv
    rw [validAt] at hv
    cases hk : kindAt t (.sAttr n :: q) with
    | none => rw [hk] at hv; exact Bool.noConfusion hv
    | some k =>
      have hvq : validAt t q = true := by
        rw [validAt, (wf_attr_rules hwf hk).1]
        rfl
      rw [genLoop_attr, if_neg (fun hh => List.noConfusion hh), hk]
      show (genLoop t [] q none).bind
          (fun rb => Except.ok (⟨n, .tup [], some []⟩ :: rb.1, rb.2)) = _
      rw [ih hvq, exceptOkBind]
      rfl
  | case3 k =>
    intro hv
    rw [validAt] at hv
    cases hk : kindAt t [.sItem k] with
    | none => rw [hk] at hv; exact Bool.noConfusion hv
    | some knd =>
      have h1 := (wf_item_rules hwf hk).1
      rw [wf_root hwf] at h1
      exact NKind.noConfusion (Option.some.inj h1)
  | case4 k st r ih =>
    intro hv
    rw [validAt] at hv
    cases hk : kindAt t (.sItem k :: st :: r) with
    | none => rw [hk] at hv; exact Bool.noConfusion hv
    | some knd =>
      have hq := (wf_item_rules hwf hk).1
      obtain ⟨n, q2, hshape⟩ := wf_indexed_shape hwf hq
      have hst : st = .sAttr n := (List.cons.inj hshape).1
      have hr : r = q2 := (List.cons.inj hshape).2
      subst hst
      subst hr
      have hvr : validAt t r = true := by
        rw [validAt, (wf_attr_rules hwf hq).1]
        rfl
      rw [genLoop_item, if_neg (fun hh => List.noConfusion hh), hk]
      show (genItemSeg t (.sAttr n :: r) (.sItem k :: .sAttr n :: r)
          none).bind (fun sb =>
        (genLoop t [] r sb.2).bind (fun rb =>
          Except.ok ((match sb.1 with
            | some c => c :: rb.1 | none => rb.1), rb.2))) = _
      rw [genItemSeg_none_find hwf hk, exceptOkBind]
      show (genLoop t [] r none).bind (fun rb =>
        Except.ok (⟨localName (.sAttr n :: r), (partialIdxWF k).1,
          (partialIdxWF k).2⟩ :: rb.1, rb.2)) = _
      rw [ih hvr, exceptOkBind]
      rfl

/-- A non-root object's expected identifier is non-empty. -/
theorem expectedGen_ne_nil : ∀ {p : Path}, p ≠ [] → expectedGen p ≠ [] := by
  intro p h
  match p with
  | [] => exact absurd rfl h
  | .sAttr n :: q => exact List.cons_ne_nil _ _
  | .sItem k :: [] => exact List.cons_ne_nil _ _
  | .sItem k :: st :: r => exact List.cons_ne_nil _ _

/-- `_generate_cuid` of a valid non-container object with the default
context returns the path's expected identifier. -/
theorem generateCuid_nonContainer {t : Tree} (hwf : TreeWF t) {p : Path}
    (hv : validAt t p = true) (hnc : kindAt t p ≠ some .nIndexedC) :
    generateCuid t p none = .ok (expectedGen p) := by
  show (genCuid t p none none).map (·.1) = _
  unfold genCuid
  rw [if_neg hnc]
  show ((genLoop t [] p none).map (·.1) : Except PyErr (List Cid)) = _
  rw [genLoop_none_eval hwf p hv]
  rfl

/-- The descent segments from `q` to `p` make up the difference of the two
expected identifiers. -/
theorem relSeg_expectedGen {t : Tree} :
    ∀ {q gens p}, RelSeg t q gens p →
      expectedGen p = gens.reverse ++ expectedGen q := by
  intro q gens p h
  induction h with
  | nil q2 =>
    show expectedGen q2 = [] ++ expectedGen q2
    rfl
  | @attr q2 n gens2 p2 hv h2 ih =>
    rw [ih, List.reverse_cons, List.append_assoc]
    rfl
  | @item q2 n k gens2 p2 hv h2 ih =>
    rw [ih, List.reverse_cons, List.append_assoc]
    rfl

/-- A descent extends at the bottom by a valid attribute child. -/
theorem relSeg_snoc_attr {t : Tree} {n : PStr} {r : Path}
    (hv : validAt t (.sAttr n :: r) = true) :
    ∀ {q gens}, RelSeg t q gens r →
      RelSeg t q (gens ++ [⟨n, .tup [], some []⟩]) (.sAttr n :: r) := by
  intro q gens h
  induction h with
  | nil q2 => exact RelSeg.attr hv (RelSeg.nil _)
  | attr hv2 h2 ih =>
    rw [List.cons_append]
    exact RelSeg.attr hv2 (ih hv)
  | item hv2 h2 ih =>
    rw [List.cons_append]
    exact RelSeg.item hv2 (ih hv)

/-- A descent extends at the bottom by a valid member of an attribute
child. -/
theorem relSeg_snoc_item {t : Tree} {n : PStr} {k : PyVal} {r : Path}
    (hv : validAt t (.sItem k :: .sAttr n :: r) = true) :
    ∀ {q gens}, RelSeg t q gens r →
      RelSeg t q (gens ++ [⟨n, (partialIdxWF k).1, (partialIdxWF k).2⟩])
        (.sItem k :: .sAttr n :: r) := by
  intro q gens h
  induction h with
  | nil q2 => exact RelSeg.item hv (RelSeg.nil _)
  | attr hv2 h2 ih =>
    rw [List.cons_append]
    exact RelSeg.attr hv2 (ih hv)
  | item hv2 h2 ih =>
    rw [List.cons_append]
    exact RelSeg.item hv2 (ih hv)

/-- Every valid object is reached from the root by the descent of its
expected identifier, outermost-first. -/
theorem relSeg_of_valid {t : Tree} (hwf : TreeWF t) :
    ∀ p, validAt t p = true →
      RelSeg t [] ((expectedGen p).reverse) p := by
  intro p
  induction p using ascentChain.induct with
  | case1 => intro _; exact RelSeg.nil []
  | case2 n q ih =>
    intro hv
    have hvq : validAt t q = true := by
      rw [validAt] at hv
      cases hk : kindAt t (.sAttr n :: q) with
      | none => rw [hk] at hv; exact Bool.noConfusion hv
      | some k =>
        rw [validAt, (wf_attr_rules hwf hk).1]
        rfl
    rw [show expectedGen (.sAttr n :: q) =
        ⟨n, .tup [], some []⟩ :: expectedGen q from rfl,
      List.reverse_cons]
    exact relSeg_snoc_attr hv (ih hvq)
  | case3 k =>
    intro hv
    rw [validAt] at hv
    cases hk : kindAt t [.sItem k] with
    | none => rw [hk] at hv; exact Bool.noConfusion hv
    | some knd =>
      have h1 := (wf_item_rules hwf hk).1
      rw [wf_root hwf] at h1
      exact NKind.noConfusion (Option.some.inj h1)
  | case4 k st r ih =>
    intro hv
    rw [validAt] at hv
    cases hk : kindAt t (.sItem k :: st :: r) with
    | none => rw [hk] at hv; exact Bool.noConfusion hv
    | some knd =>
      have hq := (wf_item_rules hwf hk).1
      obtain ⟨n, q2, hshape⟩ := wf_indexed_shape hwf hq
      have hst : st = .sAttr n := (List.cons.inj hshape).1
      have hr : r = q2 := (List.cons.inj hshape).2
      subst hst
      subst hr
      have hvr : validAt t r = true := by
        rw [validAt, (wf_attr_rules hwf hq).1]
        rfl
      rw [show expectedGen (.sItem k :: .sAttr n :: r) =
          ⟨n, (partialIdxWF k).1, (partialIdxWF k).2⟩ :: expectedGen r
          from rfl,
        List.reverse_cons]
      exact relSeg_snoc_item (by rw [validAt, hk]; rfl) (ih hvr)

/-- The common segment comparison accepts identical position lists. -/
theorem segCheck_refl (vs : List PyVal) (tys : List Char) :
    segCheck vs tys vs = .ok true := by
  unfold segCheck
  rw [if_pos rfl]

/-- The common segment comparison never raises on admissible patterns. -/
theorem segCheck_ok {vs : List PyVal} {tys : List Char} (ks : List PyVal)
    (hF : List.Forall₂ C1Val tys vs) :
    ∃ b, segCheck vs tys ks = .ok b := by
  unfold segCheck
  by_cases h1 : ks = vs
  · exact ⟨true, by rw [if_pos h1]⟩
  · by_cases h2 : ks.length = vs.length
    · obtain ⟨b, hb⟩ := posCheck_ok hF h2
      refine ⟨b, ?_⟩
      rw [if_neg h1, if_neg (show ¬ ks.length ≠ vs.length from fun hh => hh h2)]
      exact hb
    · exact ⟨false, by
        rw [if_neg h1, if_pos (show ks.length ≠ vs.length from h2)]⟩

/-- A no-index pattern segment accepts the matching scalar segment. -/
theorem matchSeg_scalar_self (nm : PStr) :
    matchSeg ⟨nm, .tup [], some []⟩ ⟨nm, .tup [], some []⟩ = .ok true := by
  rw [matchSeg_segCheck, if_neg (show ¬ nm ≠ nm from fun hh => hh rfl)]
  rfl

/-- A non-empty indexed pattern segment rejects a scalar (no-index)
generated segment, name agreement notwithstanding. -/
theorem matchSeg_tup_nil_gen (nm n : PStr) (v : PyVal) (vs' : List PyVal)
    (tyl : List Char) (gt : Option (List Char)) (hnm : nm = n) :
    matchSeg ⟨nm, .tup (v :: vs'), some tyl⟩ ⟨n, .tup [], gt⟩ = .ok false := by
  rw [matchSeg_segCheck, if_neg (show ¬ nm ≠ n from fun hh => hh hnm)]
  rfl

/-- A well-formed key has components. -/
theorem keyComps_ne_nil {k : PyVal} (hk : keyWF k = true) :
    keyComps k ≠ [] := by
  cases k with
  | vInt z => exact List.cons_ne_nil _ _
  | vStr s => exact List.cons_ne_nil _ _
  | vTuple ws =>
    cases ws with
    | nil => exact Bool.noConfusion hk
    | cons w ws' => exact List.cons_ne_nil _ _
  | vNone => exact Bool.noConfusion hk
  | vEllipsis => exact Bool.noConfusion hk
  | vSlice a b c => exact Bool.noConfusion hk

/-- The components of the normalized index of an admissible non-empty
pattern position list are the list itself. -/
theorem keyComps_normIndex {vs : List PyVal} {tyl : List Char}
    (hF : List.Forall₂ C1Val tyl vs) (hne : vs ≠ []) :
    keyComps (normIndex vs) = vs := by
  cases vs with
  | nil => exact absurd rfl hne
  | cons v vs' =>
    cases vs' with
    | cons v2 vs'' => rfl
    | nil =>
      show keyComps v = [v]
      cases hF with
      | cons h1 h2 =>
        cases v with
        | vInt z => rfl
        | vStr s => rfl
        | vSlice a b c => rfl
        | vNone => exact False.elim h1
        | vEllipsis => exact False.elim h1
        | vTuple ws => exact False.elim h1

/-- Normalizing a well-formed key's components recovers the key. -/
theorem normIndex_keyComps {k : PyVal} (hk : keyWF k = true) :
    normIndex (keyComps k) = k := by
  cases k with
  | vInt z => rfl
  | vStr s => rfl
  | vTuple ws =>
    cases ws with
    | nil => exact Bool.noConfusion hk
    | cons a ws' =>
      cases ws' with
      | nil => exact Bool.noConfusion hk
      | cons b ws'' => rfl
  | vNone => exact Bool.noConfusion hk
  | vEllipsis => exact Bool.noConfusion hk
  | vSlice a b c => exact Bool.noConfusion hk

/-- What a successful keyed lookup of a non-`None` key tells: the base is a
container and the member is its valid item child. -/
theorem pyGetitemKey_some {t : Tree} {c : Path} {key : PyVal} {m : Path}
    (h : pyGetitemKey t c key = some m) (hne : key ≠ .vNone) :
    kindAt t c = some .nIndexedC ∧ validAt t (.sItem key :: c) = true ∧
      m = .sItem key :: c := by
  unfold pyGetitemKey at h
  cases hk : kindAt t c with
  | none => rw [hk] at h; exact Option.noConfusion h
  | some k =>
    cases k with
    | nIndexedC =>
      rw [hk] at h
      by_cases hv : validAt t (.sItem key :: c) = true
      · rw [if_pos hv] at h
        exact ⟨rfl, hv, (Option.some.inj h).symm⟩
      · rw [if_neg hv] at h
        exact Option.noConfusion h
    | nBlock =>
      rw [hk, if_neg hne] at h
      exact Option.noConfusion h
    | nScalarC =>
      rw [hk, if_neg hne] at h
      exact Option.noConfusion h
    | nDataObj => rw [hk] at h; exact Option.noConfusion h

/-- A valid item child is what its container's keyed lookup answers. -/
theorem pyGetitemKey_of_valid {t : Tree} (hwf : TreeWF t) {key : PyVal}
    {c : Path} {knd : NKind} (h : kindAt t (.sItem key :: c) = some knd) :
    pyGetitemKey t c key = some (.sItem key :: c) := by
  have hcind := (wf_item_rules hwf h).1
  unfold pyGetitemKey
  rw [hcind,
    if_pos (show validAt t (.sItem key :: c) = true from by
      rw [validAt, h]; rfl)]

/-- A valid attribute child puts a block at its base. -/
theorem valid_attr_block {t : Tree} (hwf : TreeWF t) {n : PStr} {q : Path}
    (hv : validAt t (.sAttr n :: q) = true) :
    kindAt t q = some .nBlock := by
  rw [validAt] at hv
  cases hk : kindAt t (.sAttr n :: q) with
  | none => rw [hk] at hv; exact Bool.noConfusion hv
  | some k => exact (wf_attr_rules hwf hk).1

/-- A valid item child puts a container at its base and carries a
well-formed key. -/
theorem valid_item_facts {t : Tree} (hwf : TreeWF t) {k : PyVal} {q : Path}
    (hv : validAt t (.sItem k :: q) = true) :
    kindAt t q = some .nIndexedC ∧ keyWF k = true := by
  rw [validAt] at hv
  cases hk : kindAt t (.sItem k :: q) with
  | none => rw [hk] at hv; exact Bool.noConfusion hv
  | some knd => exact ⟨(wf_item_rules hwf hk).1, (wf_item_rules hwf hk).2.2⟩

/-- The first level of any non-trivial descent makes `getattr` of its name
succeed. -/
theorem relSeg_head_getattr {t : Tree} (hwf : TreeWF t) {q : Path} {g : Cid}
    {gens : List Cid} {p : Path} (h : RelSeg t q (g :: gens) p) :
    pyGetattr t q g.name = some (.sAttr g.name :: q) := by
  cases h with
  | attr hv h2 => exact valid_pyGetattr hwf hv
  | item hv h2 =>
    exact valid_pyGetattr hwf
      (by rw [validAt, (valid_item_facts hwf hv).1]; rfl)

/-- No descent leaves a bare container for a non-container object: a
container has no attribute children and its members hang one level
lower. -/
theorem relSeg_container_none {t : Tree} (hwf : TreeWF t) {c p : Path}
    {gens : List Cid} (hcont : kindAt t c = some .nIndexedC)
    (hnc : kindAt t p ≠ some .nIndexedC) (h : RelSeg t c gens p) :
    False := by
  cases h with
  | nil => exact hnc hcont
  | attr hv h2 =>
    have hb := valid_attr_block hwf hv
    rw [hcont] at hb
    exact NKind.noConfusion (Option.some.inj hb)
  | item hv h2 =>
    have hcind := (valid_item_facts hwf hv).1
    have hb := valid_attr_block hwf (by rw [validAt, hcind]; rfl)
    rw [hcont] at hb
    exact NKind.noConfusion (Option.some.inj hb)

/-- No cast of an integer or string equals `None`. -/
theorem castMatches_vNone {v : PyVal}
    (hv : (∃ z, v = PyVal.vInt z) ∨ (∃ s, v = PyVal.vStr s)) :
    castMatches v .vNone = .ok false := by
  rcases hv with ⟨z, rfl⟩ | ⟨s, rfl⟩
  · show (Except.ok (some (PyVal.vInt z)) : Except PyErr (Option PyVal)).bind
      (fun i => if i = some .vNone then pure true
        else if castStr (.vInt z) = .vNone then pure true
        else pure (decide (castSlice (.vInt z) = .vNone))) = .ok false
    rw [exceptOkBind,
      if_neg (fun hh : _ = _ => PyVal.noConfusion (Option.some.inj hh)),
      if_neg (fun hh : _ = _ => PyVal.noConfusion hh)]
    rfl
  · cases hpi : pyParseInt s with
    | ok z =>
      have hci : castInt (.vStr s) = .ok (some (.vInt z)) := by
        show (match pyParseInt s with
              | Except.ok z2 => (Except.ok (some (PyVal.vInt z2))
                  : Except PyErr (Option PyVal))
              | Except.error e => Except.ok none) = _
        rw [hpi]
      show (castInt (.vStr s)).bind
        (fun i => if i = some .vNone then pure true
          else if castStr (.vStr s) = .vNone then pure true
          else pure (decide (castSlice (.vStr s) = .vNone))) = .ok false
      rw [hci, exceptOkBind,
        if_neg (fun hh : _ = _ => PyVal.noConfusion (Option.some.inj hh)),
        if_neg (fun hh : _ = _ => PyVal.noConfusion hh)]
      rfl
    | error e =>
      have hci : castInt (.vStr s) = .ok none := by
        show (match pyParseInt s with
              | Except.ok z2 => (Except.ok (some (PyVal.vInt z2))
                  : Except PyErr (Option PyVal))
              | Except.error e2 => Except.ok none) = _
        rw [hpi]
      show (castInt (.vStr s)).bind
        (fun i => if i = some .vNone then pure true
          else if castStr (.vStr s) = .vNone then pure true
          else pure (decide (castSlice (.vStr s) = .vNone))) = .ok false
      rw [hci, exceptOkBind,
        if_neg (fun hh : _ = _ => Option.noConfusion hh),
        if_neg (fun hh : _ = _ => PyVal.noConfusion hh)]
      rfl

/-- The wildcard filter rejects a scalar component's `None` key against a
non-empty admissible pattern that is not the excluded single-position
slice-typed segment. -/
theorem keepFor_vNone_false {vs : List PyVal} {tyl : List Char}
    (hF : List.Forall₂ C1Val tyl vs) (hstar : tyl ≠ ['*'])
    (hne : vs ≠ []) :
    keepFor (.tup vs) (some tyl) .vNone = .ok false := by
  show (if PyVal.vTuple vs = .vNone then (pure true : Except PyErr Bool)
        else enumKeep vs tyl .vNone) = .ok false
  rw [if_neg (fun hh => PyVal.noConfusion hh)]
  show (partialFromIndex .vNone).bind (fun pr =>
      if vs.length ≠ pr.1.len then pure false
      else (List.range vs.length).allM (fun j =>
        if vs.getD j .vNone = pr.1.get j then pure true
        else match tyl.get? j with
          | none => Except.error PyErr.indexError
          | some tc =>
            if tc = '*' then pure true
            else if tc = '.' then
              castMatches (vs.getD j .vNone) (pr.1.get j)
            else pure false)) = .ok false
  rw [show partialFromIndex .vNone =
      .ok (.tup [.vNone], some ['?']) from rfl, exceptOkBind]
  cases vs with
  | nil => exact absurd rfl hne
  | cons v vs' =>
    cases vs' with
    | cons v2 vs'' => rfl
    | nil =>
      obtain ⟨tc, htyl⟩ : ∃ tc, tyl = [tc] := by
        cases hF with
        | cons h1 h2 =>
          cases h2
          exact ⟨_, rfl⟩
      subst htyl
      have h1 : C1Val tc v := by
        cases hF with
        | cons h1 h2 => exact h1
      have hvne : v ≠ .vNone := by
        intro he
        rw [he] at h1
        exact h1
      have htcs : tc ≠ '*' := fun hh => hstar (by rw [hh])
      show ((if (v : PyVal) = .vNone then (pure true : Except PyErr Bool)
          else match ([tc] : List Char).get? 0 with
            | none => Except.error PyErr.indexError
            | some tc2 =>
              if tc2 = '*' then pure true
              else if tc2 = '.' then castMatches v .vNone
              else pure false).bind (fun b => match b with
          | true => (pure true : Except PyErr Bool)
          | false => pure false)) = .ok false
      rw [if_neg hvne]
      show ((if tc = '*' then (pure true : Except PyErr Bool)
          else if tc = '.' then castMatches v .vNone
          else pure false).bind (fun b => match b with
          | true => (pure true : Except PyErr Bool)
          | false => pure false)) = .ok false
      rw [if_neg htcs]
      by_cases htc : tc = '.'
      · rw [if_pos htc, castMatches_vNone (c1val_dot (htc ▸ h1)),
          exceptOkBind]
        rfl
      · rw [if_neg htc]
        rfl

/-- The iteration of the wildcard branch, abstractly: when the keep
decision and the descent never raise, the collected objects are exactly
those reached from a kept member. -/
theorem listItems_iff (args : CArgs) (tys : Option (List Char))
    (go : Path → Except PyErr (List Path)) (Q : Path → Prop) (p : Path) :
    ∀ (kvs : List (PyVal × Path)),
      (∀ kv ∈ kvs, ∃ b, keepFor args tys kv.1 = .ok b) →
      (∀ kv ∈ kvs, ∃ objs, go kv.2 = .ok objs ∧ (p ∈ objs ↔ Q kv.2)) →
      ∃ objs, listItems go args tys kvs = .ok objs ∧
        (p ∈ objs ↔ ∃ kv ∈ kvs,
          keepFor args tys kv.1 = .ok true ∧ Q kv.2) := by
  intro kvs
  induction kvs with
  | nil =>
    intro _ _
    refine ⟨[], rfl, ?_⟩
    constructor
    · intro h
      exact absurd h (List.not_mem_nil p)
    · rintro ⟨kv, hkv, _⟩
      exact absurd hkv (List.not_mem_nil kv)
  | cons kv kvs' ih =>
    intro hkeep hrec
    obtain ⟨b, hb⟩ := hkeep kv (List.mem_cons_self kv kvs')
    obtain ⟨objs2, hrest, hiff2⟩ :=
      ih (fun u hu => hkeep u (List.mem_cons_of_mem kv hu))
        (fun u hu => hrec u (List.mem_cons_of_mem kv hu))
    have he : listItems go args tys (kv :: kvs') =
        (keepFor args tys kv.1).bind (fun keep =>
          if keep then
            (go kv.2).bind (fun r =>
              (listItems go args tys kvs').bind (fun rs =>
                pure (r ++ rs)))
          else
            (pure [] : Except PyErr (List Path)).bind (fun r =>
              (listItems go args tys kvs').bind (fun rs =>
                pure (r ++ rs)))) := rfl
    rw [he, hb, exceptOkBind]
    cases b with
    | true =>
      obtain ⟨objs1, hgo, hiff1⟩ := hrec kv (List.mem_cons_self kv kvs')
      rw [if_pos rfl, hgo, exceptOkBind, hrest, exceptOkBind]
      refine ⟨objs1 ++ objs2, rfl, ?_⟩
      constructor
      · intro h
        rcases List.mem_append.mp h with h1 | h1
        · exact ⟨kv, List.mem_cons_self kv kvs', hb, hiff1.mp h1⟩
        · obtain ⟨kv', hm', hk', hQ⟩ := hiff2.mp h1
          exact ⟨kv', List.mem_cons_of_mem kv hm', hk', hQ⟩
      · rintro ⟨kv', hm', hk', hQ⟩
        rcases List.mem_cons.mp hm' with rfl | hm2
        · exact List.mem_append_left _ (hiff1.mpr hQ)
        · exact List.mem_append_right _
            (hiff2.mpr ⟨kv', hm2, hk', hQ⟩)
    | false =>
      rw [if_neg (by decide : ¬ false = true),
        show (pure [] : Except PyErr (List Path)) = Except.ok [] from rfl,
        exceptOkBind, hrest, exceptOkBind]
      refine ⟨objs2, rfl, ?_⟩
      constructor
      · intro h
        obtain ⟨kv', hm', hk', hQ⟩ := hiff2.mp h
        exact ⟨kv', List.mem_cons_of_mem kv hm', hk', hQ⟩
      · rintro ⟨kv', hm', hk', hQ⟩
        rcases List.mem_cons.mp hm' with rfl | hm2
        · rw [hb] at hk'
          exact absurd (Except.ok.inj hk') (by decide)
        · exact hiff2.mpr ⟨kv', hm2, hk', hQ⟩

/-- Inversion of a non-trivial descent: its first level is a valid
attribute child (scalar segment) or a valid member of one (item
segment). -/
theorem relSeg_cons_inv {t : Tree} {q : Path} {g : Cid} {gens : List Cid}
    {p : Path} (h : RelSeg t q (g :: gens) p) :
    (g = ⟨g.name, .tup [], some []⟩ ∧
      validAt t (.sAttr g.name :: q) = true ∧
      RelSeg t (.sAttr g.name :: q) gens p) ∨
    (∃ k, g = ⟨g.name, (partialIdxWF k).1, (partialIdxWF k).2⟩ ∧
      validAt t (.sItem k :: .sAttr g.name :: q) = true ∧
      RelSeg t (.sItem k :: .sAttr g.name :: q) gens p) := by
  cases h with
  | attr hv h2 => exact Or.inl ⟨rfl, hv, h2⟩
  | item hv h2 => exact Or.inr ⟨_, rfl, hv, h2⟩

/-- With a missing attribute, no accepted descent exists from `q`. -/
theorem listAux_none_iff {t : Tree} (hwf : TreeWF t) {p : Path} {q : Path}
    {cid : Cid} {rest : List Cid}
    (hga : pyGetattr t q cid.name = none) :
    ¬ ∃ gens, RelSeg t q gens p ∧
      List.Forall₂ (fun pat g => matchSeg pat g = .ok true)
        (cid :: rest) gens := by
  rintro ⟨gens, hrel, hF⟩
  cases hF with
  | cons h1 hF' =>
    have hnm := matchSeg_names h1
    have hsome := relSeg_head_getattr hwf hrel
    rw [← hnm, hga] at hsome
    exact Option.noConfusion hsome

/-- A no-index pattern segment rejects an item-generated segment. -/
theorem matchSeg_scalar_item_false (nm n : PStr) {k : PyVal}
    (hk : keyWF k = true) (hnm : nm = n) :
    matchSeg ⟨nm, .tup [], some []⟩
      ⟨n, (partialIdxWF k).1, (partialIdxWF k).2⟩ = .ok false := by
  rw [partialIdxWF_comps]
  show matchSeg ⟨nm, .tup [], some []⟩
    ⟨n, .tup (keyComps k), some ((keyComps k).map typeChar)⟩ = _
  rw [matchSeg_segCheck, if_neg (show ¬ nm ≠ n from fun hh => hh hnm)]
  unfold segCheck
  rw [if_neg (keyComps_ne_nil hk),
    if_pos (show (keyComps k).length ≠ ([] : List PyVal).length from
      fun hh => keyComps_ne_nil hk (List.length_eq_zero.mp hh))]

/-- On a well-formed key, the matcher's segment verdict is exactly the
enumerator's keep decision. -/
theorem matchSeg_item_keep (nm n : PStr) {k : PyVal} (hk : keyWF k = true)
    (vs : List PyVal) (tyl : List Char) (hnm : nm = n) :
    matchSeg ⟨nm, .tup vs, some tyl⟩
        ⟨n, (partialIdxWF k).1, (partialIdxWF k).2⟩ =
      keepFor (.tup vs) (some tyl) k := by
  rw [keepFor_segCheck hk, partialIdxWF_comps]
  show matchSeg ⟨nm, .tup vs, some tyl⟩
    ⟨n, .tup (keyComps k), some ((keyComps k).map typeChar)⟩ = _
  rw [matchSeg_segCheck, if_neg (show ¬ nm ≠ n from fun hh => hh hnm)]

/-- With no wildcard and no untyped position, a true segment comparison is
exact equality. -/
theorem segCheck_concrete_true {vs ks : List PyVal} {tys : List Char}
    (hF : List.Forall₂ C1Val tys vs) (hstar : ('*' : Char) ∉ tys)
    (hdot : ('.' : Char) ∉ tys) (h : segCheck vs tys ks = .ok true) :
    ks = vs := by
  unfold segCheck at h
  by_cases h1 : ks = vs
  · exact h1
  · rw [if_neg h1] at h
    by_cases h2 : ks.length = vs.length
    · rw [if_neg (show ¬ ks.length ≠ vs.length from fun hh => hh h2)] at h
      exact (posCheck_concrete hF h2 hstar hdot).mp h
    · rw [if_pos (show ks.length ≠ vs.length from h2)] at h
      exact absurd (Except.ok.inj h) (by decide)

/-- A valid path has a kind. -/
theorem validAt_some {t : Tree} {r : Path} (hv : validAt t r = true) :
    ∃ knd, kindAt t r = some knd := by
  rw [validAt] at hv
  cases hk : kindAt t r with
  | none => rw [hk] at hv; exact Bool.noConfusion hv
  | some knd => exact ⟨knd, rfl⟩

/-- The normalized index of an admissible position list is never `None`. -/
theorem normIndex_ne_vNone {v : PyVal} {vs' : List PyVal} {tc : Char}
    (hcv : C1Val tc v) : normIndex (v :: vs') ≠ PyVal.vNone := by
  cases vs' with
  | nil =>
    show v ≠ PyVal.vNone
    intro he
    rw [he] at hcv
    exact hcv
  | cons v2 vs'' => exact fun hh => PyVal.noConfusion hh

/-- **Enumeration characterization**: on a well-formed tree, for admissible
pattern segments, `_list_components` from a valid object never raises and
collects exactly the objects whose descent segments the matcher accepts,
level by level (stated for a non-container candidate `p`). -/
theorem listAux_iff {t : Tree} (hwf : TreeWF t) {p : Path}
    (hnc : kindAt t p ≠ some .nIndexedC) :
    ∀ (pats : List Cid), (∀ c ∈ pats, C1Seg c) →
    ∀ q : Path, validAt t q = true →
      ∃ objs, listAux t pats q = .ok objs ∧
        (p ∈ objs ↔ ∃ gens, RelSeg t q gens p ∧
          List.Forall₂ (fun pat g => matchSeg pat g = .ok true) pats gens) := by
  intro pats
  induction pats with
  | nil =>
    intro _ q hq
    refine ⟨[q], rfl, ?_⟩
    constructor
    · intro h
      have hpq : p = q := List.mem_singleton.mp h
      exact ⟨[], by rw [hpq]; exact RelSeg.nil q, List.Forall₂.nil⟩
    · rintro ⟨gens, hrel, hF⟩
      cases hF
      cases hrel
      exact List.mem_singleton.mpr rfl
  | cons cid rest ih =>
    intro hpats q hq
    have hcs : C1Seg cid := hpats cid (List.mem_cons_self cid rest)
    have hrest : ∀ c ∈ rest, C1Seg c :=
      fun c hc => hpats c (List.mem_cons_of_mem cid hc)
    obtain ⟨nm, args, tys⟩ := cid
    cases args with
    | star2 =>
      have he2 : listAux t (⟨nm, .star2, tys⟩ :: rest) q =
          (match pyGetattr t q nm with
           | none => pure []
           | some c => listItems (listAux t rest) .star2 none
               (pyItems t c)) := rfl
      cases hga : pyGetattr t q nm with
      | none =>
        refine ⟨[], by rw [he2, hga]; rfl, ?_⟩
        constructor
        · intro h
          exact absurd h (List.not_mem_nil p)
        · intro h
          exact absurd h (listAux_none_iff hwf hga)
      | some c =>
        obtain ⟨hc, hvattr, hqb⟩ := pyGetattr_some hga
        subst hc
        obtain ⟨k0, hk0⟩ := validAt_some hvattr
        by_cases hcont : k0 = .nIndexedC
        · subst hcont
          have hrec : ∀ kv ∈ pyItems t (.sAttr nm :: q), ∃ objs,
              listAux t rest kv.2 = .ok objs ∧ (p ∈ objs ↔
                ∃ gens, RelSeg t kv.2 gens p ∧
                  List.Forall₂ (fun pat g => matchSeg pat g = .ok true)
                    rest gens) :=
            fun kv hkv => ih hrest kv.2 (pyItems_mem_valid hwf hk0 hkv).2.1
          obtain ⟨objs, heq, hiff⟩ := listItems_iff CArgs.star2 none
            (listAux t rest)
            (fun m => ∃ gens, RelSeg t m gens p ∧
              List.Forall₂ (fun pat g => matchSeg pat g = .ok true)
                rest gens)
            p (pyItems t (.sAttr nm :: q)) (fun kv _ => ⟨true, rfl⟩) hrec
          refine ⟨objs, by rw [he2, hga]; exact heq, ?_⟩
          rw [hiff]
          constructor
          · rintro ⟨kv, hkv, _, hQ⟩
            obtain ⟨hkv2, hkvv, hkw⟩ := pyItems_mem_valid hwf hk0 hkv
            rw [hkv2] at hkvv hQ
            obtain ⟨gens2, hrel2, hF2⟩ := hQ
            exact ⟨⟨nm, (partialIdxWF kv.1).1, (partialIdxWF kv.1).2⟩ :: gens2,
              RelSeg.item hkvv hrel2,
              List.Forall₂.cons (matchSeg_star2 tys rfl) hF2⟩
          · rintro ⟨gens, hrel, hF⟩
            cases hF with
            | cons h1 hF2 =>
              have hnm : nm = _ := matchSeg_names h1
              rcases relSeg_cons_inv hrel with
                ⟨hgeq, hv2, hrel2⟩ | ⟨k, hgeq, hv2, hrel2⟩
              · rw [← hnm] at hrel2
                exact absurd hrel2 (relSeg_container_none hwf hk0 hnc)
              · rw [← hnm] at hv2 hrel2
                obtain ⟨knd, hknd⟩ := validAt_some hv2
                exact ⟨(k, .sItem k :: .sAttr nm :: q),
                  pyItems_mem_of_valid hwf hknd, rfl, _, hrel2, hF2⟩
        · have hitems := pyItems_scalar hk0 hcont
          have hrec : ∀ kv ∈ [((PyVal.vNone : PyVal),
              (Step.sAttr nm :: q : Path))], ∃ objs,
              listAux t rest kv.2 = .ok objs ∧ (p ∈ objs ↔
                ∃ gens, RelSeg t kv.2 gens p ∧
                  List.Forall₂ (fun pat g => matchSeg pat g = .ok true)
                    rest gens) := by
            intro kv hkv
            rw [List.mem_singleton.mp hkv]
            exact ih hrest _ hvattr
          obtain ⟨objs, heq, hiff⟩ := listItems_iff CArgs.star2 none
            (listAux t rest)
            (fun m => ∃ gens, RelSeg t m gens p ∧
              List.Forall₂ (fun pat g => matchSeg pat g = .ok true)
                rest gens)
            p [(.vNone, .sAttr nm :: q)] (fun kv _ => ⟨true, rfl⟩) hrec
          refine ⟨objs, ?_, ?_⟩
          · rw [he2, hga]
            show listItems (listAux t rest) .star2 none
              (pyItems t (.sAttr nm :: q)) = Except.ok objs
            rw [hitems]
            exact heq
          · rw [hiff]
            constructor
            · rintro ⟨kv, hkv, _, hQ⟩
              rw [List.mem_singleton.mp hkv] at hQ
              obtain ⟨gens2, hrel2, hF2⟩ := hQ
              exact ⟨⟨nm, .tup [], some []⟩ :: gens2,
                RelSeg.attr hvattr hrel2,
                List.Forall₂.cons (matchSeg_star2 tys rfl) hF2⟩
            · rintro ⟨gens, hrel, hF⟩
              cases hF with
              | cons h1 hF2 =>
                have hnm : nm = _ := matchSeg_names h1
                rcases relSeg_cons_inv hrel with
                  ⟨hgeq, hv2, hrel2⟩ | ⟨k, hgeq, hv2, hrel2⟩
                · rw [← hnm] at hrel2
                  exact ⟨(.vNone, .sAttr nm :: q),
                    List.mem_singleton.mpr rfl, rfl, _, hrel2, hF2⟩
                · rw [← hnm] at hv2
                  have hfacts := valid_item_facts hwf hv2
                  have hx : some k0 = some NKind.nIndexedC := by
                    rw [← hk0, hfacts.1]
                  exact absurd (Option.some.inj hx) hcont
    | tup vs =>
      cases tys with
      | none => exact False.elim hcs
      | some tyl =>
        have hcs2 : List.Forall₂ C1Val tyl vs ∧ tyl ≠ ['*'] := hcs
        cases vs with
        | nil =>
          have htyl : tyl = [] := by
            cases hcs2.1
            rfl
          subst htyl
          have he2 : listAux t (⟨nm, .tup [], some []⟩ :: rest) q =
              (match pyGetattr t q nm with
               | none => pure []
               | some c => listAux t rest c) := rfl
          cases hga : pyGetattr t q nm with
          | none =>
            refine ⟨[], by rw [he2, hga]; rfl, ?_⟩
            constructor
            · intro h
              exact absurd h (List.not_mem_nil p)
            · intro h
              exact absurd h (listAux_none_iff hwf hga)
          | some c =>
            obtain ⟨hc, hvattr, hqb⟩ := pyGetattr_some hga
            subst hc
            obtain ⟨objs, heq, hiff⟩ := ih hrest (.sAttr nm :: q) hvattr
            refine ⟨objs, by rw [he2, hga]; exact heq, ?_⟩
            rw [hiff]
            constructor
            · rintro ⟨gens2, hrel2, hF2⟩
              exact ⟨⟨nm, .tup [], some []⟩ :: gens2,
                RelSeg.attr hvattr hrel2,
                List.Forall₂.cons (matchSeg_scalar_self nm) hF2⟩
            · rintro ⟨gens, hrel, hF⟩
              cases hF with
              | cons h1 hF2 =>
                have hnm : nm = _ := matchSeg_names h1
                rcases relSeg_cons_inv hrel with
                  ⟨hgeq, hv2, hrel2⟩ | ⟨k, hgeq, hv2, hrel2⟩
                · rw [← hnm] at hrel2
                  exact ⟨_, hrel2, hF2⟩
                · rw [← hnm] at hv2
                  have hkw := (valid_item_facts hwf hv2).2
                  rw [hgeq, ← hnm] at h1
                  rw [matchSeg_scalar_item_false nm nm hkw rfl] at h1
                  exact absurd (Except.ok.inj h1) (by decide)
        | cons v vs2 =>
          have hheadC1 : ∃ tc, C1Val tc v := by
            cases hcs2.1 with
            | cons ha hb => exact ⟨_, ha⟩
          obtain ⟨tc0, hcv0⟩ := hheadC1
          have he2 : listAux t (⟨nm, .tup (v :: vs2), some tyl⟩ :: rest) q =
              (match pyGetattr t q nm with
               | none => pure []
               | some c =>
                 if ¬ ('*' ∈ tyl) ∧ ¬ ('.' ∈ tyl) then
                   match pyGetitemKey t c (normIndex (v :: vs2)) with
                   | none => pure []
                   | some m => listAux t rest m
                 else listItems (listAux t rest) (.tup (v :: vs2))
                   (some tyl) (pyItems t c)) := rfl
          cases hga : pyGetattr t q nm with
          | none =>
            refine ⟨[], by rw [he2, hga]; rfl, ?_⟩
            constructor
            · intro h
              exact absurd h (List.not_mem_nil p)
            · intro h
              exact absurd h (listAux_none_iff hwf hga)
          | some c =>
            obtain ⟨hc, hvattr, hqb⟩ := pyGetattr_some hga
            subst hc
            by_cases hcond : ¬ ('*' ∈ tyl) ∧ ¬ ('.' ∈ tyl)
            · cases hlk : pyGetitemKey t (.sAttr nm :: q)
                  (normIndex (v :: vs2)) with
              | some m =>
                obtain ⟨hcind, hvitem, hm⟩ :=
                  pyGetitemKey_some hlk (normIndex_ne_vNone hcv0)
                subst hm
                obtain ⟨objs, heq, hiff⟩ := ih hrest _ hvitem
                refine ⟨objs, ?_, ?_⟩
                · rw [he2, hga]
                  show (if ¬ ('*' ∈ tyl) ∧ ¬ ('.' ∈ tyl) then
                      (match pyGetitemKey t (.sAttr nm :: q)
                          (normIndex (v :: vs2)) with
                       | none => (pure [] : Except PyErr (List Path))
                       | some m2 => listAux t rest m2)
                    else listItems (listAux t rest) (.tup (v :: vs2))
                      (some tyl) (pyItems t (.sAttr nm :: q))) =
                    Except.ok objs
                  rw [if_pos hcond, hlk]
                  exact heq
                · rw [hiff]
                  have hkw0 : keyWF (normIndex (v :: vs2)) = true :=
                    (valid_item_facts hwf hvitem).2
                  constructor
                  · rintro ⟨gens2, hrel2, hF2⟩
                    refine ⟨⟨nm, (partialIdxWF (normIndex (v :: vs2))).1,
                        (partialIdxWF (normIndex (v :: vs2))).2⟩ :: gens2,
                      RelSeg.item hvitem hrel2, List.Forall₂.cons ?_ hF2⟩
                    rw [matchSeg_item_keep nm nm hkw0 (v :: vs2) tyl rfl,
                      keepFor_segCheck hkw0,
                      keyComps_normIndex hcs2.1 (List.cons_ne_nil v vs2)]
                    exact segCheck_refl _ _
                  · rintro ⟨gens, hrel, hF⟩
                    cases hF with
                    | cons h1 hF2 =>
                      have hnm : nm = _ := matchSeg_names h1
                      rcases relSeg_cons_inv hrel with
                        ⟨hgeq, hv2, hrel2⟩ | ⟨k, hgeq, hv2, hrel2⟩
                      · rw [hgeq, ← hnm] at h1
                        rw [matchSeg_tup_nil_gen nm nm v vs2 tyl
                          (some []) rfl] at h1
                        exact absurd (Except.ok.inj h1) (by decide)
                      · rw [← hnm] at hv2 hrel2
                        have hkw := (valid_item_facts hwf hv2).2
                        rw [hgeq, ← hnm] at h1
                        rw [matchSeg_item_keep nm nm hkw (v :: vs2) tyl rfl,
                          keepFor_segCheck hkw] at h1
                        have hke : keyComps k = v :: vs2 :=
                          segCheck_concrete_true hcs2.1 hcond.1 hcond.2 h1
                        have hkn : normIndex (v :: vs2) = k := by
                          rw [← hke]
                          exact normIndex_keyComps hkw
                        rw [← hkn] at hrel2
                        exact ⟨_, hrel2, hF2⟩
              | none =>
                refine ⟨[], ?_, ?_⟩
                · rw [he2, hga]
                  show (if ¬ ('*' ∈ tyl) ∧ ¬ ('.' ∈ tyl) then
                      (match pyGetitemKey t (.sAttr nm :: q)
                          (normIndex (v :: vs2)) with
                       | none => (pure [] : Except PyErr (List Path))
                       | some m2 => listAux t rest m2)
                    else listItems (listAux t rest) (.tup (v :: vs2))
                      (some tyl) (pyItems t (.sAttr nm :: q))) =
                    Except.ok []
                  rw [if_pos hcond, hlk]
                  rfl
                · constructor
                  · intro h
                    exact absurd h (List.not_mem_nil p)
                  · rintro ⟨gens, hrel, hF⟩
                    exfalso
                    cases hF with
                    | cons h1 hF2 =>
                      have hnm : nm = _ := matchSeg_names h1
                      rcases relSeg_cons_inv hrel with
                        ⟨hgeq, hv2, hrel2⟩ | ⟨k, hgeq, hv2, hrel2⟩
                      · rw [hgeq, ← hnm] at h1
                        rw [matchSeg_tup_nil_gen nm nm v vs2 tyl
                          (some []) rfl] at h1
                        exact absurd (Except.ok.inj h1) (by decide)
                      · rw [← hnm] at hv2 hrel2
                        have hkw := (valid_item_facts hwf hv2).2
                        rw [hgeq, ← hnm] at h1
                        rw [matchSeg_item_keep nm nm hkw (v :: vs2) tyl rfl,
                          keepFor_segCheck hkw] at h1
                        have hke : keyComps k = v :: vs2 :=
                          segCheck_concrete_true hcs2.1 hcond.1 hcond.2 h1
                        have hkn : normIndex (v :: vs2) = k := by
                          rw [← hke]
                          exact normIndex_keyComps hkw
                        obtain ⟨knd, hknd⟩ := validAt_some hv2
                        have hsome := pyGetitemKey_of_valid hwf hknd
                        rw [← hkn, hlk] at hsome
                        exact Option.noConfusion hsome
            · obtain ⟨k0, hk0⟩ := validAt_some hvattr
              by_cases hcont : k0 = .nIndexedC
              · subst hcont
                have hrec : ∀ kv ∈ pyItems t (.sAttr nm :: q), ∃ objs,
                    listAux t rest kv.2 = .ok objs ∧ (p ∈ objs ↔
                      ∃ gens, RelSeg t kv.2 gens p ∧
                        List.Forall₂
                          (fun pat g => matchSeg pat g = .ok true)
                          rest gens) :=
                  fun kv hkv =>
                    ih hrest kv.2 (pyItems_mem_valid hwf hk0 hkv).2.1
                have hkeepOk : ∀ kv ∈ pyItems t (.sAttr nm :: q),
                    ∃ b, keepFor (.tup (v :: vs2)) (some tyl) kv.1 =
                      .ok b := by
                  intro kv hkv
                  rw [keepFor_segCheck (pyItems_mem_valid hwf hk0 hkv).2.2]
                  exact segCheck_ok _ hcs2.1
                obtain ⟨objs, heq, hiff⟩ := listItems_iff
                  (.tup (v :: vs2)) (some tyl) (listAux t rest)
                  (fun m => ∃ gens, RelSeg t m gens p ∧
                    List.Forall₂ (fun pat g => matchSeg pat g = .ok true)
                      rest gens)
                  p (pyItems t (.sAttr nm :: q)) hkeepOk hrec
                refine ⟨objs, ?_, ?_⟩
                · rw [he2, hga]
                  show (if ¬ ('*' ∈ tyl) ∧ ¬ ('.' ∈ tyl) then
                      (match pyGetitemKey t (.sAttr nm :: q)
                          (normIndex (v :: vs2)) with
                       | none => (pure [] : Except PyErr (List Path))
                       | some m2 => listAux t rest m2)
                    else listItems (listAux t rest) (.tup (v :: vs2))
                      (some tyl) (pyItems t (.sAttr nm :: q))) =
                    Except.ok objs
                  rw [if_neg hcond]
                  exact heq
                · rw [hiff]
                  constructor
                  · rintro ⟨kv, hkv, hkeep, hQ⟩
                    obtain ⟨hkv2, hkvv, hkw⟩ := pyItems_mem_valid hwf hk0 hkv
                    rw [hkv2] at hkvv hQ
                    obtain ⟨gens2, hrel2, hF2⟩ := hQ
                    refine ⟨⟨nm, (partialIdxWF kv.1).1,
                        (partialIdxWF kv.1).2⟩ :: gens2,
                      RelSeg.item hkvv hrel2, List.Forall₂.cons ?_ hF2⟩
                    rw [matchSeg_item_keep nm nm hkw (v :: vs2) tyl rfl]
                    exact hkeep
                  · rintro ⟨gens, hrel, hF⟩
                    cases hF with
                    | cons h1 hF2 =>
                      have hnm : nm = _ := matchSeg_names h1
                      rcases relSeg_cons_inv hrel with
                        ⟨hgeq, hv2, hrel2⟩ | ⟨k, hgeq, hv2, hrel2⟩
                      · rw [← hnm] at hrel2
                        exact False.elim
                          (relSeg_container_none hwf hk0 hnc hrel2)
                      · rw [← hnm] at hv2 hrel2
                        obtain ⟨knd, hknd⟩ := validAt_some hv2
                        have hkw := (valid_item_facts hwf hv2).2
                        refine ⟨(k, .sItem k :: .sAttr nm :: q),
                          pyItems_mem_of_valid hwf hknd, ?_, _, hrel2, hF2⟩
                        rw [hgeq, ← hnm] at h1
                        rw [matchSeg_item_keep nm nm hkw
                          (v :: vs2) tyl rfl] at h1
                        exact h1
              · have hitems := pyItems_scalar hk0 hcont
                have hkeepF : keepFor (.tup (v :: vs2)) (some tyl)
                    PyVal.vNone = .ok false :=
                  keepFor_vNone_false hcs2.1 hcs2.2 (List.cons_ne_nil v vs2)
                obtain ⟨objs, heq, hiff⟩ := listItems_iff
                  (.tup (v :: vs2)) (some tyl) (listAux t rest)
                  (fun m => ∃ gens, RelSeg t m gens p ∧
                    List.Forall₂ (fun pat g => matchSeg pat g = .ok true)
                      rest gens)
                  p [(.vNone, .sAttr nm :: q)]
                  (fun kv hkv => by
                    rw [List.mem_singleton.mp hkv]
                    exact ⟨false, hkeepF⟩)
                  (fun kv hkv => by
                    rw [List.mem_singleton.mp hkv]
                    exact ih hrest _ hvattr)
                refine ⟨objs, ?_, ?_⟩
                · rw [he2, hga]
                  show (if ¬ ('*' ∈ tyl) ∧ ¬ ('.' ∈ tyl) then
                      (match pyGetitemKey t (.sAttr nm :: q)
                          (normIndex (v :: vs2)) with
                       | none => (pure [] : Except PyErr (List Path))
                       | some m2 => listAux t rest m2)
                    else listItems (listAux t rest) (.tup (v :: vs2))
                      (some tyl) (pyItems t (.sAttr nm :: q))) =
                    Except.ok objs
                  rw [if_neg hcond, hitems]
                  exact heq
                · rw [hiff]
                  constructor
                  · rintro ⟨kv, hkv, hkeep, _⟩
                    rw [List.mem_singleton.mp hkv] at hkeep
                    rw [hkeepF] at hkeep
                    exact absurd (Except.ok.inj hkeep) (by decide)
                  · rintro ⟨gens, hrel, hF⟩
                    exfalso
                    cases hF with
                    | cons h1 hF2 =>
                      have hnm : nm = _ := matchSeg_names h1
                      rcases relSeg_cons_inv hrel with
                        ⟨hgeq, hv2, hrel2⟩ | ⟨k, hgeq, hv2, hrel2⟩
                      · rw [hgeq, ← hnm] at h1
                        rw [matchSeg_tup_nil_gen nm nm v vs2 tyl
                          (some []) rfl] at h1
                        exact absurd (Except.ok.inj h1) (by decide)
                      · rw [← hnm] at hv2
                        have hfacts := valid_item_facts hwf hv2
                        have hx : some k0 = some NKind.nIndexedC := by
                          rw [← hk0, hfacts.1]
                        exact absurd (Option.some.inj hx) hcont

/-- **C1** (counterexample): matcher/enumerator consistency fails as
stated.  On `treeA`, the full-wildcard pattern `x:**` *matches* the indexed
component `x` itself (its generated identifier is the single scalar segment
`x`, accepted by the wildcard), yet `list_components` from the root yields
only the member objects `x[1]` and `x[2]` — never `x` — so a reachable
component satisfies `matches` without appearing in the enumeration. -/
theorem c1_matcher_enumerator_cex :
    validAt treeA [.sAttr (lc "x")] = true ∧
    cuidMatches treeA [(⟨lc "x", .star2, none⟩ : Cid)]
      [.sAttr (lc "x")] = .ok true ∧
    listComponents treeA [(⟨lc "x", .star2, none⟩ : Cid)] [] =
      .ok [[.sItem (.vInt 1), .sAttr (lc "x")],
        [.sItem (.vInt 2), .sAttr (lc "x")]] ∧
    ([Step.sAttr (lc "x")] : Path) ∉
      [[Step.sItem (.vInt 1), .sAttr (lc "x")],
        [Step.sItem (.vInt 2), .sAttr (lc "x")]] :=
  ⟨by decide, by decide, by decide, by decide⟩

/-- **C1** (amended): matcher/enumerator consistency holds for the
non-container components.  On a well-formed tree, for a pattern of
admissible segments (each a full wildcard, or typed with admissible values
and not the single-position slice-typed segment), `list_components` from
the root never raises, and a valid non-empty candidate path that is not an
indexed container satisfies `matches` exactly when it appears among the
enumerated objects. -/
theorem c1_match_iff_listed {t : Tree} {cids : List Cid} {p : Path}
    (hwf : TreeWF t) (hpats : ∀ c ∈ cids, C1Seg c)
    (hv : validAt t p = true) (hne : p ≠ [])
    (hnc : kindAt t p ≠ some NKind.nIndexedC) :
    ∃ objs, listComponents t cids [] = .ok objs ∧
      (cuidMatches t cids p = .ok true ↔ p ∈ objs) := by
  have hroot : validAt t [] = true := by
    rw [validAt, wf_root hwf]
    rfl
  have hrev : ∀ c ∈ cids.reverse, C1Seg c :=
    fun c hc => hpats c (List.mem_reverse.mp hc)
  obtain ⟨objs, heq, hiff⟩ := listAux_iff hwf hnc cids.reverse hrev [] hroot
  refine ⟨objs, heq, ?_⟩
  have hgen := generateCuid_nonContainer hwf hv hnc
  have hm : cuidMatches t cids p = matchLoop cids (expectedGen p) := by
    show (generateCuid t p none).bind (fun gen =>
      match gen with
      | [] => Except.error PyErr.nameError
      | _ => matchLoop cids gen) = _
    rw [hgen]
    cases heg : expectedGen p with
    | nil => exact absurd heg (expectedGen_ne_nil hne)
    | cons a l => rfl
  rw [hm, matchLoop_ok_true_iff, hiff]
  constructor
  · intro hF
    refine ⟨(expectedGen p).reverse, relSeg_of_valid hwf p hv, ?_⟩
    rw [List.forall₂_reverse_iff]
    exact hF
  · rintro ⟨gens, hrel, hF⟩
    have hexp : expectedGen p = gens.reverse := by
      have h2 := relSeg_expectedGen hrel
      rw [h2]
      show gens.reverse ++ expectedGen [] = gens.reverse
      exact List.append_nil _
    have hF2 : List.Forall₂ (fun pat g => matchSeg pat g = .ok true)
        cids.reverse.reverse gens.reverse :=
      List.forall₂_reverse_iff.mpr hF
    rw [List.reverse_reverse] at hF2
    rw [hexp]
    exact hF2

/-- The amended C1 instantiated on `treeA`: the fully typed pattern
`x[#2]` enumerates to exactly the member `x[2]`, and `matches` agrees. -/
theorem c1_match_iff_listed_witness :
    ∃ objs, listComponents treeA
        [(⟨lc "x", .tup [.vInt 2], some ['#']⟩ : Cid)] [] = .ok objs ∧
      (cuidMatches treeA [(⟨lc "x", .tup [.vInt 2], some ['#']⟩ : Cid)]
          [.sItem (.vInt 2), .sAttr (lc "x")] = .ok true ↔
        ([Step.sItem (.vInt 2), .sAttr (lc "x")] : Path) ∈ objs) :=
  c1_match_iff_listed (by decide) (by decide) (by decide) (by decide)
    (by decide)

/-! ## Claim C4: coercion search priority in `find_component` -/


/-- Claim C4 as stated, at the root of tree `t` for a component named `n`:
whenever attribute access succeeds and the direct lookup of the literal
text `"3"` fails, `find_component` is claimed to return the integer-keyed
member `3` when that key exists, and otherwise the string-keyed member
`"3"`. -/
def c4Claim (t : Tree) (n : PStr) : Prop :=
  ∀ c, pyGetattr t [] n = some c →
    pyGetitemKey t c (.vStr (lc "3")) = none →
    ((∃ m, pyGetitemKey t c (.vInt 3) = some m ∧
        findComponent t [⟨n, .tup [.vStr (lc "3")], some ['.']⟩] [] = .ok (some m)) ∨
     (pyGetitemKey t c (.vInt 3) = none ∧
      ∃ m, pyGetitemKey t c (.vStr (lc "3")) = some m ∧
        findComponent t [⟨n, .tup [.vStr (lc "3")], some ['.']⟩] [] = .ok (some m)))

/-- **C4** (counterexample): on `treeC` (whose `x` holds only the member
keyed by the integer `7`) the direct lookup of `"3"` fails and the integer
key `3` is absent, so the claim demands the string-keyed member `"3"` — but
the direct lookup having failed already means no such member exists, and
`find_component` returns `None`. -/
theorem c4_coercion_cex :
    pyGetattr treeC [] (lc "x") = some [.sAttr (lc "x")] ∧
    pyGetitemKey treeC [.sAttr (lc "x")] (.vStr (lc "3")) = none ∧
    findComponent treeC [⟨lc "x", .tup [.vStr (lc "3")], some ['.']⟩] [] = .ok none ∧
    ¬ c4Claim treeC (lc "x") := by
  refine ⟨by decide, by decide, by decide, ?_⟩
  intro h
  rcases h [.sAttr (lc "x")] (by decide) (by decide) with ⟨m, hm, _⟩ | ⟨_, m, hm, _⟩
  · rw [show pyGetitemKey treeC [.sAttr (lc "x")] (.vInt 3) = none from by decide] at hm
    exact Option.noConfusion hm
  · rw [show pyGetitemKey treeC [.sAttr (lc "x")] (.vStr (lc "3")) = none from by decide] at hm
    exact Option.noConfusion hm

/-- **C4** (amended): the casts are tried in the fixed order `int`, `str`,
`slice` — but when the direct lookup of the untyped text has failed, the
`str` cast merely repeats that failed lookup, so absent the integer-keyed
member the search falls through to the slice-keyed member and otherwise
returns `None`; a string-keyed member equal to the literal text cannot be
reached from a failed direct lookup.  Stated for a single-segment
identifier `n[s]` at a root block whose child `n` is an indexed component,
with `s` numeric (`int(s)` succeeds with value `z`). -/
theorem c4_coercion_priority (t : Tree) (n s : PStr) (z : Int)
    (hroot : kindAt t [] = some .nBlock)
    (hx : kindAt t [.sAttr n] = some .nIndexedC)
    (hz : pyParseInt s = .ok z)
    (hdirect : pyGetitemKey t [.sAttr n] (.vStr s) = none) :
    findComponent t [⟨n, .tup [.vStr s], some ['.']⟩] [] =
      Except.ok (match pyGetitemKey t [.sAttr n] (.vInt z) with
        | some m => some m
        | none => pyGetitemKey t [.sAttr n] (.vSlice .vNone (.vStr s) .vNone)) := by
  have hci : castInt (.vStr s) = .ok (some (.vInt z)) := by
    show (match pyParseInt s with
          | Except.ok z => (Except.ok (some (PyVal.vInt z)) : Except PyErr (Option PyVal))
          | Except.error e => Except.ok none) = Except.ok (some (.vInt z))
    rw [hz]
  have hga : pyGetattr t [] n = some [.sAttr n] := by
    unfold pyGetattr; rw [hroot]; unfold validAt; rw [hx]; rfl
  have hchk : checkIntArgs t [.sAttr n] [.vStr s] [0] =
      Except.ok (match pyGetitemKey t [.sAttr n] (.vInt z) with
        | some m => some m
        | none => pyGetitemKey t [.sAttr n] (.vSlice .vNone (.vStr s) .vNone)) := by
    rw [checkIntArgs_single]
    rw [show ([PyVal.vStr s].getD 0 PyVal.vNone) = PyVal.vStr s from rfl]
    rw [hci, exceptOkBind]
    show Except.ok ((pyGetitemKey t [.sAttr n] (.vInt z)).orElse (fun _ =>
        (pyGetitemKey t [.sAttr n] (.vStr s)).orElse (fun _ =>
          pyGetitemKey t [.sAttr n] (.vSlice .vNone (.vStr s) .vNone)))) = _
    rw [hdirect]
    cases pyGetitemKey t [.sAttr n] (.vInt z) <;> rfl
  have e1 : findLoop t [⟨n, .tup [.vStr s], some ['.']⟩] [] =
      (match pyGetattr t [] n with
       | none => pure none
       | some c =>
         match pyGetitemKey t c (.vStr s) with
         | some m => pure (some m)
         | none => do
           let r ← checkIntArgs t c [.vStr s] [0]
           match r with
           | some m => pure (some m)
           | none => pure none) := rfl
  show findLoop t [⟨n, .tup [.vStr s], some ['.']⟩] [] = _
  rw [e1, hga]
  show (match pyGetitemKey t [.sAttr n] (.vStr s) with
        | some m => (pure (some m) : Except PyErr (Option Path))
        | none => do
          let r ← checkIntArgs t [.sAttr n] [.vStr s] [0]
          match r with
          | some m => pure (some m)
          | none => pure none) = _
  rw [hdirect]
  show (do
        let r ← checkIntArgs t [.sAttr n] [.vStr s] [0]
        match r with
        | some m => (pure (some m) : Except PyErr (Option Path))
        | none => pure none) = _
  rw [hchk]
  cases pyGetitemKey t [.sAttr n] (.vInt z) with
  | some m => rfl
  | none => cases pyGetitemKey t [.sAttr n] (.vSlice .vNone (.vStr s) .vNone) <;> rfl

/-- **C4** (witness): on `treeA`, resolving `x[1]` finds the integer-keyed
member `1` through the coercion search, the direct string lookup having
failed. -/
theorem c4_coercion_priority_witness :
    findComponent treeA [⟨lc "x", .tup [.vStr (lc "1")], some ['.']⟩] [] =
      Except.ok (some [.sItem (.vInt 1), .sAttr (lc "x")]) :=
  c4_coercion_priority treeA (lc "x") (lc "1") 1 (by decide) (by decide)
    (by decide) (by decide)

end CUID
